import Mathlib

/-! # Structural formatter and buffered channels of `code_generator`

A shallow embedding of `src/src/formatter.cpp`, `src/src/zero_copy_stream.cpp`,
`src/src/stream_adapters.cpp` and `src/src/file_streams.cpp`.

Conventions of the embedding:

* a `std::string` is a `List Char` (one `Char` per byte), a literal `"abc"` of the
  source is written `"abc".toList`;
* an `int` is an `Int`. The indent level of the formatter, which `SetIndentLevel` sets to any
  value up to `INT_MAX`, is computed on in `int`: `++indent_level_` and the product
  `indent_level_ * width` are reduced modulo `2^32` into the range of `int` (`wrapInt`), which
  is what the compiled code does where C++ leaves signed overflow undefined. Buffer sizes and
  byte counts of the channels are taken to be within the range of their types;
* an exception that leaves an operation is not part of the state: the functions give the
  state in which an operation returns, `WriteIndentThrows` is the case in which
  `WriteIndent` throws, and the statements about the text written are made for indent levels
  whose indent prefix has at most `INT_MAX` characters (`indentFits`), where nothing
  overflows and nothing is thrown;
* the bytes `{` and `}` inside a literal are written as the escapes `\x7b` and `\x7d`;
* an object with mutable fields is a structure, a member function is a function from
  the old object to the new one;
* the output channel held by a `Formatter` is represented by the sequence of bytes the
  formatter has handed to it (`WriteString` / `WriteChar` of the channel, whose return
  value the formatter ignores).
-/

namespace code_generator

/-! ## Formatter: data model (`formatter.h`) -/

/-- The enumeration `Formatter::IndentStyle { SPACES_2 = 2, SPACES_4 = 4, TABS = -1 }`. -/
inductive IndentStyle where
  | SPACES_2
  | SPACES_4
  | TABS
  deriving DecidableEq

/-- The value `static_cast<int>(indent_style_)`. -/
def IndentStyle.toInt : IndentStyle → Int
  | .SPACES_2 => 2
  | .SPACES_4 => 4
  | .TABS => -1

/-- The enumeration `Formatter::BlockType`. -/
inductive BlockType where
  | NONE
  | IF
  | ELSE
  | FOR
  | WHILE
  | CLASS
  | STRUCT
  | NAMESPACE
  deriving DecidableEq

/-- The record `Formatter::BlockState { type, prefix }`; the field `prefix` of the source is
named `label` here. -/
structure BlockState where
  type : BlockType
  label : List Char
  deriving DecidableEq

/-- The largest value of the type `int` (32 bits, two's complement). -/
def INT_MAX : Int := 2147483647

/-- The value that an `int` holds when the mathematical result of `++` or `*` is `x`: `x`
itself when `-2147483648 ≤ x ≤ INT_MAX`, and otherwise the number of that range that differs
from `x` by a multiple of `2^32` (`INT_MAX + 1` gives `-2147483648`, `2^32` gives 0). -/
def wrapInt (x : Int) : Int :=
  (x + 2147483648) % 4294967296 - 2147483648

/-- The fields of `class Formatter`. `output_` holds the bytes written to the output channel so
far, `block_stack_` is the `std::stack` with its top at the head of the list. The field
`indent_level_` is an `int`: the operations below compute on it with `wrapInt`. -/
structure Formatter where
  output_ : List Char
  indent_style_ : IndentStyle
  use_braces_ : Bool
  indent_level_ : Int
  at_start_of_line_ : Bool
  block_stack_ : List BlockState
  deriving DecidableEq

namespace Formatter

/-- The constructor `Formatter(output, style, use_braces)` over a channel that has received no
bytes yet. -/
def new (style : IndentStyle) (use_braces : Bool) : Formatter :=
  { output_ := [], indent_style_ := style, use_braces_ := use_braces,
    indent_level_ := 0, at_start_of_line_ := true, block_stack_ := [] }

/-! ## Formatter: operations (`formatter.cpp`) -/

/-- `Formatter::WriteString`: hands `str` to the output channel. -/
def WriteString (f : Formatter) (str : List Char) : Formatter :=
  { f with output_ := f.output_ ++ str }

/-- The case in which `Formatter::WriteIndent` does not return: the number of spaces
`indent_level_ * static_cast<int>(indent_style_)`, computed in `int`, is negative, and the
constructor `std::string(spaces, ' ')` throws `std::length_error` before anything is written. -/
def WriteIndentThrows (f : Formatter) : Bool :=
  decide (0 < f.indent_level_) && decide (f.indent_style_ ≠ IndentStyle.TABS) &&
    decide (wrapInt (f.indent_level_ * f.indent_style_.toInt) < 0)

/-- `Formatter::WriteIndent`. The number of spaces is the `int` product
`indent_level_ * static_cast<int>(indent_style_)`, which wraps around from level `2^29` (four
spaces a level) or `2^30` (two spaces a level). In the case `WriteIndentThrows` nothing is
written and the formatter is left as it is; the exception itself is not part of the state. -/
def WriteIndent (f : Formatter) : Formatter :=
  if f.indent_level_ ≤ 0 then f
  else if f.indent_style_ = IndentStyle.TABS then
    f.WriteString (List.replicate f.indent_level_.toNat '\t')
  else
    let spaces := wrapInt (f.indent_level_ * f.indent_style_.toInt)
    f.WriteString (List.replicate spaces.toNat ' ')

/-- `Formatter::Print(const std::string&)`. -/
def Print (f : Formatter) (text : List Char) : Formatter :=
  if text = [] then f
  else
    let f1 := if f.at_start_of_line_ then { f.WriteIndent with at_start_of_line_ := false } else f
    f1.WriteString text

/-- `Formatter::Indent`: `++indent_level_` on an `int`. -/
def Indent (f : Formatter) : Formatter :=
  { f with indent_level_ := wrapInt (f.indent_level_ + 1) }

/-- `Formatter::Outdent`. -/
def Outdent (f : Formatter) : Formatter :=
  if f.indent_level_ > 0 then { f with indent_level_ := f.indent_level_ - 1 } else f

/-- `Formatter::SetIndentLevel`. -/
def SetIndentLevel (f : Formatter) (level : Int) : Formatter :=
  { f with indent_level_ := max 0 level }

/-- `Formatter::EndLine`: `output_->WriteChar('\n')`, then the start-of-line flag is set. -/
def EndLine (f : Formatter) : Formatter :=
  { f with output_ := f.output_ ++ ['\n'], at_start_of_line_ := true }

/-- `Formatter::AddLine`. -/
def AddLine (f : Formatter) (line : List Char) : Formatter :=
  (if line ≠ [] then f.Print line else f).EndLine

/-- `Formatter::OpenBlockInternal`. -/
def OpenBlockInternal (f : Formatter) (pre : List Char) : Formatter :=
  let f1 := if pre ≠ [] then f.AddLine pre else f
  if f1.use_braces_ then (f1.AddLine "\x7b".toList).Indent else f1

/-- `Formatter::CloseBlock`. -/
def CloseBlock (f : Formatter) (suffix : List Char) : Formatter :=
  if f.use_braces_ then f.Outdent.AddLine ("\x7d".toList ++ suffix)
  else f.AddLine suffix

/-- The call `block_stack_.push(b)`. -/
def push (f : Formatter) (b : BlockState) : Formatter :=
  { f with block_stack_ := b :: f.block_stack_ }

/-- The call `block_stack_.pop()` (on a non-empty stack). -/
def pop (f : Formatter) : Formatter :=
  { f with block_stack_ := f.block_stack_.tail }

/-- An assignment through `block_stack_.top()` (on a non-empty stack): the top record is
replaced by `g top`. -/
def updateTop (f : Formatter) (g : BlockState → BlockState) : Formatter :=
  match f.block_stack_ with
  | [] => f
  | top :: rest => { f with block_stack_ := g top :: rest }

/-- The test `!block_stack_.empty() && p(block_stack_.top().type)`. -/
def topIs (f : Formatter) (p : BlockType → Bool) : Bool :=
  match f.block_stack_ with
  | [] => false
  | top :: _ => p top.type

/-- `Formatter::If`. -/
def If (f : Formatter) (condition : List Char) : Formatter :=
  ((f.AddLine ("if (".toList ++ condition ++ ")".toList)).push
    ⟨BlockType.IF, condition⟩).OpenBlockInternal []

/-- `Formatter::Else`. -/
def Else (f : Formatter) : Formatter :=
  if f.topIs (fun t => t = BlockType.IF) then
    (((f.CloseBlock " else".toList).updateTop
      (fun b => { b with type := BlockType.ELSE })).OpenBlockInternal [])
  else f

/-- `Formatter::ElseIf`. -/
def ElseIf (f : Formatter) (condition : List Char) : Formatter :=
  if f.topIs (fun t => t = BlockType.IF || t = BlockType.ELSE) then
    (((f.CloseBlock (" else if (".toList ++ condition ++ ")".toList)).updateTop
      (fun _ => ⟨BlockType.IF, condition⟩)).OpenBlockInternal [])
  else f

/-- `Formatter::EndIf`. -/
def EndIf (f : Formatter) : Formatter :=
  if f.topIs (fun t => t = BlockType.IF || t = BlockType.ELSE) then (f.CloseBlock []).pop
  else f

/-- `Formatter::For`. -/
def For (f : Formatter) (loop_header : List Char) : Formatter :=
  ((f.AddLine ("for (".toList ++ loop_header ++ ")".toList)).push
    ⟨BlockType.FOR, loop_header⟩).OpenBlockInternal []

/-- `Formatter::While`. -/
def While (f : Formatter) (condition : List Char) : Formatter :=
  ((f.AddLine ("while (".toList ++ condition ++ ")".toList)).push
    ⟨BlockType.WHILE, condition⟩).OpenBlockInternal []

/-- `Formatter::EndLoop`. -/
def EndLoop (f : Formatter) : Formatter :=
  if f.topIs (fun t => t = BlockType.FOR || t = BlockType.WHILE) then (f.CloseBlock []).pop
  else f

/-- The header line built by `Formatter::Class` and `Formatter::Struct`: the keyword and the
name, followed by `" : " + inheritance` when `inheritance` is not empty. -/
def typeHeader (keyword name inheritance : List Char) : List Char :=
  if inheritance ≠ [] then keyword ++ name ++ (" : ".toList ++ inheritance) else keyword ++ name

/-- `Formatter::Class`. -/
def Class (f : Formatter) (name inheritance : List Char) : Formatter :=
  ((f.AddLine (typeHeader "class ".toList name inheritance)).push
    ⟨BlockType.CLASS, name⟩).OpenBlockInternal []

/-- `Formatter::Struct`. -/
def Struct (f : Formatter) (name inheritance : List Char) : Formatter :=
  ((f.AddLine (typeHeader "struct ".toList name inheritance)).push
    ⟨BlockType.STRUCT, name⟩).OpenBlockInternal []

/-- `Formatter::EndClass`. -/
def EndClass (f : Formatter) : Formatter :=
  if f.topIs (fun t => t = BlockType.CLASS || t = BlockType.STRUCT) then
    (f.CloseBlock ";".toList).pop
  else f

/-- `Formatter::Namespace`. -/
def Namespace (f : Formatter) (name : List Char) : Formatter :=
  ((f.AddLine ("namespace ".toList ++ name ++ " \x7b".toList)).push
    ⟨BlockType.NAMESPACE, name⟩).Indent

/-- `Formatter::EndNamespace`. -/
def EndNamespace (f : Formatter) : Formatter :=
  match f.block_stack_ with
  | [] => f
  | top :: _ =>
    if top.type = BlockType.NAMESPACE then
      (f.Outdent.AddLine ("\x7d // namespace ".toList ++ top.label)).pop
    else f

/-- `Formatter::Public`. -/
def Public (f : Formatter) : Formatter :=
  (f.Outdent.AddLine "public:".toList).Indent

/-- `Formatter::Private`. -/
def Private (f : Formatter) : Formatter :=
  (f.Outdent.AddLine "private:".toList).Indent

/-- `Formatter::Protected`. -/
def Protected (f : Formatter) : Formatter :=
  (f.Outdent.AddLine "protected:".toList).Indent

/-- `Formatter::CurrentIndent`: the indent prefix of the current level (for a level `≥ 0`
whose `int` count of spaces is not negative). -/
def CurrentIndent (f : Formatter) : List Char :=
  if f.indent_style_ = IndentStyle.TABS then List.replicate f.indent_level_.toNat '\t'
  else List.replicate (wrapInt (f.indent_level_ * f.indent_style_.toInt)).toNat ' '

end Formatter

/-- The indent prefix of level `L` in each style: `L` tab characters, or `L * 2` or `L * 4`
spaces. -/
def indentPrefix (style : IndentStyle) (L : Nat) : List Char :=
  match style with
  | .SPACES_2 => List.replicate (L * 2) ' '
  | .SPACES_4 => List.replicate (L * 4) ' '
  | .TABS => List.replicate L '\t'

/-- The number of characters of the indent prefix of level `L` (`L * 2` or `L * 4` spaces, or
`L` tab characters) is at most `INT_MAX`: the case in which the `int` arithmetic of
`Formatter::WriteIndent` at level `L` does not overflow. -/
def indentFits (style : IndentStyle) (L : Nat) : Bool :=
  match style with
  | .SPACES_2 => decide ((L : Int) * 2 ≤ INT_MAX)
  | .SPACES_4 => decide ((L : Int) * 4 ≤ INT_MAX)
  | .TABS => decide ((L : Int) ≤ INT_MAX)

/-! ## Call sequences -/

/-- One call of the block-structured part of the formatter interface. -/
inductive Call where
  | AddLine (line : List Char)
  | If (condition : List Char)
  | ElseIf (condition : List Char)
  | Else
  | EndIf
  | For (loop_header : List Char)
  | While (condition : List Char)
  | EndLoop
  | Class (name inheritance : List Char)
  | Struct (name inheritance : List Char)
  | EndClass
  | Namespace (name : List Char)
  | EndNamespace
  deriving DecidableEq

/-- The formatter after one call. -/
def Formatter.call (f : Formatter) : Call → Formatter
  | .AddLine line => f.AddLine line
  | .If condition => f.If condition
  | .ElseIf condition => f.ElseIf condition
  | .Else => f.Else
  | .EndIf => f.EndIf
  | .For loop_header => f.For loop_header
  | .While condition => f.While condition
  | .EndLoop => f.EndLoop
  | .Class name inheritance => f.Class name inheritance
  | .Struct name inheritance => f.Struct name inheritance
  | .EndClass => f.EndClass
  | .Namespace name => f.Namespace name
  | .EndNamespace => f.EndNamespace

/-- The formatter after a sequence of calls, made in order. -/
def Formatter.run (f : Formatter) (cs : List Call) : Formatter :=
  cs.foldl Formatter.call f

/-- The four kinds of construct that an `End*` call closes. -/
inductive BlockKind where
  | conditional
  | loop
  | typeDef
  | nameSpace
  deriving DecidableEq

/-- The kind of construct a block record stands for (`NONE` stands for no construct). -/
def kindOf : BlockType → Option BlockKind
  | .NONE => none
  | .IF => some .conditional
  | .ELSE => some .conditional
  | .FOR => some .loop
  | .WHILE => some .loop
  | .CLASS => some .typeDef
  | .STRUCT => some .typeDef
  | .NAMESPACE => some .nameSpace

/-- Bracket matching, one call: `os` lists the constructs that are open (innermost first).
An opening call adds its kind, `ElseIf` and `Else` need a conditional to be innermost, an
`End*` call needs its own kind to be innermost and removes it. `none` means the call does
not fit. -/
def expect : List BlockKind → Call → Option (List BlockKind)
  | os, .AddLine _ => some os
  | os, .If _ => some (.conditional :: os)
  | .conditional :: os, .ElseIf _ => some (.conditional :: os)
  | .conditional :: os, .Else => some (.conditional :: os)
  | .conditional :: os, .EndIf => some os
  | os, .For _ => some (.loop :: os)
  | os, .While _ => some (.loop :: os)
  | .loop :: os, .EndLoop => some os
  | os, .Class _ _ => some (.typeDef :: os)
  | os, .Struct _ _ => some (.typeDef :: os)
  | .typeDef :: os, .EndClass => some os
  | os, .Namespace _ => some (.nameSpace :: os)
  | .nameSpace :: os, .EndNamespace => some os
  | _, _ => none

/-- Bracket matching of a call sequence that starts with the constructs `os` open and has to
end with none open. -/
def matchedFrom : List BlockKind → List Call → Bool
  | os, [] => os.isEmpty
  | os, c :: cs =>
    match expect os c with
    | some os1 => matchedFrom os1 cs
    | none => false

/-- A well-matched (properly nested) sequence of calls: every `If` is closed by its own
`EndIf` with any number of `ElseIf` / `Else` branches in between, every `For` / `While` by its
`EndLoop`, every `Class` / `Struct` by its `EndClass`, every `Namespace` by its
`EndNamespace`; `AddLine` may stand anywhere. -/
def WellMatched (cs : List Call) : Bool :=
  matchedFrom [] cs

/-- The kind of the construct on top of the block stack, `none` when the stack is empty (or
its top record has type `NONE`). -/
def Formatter.topKind (f : Formatter) : Option BlockKind :=
  match f.block_stack_ with
  | [] => none
  | top :: _ => kindOf top.type

/-- The four closing calls. -/
inductive EndCall where
  | EndIf
  | EndLoop
  | EndClass
  | EndNamespace
  deriving DecidableEq

/-- A closing call as a call. -/
def EndCall.toCall : EndCall → Call
  | .EndIf => Call.EndIf
  | .EndLoop => Call.EndLoop
  | .EndClass => Call.EndClass
  | .EndNamespace => Call.EndNamespace

/-- The kind of construct a closing call closes. -/
def EndCall.closes : EndCall → BlockKind
  | .EndIf => BlockKind.conditional
  | .EndLoop => BlockKind.loop
  | .EndClass => BlockKind.typeDef
  | .EndNamespace => BlockKind.nameSpace

/-- The sequence `cs` with the call `c` inserted at position `i` (at the end when `i` is
beyond the end). -/
def insertCall (cs : List Call) (i : Nat) (c : Call) : List Call :=
  cs.take i ++ c :: cs.drop i

/-- The number of indent levels that the open constructs `os` account for: every construct
in brace style, only the namespaces otherwise. -/
def depth (use_braces : Bool) : List BlockKind → Int
  | [] => 0
  | k :: os => (if use_braces || k = BlockKind.nameSpace then 1 else 0) + depth use_braces os

/-- The formatter `f` is in step with the open constructs `os` of a sequence that started at
indent level `L` over the block stack `base`. -/
def InStep (L : Int) (base : List BlockState) (os : List BlockKind) (f : Formatter) : Prop :=
  ∃ top : List BlockState, f.block_stack_ = top ++ base ∧
    top.map (fun b => kindOf b.type) = os.map some ∧
    f.indent_level_ = L + depth f.use_braces_ os

/-! ## Buffered channels: the abstract interfaces (`zero_copy_stream.h`)

A span handed out by `Next` of an output channel is a position in the adapter's own storage
together with a size; writing through the pointer (`memcpy` into the span) is the adapter's
`store`. A span handed out by `Next` of an input channel is the sequence of bytes it shows.
A result `none` of a loop stands for no result: the loop did not finish within the fuel, or
the source's behaviour is undefined (a span of negative size passed to `memcpy`). -/

/-- The virtual functions of `ZeroCopyOutputStream` over the adapter state `σ`. `Next` returns
the new state and, on success, the position and size of the lent span. -/
structure ZeroCopyOutputStream (σ : Type) where
  Next : σ → σ × Option (Nat × Int)
  BackUp : σ → Int → σ
  ByteCount : σ → Int
  Flush : σ → σ × Bool
  store : σ → Nat → List Char → σ

namespace ZeroCopyOutputStream

variable {σ : Type}

/-- `ZeroCopyOutputStream::WriteChar`. -/
def WriteChar (S : ZeroCopyOutputStream σ) (st : σ) (value : Char) : σ × Bool :=
  match S.Next st with
  | (st1, none) => (st1, false)
  | (st1, some (pos, size)) =>
    if size < 1 then (st1, false)
    else
      let st2 := S.store st1 pos [value]
      (if size > 1 then S.BackUp st2 (size - 1) else st2, true)

/-- `ZeroCopyOutputStream::WriteRaw(data, size)` with `size = data.length`: the loop
`while (remaining > 0)`, one iteration per unit of fuel. -/
def WriteRaw (S : ZeroCopyOutputStream σ) : Nat → σ → List Char → Option (σ × Bool)
  | _, st, [] => some (st, true)
  | 0, _, _ :: _ => none
  | fuel + 1, st, c :: cs =>
    match S.Next st with
    | (st1, none) => some (st1, false)
    | (st1, some (pos, dst_size)) =>
      if dst_size < 0 then none
      else
        let copy_size : Int := min dst_size ((c :: cs).length : Int)
        let st2 := S.store st1 pos ((c :: cs).take copy_size.toNat)
        let st3 := if copy_size < dst_size then S.BackUp st2 (dst_size - copy_size) else st2
        WriteRaw S fuel st3 ((c :: cs).drop copy_size.toNat)

/-- `ZeroCopyOutputStream::WriteString`. -/
def WriteString (S : ZeroCopyOutputStream σ) (fuel : Nat) (st : σ) (str : List Char) :
    Option (σ × Bool) :=
  S.WriteRaw fuel st str

end ZeroCopyOutputStream

/-- The virtual functions of `ZeroCopyInputStream` over the adapter state `σ`. `Next` returns
the new state and, on success, the bytes of the lent span (its size is their number). -/
structure ZeroCopyInputStream (σ : Type) where
  Next : σ → σ × Option (List Char)
  BackUp : σ → Int → σ
  ByteCount : σ → Int

namespace ZeroCopyInputStream

variable {σ : Type}

/-- The loop of the branch `size < 0` of `ZeroCopyInputStream::ReadToString`:
`while (Next(&data, &chunk_size)) str->append(data, chunk_size)`, one call of `Next` per unit
of fuel. The result is the stream and the string when the loop is left. -/
def readAll (S : ZeroCopyInputStream σ) : Nat → σ → List Char → Option (σ × List Char)
  | 0, _, _ => none
  | fuel + 1, st, str =>
    match S.Next st with
    | (st1, none) => some (st1, str)
    | (st1, some chunk) => readAll S fuel st1 (str ++ chunk)

/-- `ZeroCopyInputStream::ReadRaw(buffer, size)`: the loop `while (remaining > 0)`, one
iteration per unit of fuel; `acc` holds the bytes copied to `buffer` so far. -/
def ReadRaw (S : ZeroCopyInputStream σ) : Nat → σ → Int → List Char →
    Option (σ × List Char × Bool)
  | 0, st, remaining, acc => if remaining > 0 then none else some (st, acc, true)
  | fuel + 1, st, remaining, acc =>
    if remaining > 0 then
      match S.Next st with
      | (st1, none) => some (st1, acc, false)
      | (st1, some src) =>
        let copy_size : Int := min (src.length : Int) remaining
        let st2 := if copy_size < (src.length : Int)
          then S.BackUp st1 ((src.length : Int) - copy_size) else st1
        ReadRaw S fuel st2 (remaining - copy_size) (acc ++ src.take copy_size.toNat)
    else some (st, acc, true)

/-- `ZeroCopyInputStream::ReadToString(str, size)`. For `size < 0` every lent span is appended
to `str`. For `size ≥ 0` the source passes `&(*str)[0]` to `ReadRaw` after `reserve`, which
does not change the length of `str`: the bytes read overwrite `str` from its first byte on, and
those beyond its length are not part of the string. -/
def ReadToString (S : ZeroCopyInputStream σ) (fuel : Nat) (st : σ) (str : List Char)
    (size : Int) : Option (σ × List Char × Bool) :=
  if size < 0 then
    match S.readAll fuel st str with
    | none => none
    | some (st1, str1) => some (st1, str1, true)
  else
    match S.ReadRaw fuel st size [] with
    | none => none
    | some (st1, bytes, ok) => some (st1, bytes.take str.length ++ str.drop bytes.length, ok)

end ZeroCopyInputStream

/-! ## File-backed adapters (`file_streams.cpp`) -/

/-- The environment behind a `FILE*` opened for writing, as the calls of the C library show
it: `written` holds the bytes that `fwrite` has accepted so far (the content of the file once
they are flushed), `room` is the number of further bytes that `fwrite` accepts before it
reports a short count (`none`: no limit), and `fflush_ok` tells whether `fflush` succeeds. A
`FILE` with a buffer of its own, such as the one that `fopen` returns, takes the bytes of a
small `fwrite` into that buffer and reports the full count; a device that takes no more bytes
then shows in the result of `fflush` (`fflush_ok = false`), not in the count of `fwrite`. -/
structure OutFile where
  written : List Char
  room : Option Nat
  fflush_ok : Bool
  deriving DecidableEq

/-- A file just created by `fopen(name, "wb")` on a device on which every write succeeds:
`fwrite` accepts every byte and `fflush` succeeds. -/
def OutFile.fresh : OutFile :=
  { written := [], room := none, fflush_ok := true }

/-- The call `fwrite(bytes, 1, n, file)`: the file afterwards and the count that `fwrite`
returns, which is short only when fewer than `n` bytes of `room` were left. -/
def OutFile.fwrite (file : OutFile) (bytes : List Char) : OutFile × Nat :=
  match file.room with
  | none => ({ file with written := file.written ++ bytes }, bytes.length)
  | some r =>
    ({ file with written := file.written ++ bytes.take r, room := some (r - bytes.length) },
      min r bytes.length)

/-- The fields of `FileOutputStream` that carry data (`filename_` and `own_file_` only decide
which file is opened and whether it is closed). `buffer_` is the `std::vector<char>`. -/
structure FileOutputStream where
  file_ : OutFile
  buffer_ : List Char
  buffer_offset_ : Int
  total_bytes_ : Int
  deriving DecidableEq

namespace FileOutputStream

/-- The constructors of `FileOutputStream`: a buffer of `buffer_size` bytes over `file`. -/
def new (file : OutFile) (buffer_size : Nat) : FileOutputStream :=
  { file_ := file, buffer_ := List.replicate buffer_size '\x00', buffer_offset_ := 0,
    total_bytes_ := 0 }

/-- `FileOutputStream::FlushBuffer`. -/
def FlushBuffer (s : FileOutputStream) : FileOutputStream × Bool :=
  if s.buffer_offset_ > 0 then
    let r := s.file_.fwrite (s.buffer_.take s.buffer_offset_.toNat)
    if (r.2 : Int) ≠ s.buffer_offset_ then ({ s with file_ := r.1 }, false)
    else
      ({ s with file_ := r.1, total_bytes_ := s.total_bytes_ + s.buffer_offset_,
                buffer_offset_ := 0 }, r.1.fflush_ok)
  else (s, true)

/-- `FileOutputStream::Next`. -/
def Next (s : FileOutputStream) : FileOutputStream × Option (Nat × Int) :=
  let r := if s.buffer_offset_ = (s.buffer_.length : Int) then s.FlushBuffer else (s, true)
  if r.2 = false then (r.1, none)
  else
    ({ r.1 with buffer_offset_ := (r.1.buffer_.length : Int) },
      some (r.1.buffer_offset_.toNat, (r.1.buffer_.length : Int) - r.1.buffer_offset_))

/-- `FileOutputStream::BackUp`. -/
def BackUp (s : FileOutputStream) (count : Int) : FileOutputStream :=
  if count > 0 ∧ count ≤ s.buffer_offset_ then
    { s with buffer_offset_ := s.buffer_offset_ - count }
  else s

/-- `FileOutputStream::ByteCount`. -/
def ByteCount (s : FileOutputStream) : Int :=
  s.total_bytes_ + s.buffer_offset_

/-- `FileOutputStream::Flush`. -/
def Flush (s : FileOutputStream) : FileOutputStream × Bool :=
  s.FlushBuffer

/-- The destructor `~FileOutputStream`: the file it leaves behind. -/
def dispose (s : FileOutputStream) : OutFile :=
  (if s.buffer_offset_ > 0 then s.FlushBuffer.1 else s).file_

/-- A `memcpy` of `bytes` to position `pos` of `buffer_`. -/
def store (s : FileOutputStream) (pos : Nat) (bytes : List Char) : FileOutputStream :=
  { s with buffer_ := s.buffer_.take pos ++ bytes ++ s.buffer_.drop (pos + bytes.length) }

/-- `FileOutputStream` as a `ZeroCopyOutputStream`. -/
def stream : ZeroCopyOutputStream FileOutputStream :=
  { Next := Next, BackUp := BackUp, ByteCount := ByteCount, Flush := Flush, store := store }

end FileOutputStream

/-- The environment behind a `FILE*` opened for reading: the bytes from the read position to
the end of the file. -/
structure InFile where
  unread : List Char
  deriving DecidableEq

/-- The call `fread(buffer, 1, n, file)` without read errors: the file afterwards and the
bytes read. -/
def InFile.fread (file : InFile) (n : Nat) : InFile × List Char :=
  ({ unread := file.unread.drop n }, file.unread.take n)

/-- The fields of `FileInputStream` that carry data. -/
structure FileInputStream where
  file_ : InFile
  buffer_ : List Char
  buffer_offset_ : Int
  buffer_available_ : Int
  total_bytes_ : Int
  last_returned_size_ : Int
  deriving DecidableEq

namespace FileInputStream

/-- The constructors of `FileInputStream`: a buffer of `buffer_size` bytes over `file`. -/
def new (file : InFile) (buffer_size : Nat) : FileInputStream :=
  { file_ := file, buffer_ := List.replicate buffer_size '\x00', buffer_offset_ := 0,
    buffer_available_ := 0, total_bytes_ := 0, last_returned_size_ := 0 }

/-- `FileInputStream::Refill`. -/
def Refill (s : FileInputStream) : FileInputStream × Bool :=
  if s.buffer_offset_ < s.buffer_available_ then (s, true)
  else
    let r := s.file_.fread s.buffer_.length
    if r.2.length = 0 then ({ s with file_ := r.1 }, false)
    else
      ({ s with file_ := r.1, buffer_ := r.2 ++ s.buffer_.drop r.2.length,
                buffer_offset_ := 0, buffer_available_ := (r.2.length : Int) }, true)

/-- `FileInputStream::Next`. -/
def Next (s : FileInputStream) : FileInputStream × Option (List Char) :=
  let r := if s.buffer_offset_ ≥ s.buffer_available_ then s.Refill else (s, true)
  if r.2 = false then (r.1, none)
  else
    ({ r.1 with last_returned_size_ := r.1.buffer_available_ - r.1.buffer_offset_,
                buffer_offset_ := r.1.buffer_available_ },
      some ((r.1.buffer_.drop r.1.buffer_offset_.toNat).take
        (r.1.buffer_available_ - r.1.buffer_offset_).toNat))

/-- `FileInputStream::BackUp`. -/
def BackUp (s : FileInputStream) (count : Int) : FileInputStream :=
  if count > 0 ∧ count ≤ s.last_returned_size_ then
    { s with buffer_offset_ := s.buffer_offset_ - count, last_returned_size_ := 0 }
  else s

/-- `FileInputStream::ByteCount`. -/
def ByteCount (s : FileInputStream) : Int :=
  s.total_bytes_ + s.buffer_offset_

/-- `FileInputStream` as a `ZeroCopyInputStream`. -/
def stream : ZeroCopyInputStream FileInputStream :=
  { Next := Next, BackUp := BackUp, ByteCount := ByteCount }

end FileInputStream

/-! ## Adapters over a string and over a `std::ostream` (`stream_adapters.cpp`) -/

/-- The call `std::string::resize(n)`: the first `n` bytes, padded with zero bytes. -/
def resize (s : List Char) (n : Nat) : List Char :=
  s.take n ++ List.replicate (n - s.length) '\x00'

/-- The fields of `StringOutputStream`; `target_` is the string pointed to. -/
structure StringOutputStream where
  target_ : List Char
  total_bytes_ : Int
  deriving DecidableEq

namespace StringOutputStream

/-- The constructor `StringOutputStream(target)`. -/
def new (target : List Char) : StringOutputStream :=
  { target_ := target, total_bytes_ := 0 }

/-- `StringOutputStream::Next`. -/
def Next (s : StringOutputStream) : StringOutputStream × Option (Nat × Int) :=
  let old_size := s.target_.length
  let new_size := max (old_size * 2) 256
  ({ target_ := resize s.target_ new_size,
     total_bytes_ := s.total_bytes_ + ((new_size - old_size : Nat) : Int) },
    some (old_size, ((new_size - old_size : Nat) : Int)))

/-- `StringOutputStream::BackUp` (for a `count` that is at most the size of the target). -/
def BackUp (s : StringOutputStream) (count : Int) : StringOutputStream :=
  if count > 0 then
    { target_ := resize s.target_ ((s.target_.length : Int) - count).toNat,
      total_bytes_ := s.total_bytes_ - count }
  else s

/-- `StringOutputStream::ByteCount`. -/
def ByteCount (s : StringOutputStream) : Int :=
  s.total_bytes_

/-- The inherited `ZeroCopyOutputStream::Flush`, which returns `true`. -/
def Flush (s : StringOutputStream) : StringOutputStream × Bool :=
  (s, true)

/-- A `memcpy` of `bytes` to position `pos` of the target. -/
def store (s : StringOutputStream) (pos : Nat) (bytes : List Char) : StringOutputStream :=
  { s with target_ := s.target_.take pos ++ bytes ++ s.target_.drop (pos + bytes.length) }

/-- `StringOutputStream` as a `ZeroCopyOutputStream`. -/
def stream : ZeroCopyOutputStream StringOutputStream :=
  { Next := Next, BackUp := BackUp, ByteCount := ByteCount, Flush := Flush, store := store }

end StringOutputStream

/-- The environment behind a `std::ostream*`: the bytes the sink has received, the number of
further bytes it accepts (`none`: no limit), and its fail state. -/
structure OStream where
  received : List Char
  room : Option Nat
  failed : Bool
  deriving DecidableEq

/-- A sink that has received nothing and accepts every write. -/
def OStream.fresh : OStream :=
  { received := [], room := none, failed := false }

/-- The call `output->write(bytes, n)`: nothing happens in the fail state; otherwise the sink
takes what it has room for and enters the fail state when that is not all. -/
def OStream.write (o : OStream) (bytes : List Char) : OStream :=
  if o.failed then o
  else
    match o.room with
    | none => { o with received := o.received ++ bytes }
    | some r =>
      { received := o.received ++ bytes.take r, room := some (r - bytes.length),
        failed := decide (r < bytes.length) }

/-- The fields of `OStreamOutputStream`; `buffer_` is the array `new char[buffer_size_]`. -/
structure OStreamOutputStream where
  output_ : OStream
  buffer_ : List Char
  buffer_size_ : Int
  buffer_offset_ : Int
  total_bytes_ : Int
  deriving DecidableEq

namespace OStreamOutputStream

/-- The constructor `OStreamOutputStream(output, buffer_size)`. -/
def new (output : OStream) (buffer_size : Nat) : OStreamOutputStream :=
  { output_ := output, buffer_ := List.replicate buffer_size '\x00',
    buffer_size_ := (buffer_size : Int), buffer_offset_ := 0, total_bytes_ := 0 }

/-- `OStreamOutputStream::Flush`. -/
def Flush (s : OStreamOutputStream) : OStreamOutputStream × Bool :=
  if s.buffer_offset_ > 0 then
    let o := s.output_.write (s.buffer_.take s.buffer_offset_.toNat)
    if o.failed then ({ s with output_ := o }, false)
    else
      ({ s with output_ := o, total_bytes_ := s.total_bytes_ + s.buffer_offset_,
                buffer_offset_ := 0 }, true)
  else (s, true)

/-- `OStreamOutputStream::Next`. -/
def Next (s : OStreamOutputStream) : OStreamOutputStream × Option (Nat × Int) :=
  let r := if s.buffer_offset_ = s.buffer_size_ then s.Flush else (s, true)
  if r.2 = false then (r.1, none)
  else
    ({ r.1 with buffer_offset_ := r.1.buffer_size_ },
      some (r.1.buffer_offset_.toNat, r.1.buffer_size_ - r.1.buffer_offset_))

/-- `OStreamOutputStream::BackUp`. -/
def BackUp (s : OStreamOutputStream) (count : Int) : OStreamOutputStream :=
  if count ≤ s.buffer_offset_ then { s with buffer_offset_ := s.buffer_offset_ - count }
  else s

/-- `OStreamOutputStream::ByteCount`. -/
def ByteCount (s : OStreamOutputStream) : Int :=
  s.total_bytes_ + s.buffer_offset_

/-- The destructor `~OStreamOutputStream`: the sink it leaves behind. -/
def dispose (s : OStreamOutputStream) : OStream :=
  if s.buffer_offset_ > 0 then s.output_.write (s.buffer_.take s.buffer_offset_.toNat)
  else s.output_

/-- A `memcpy` of `bytes` to position `pos` of `buffer_`. -/
def store (s : OStreamOutputStream) (pos : Nat) (bytes : List Char) : OStreamOutputStream :=
  { s with buffer_ := s.buffer_.take pos ++ bytes ++ s.buffer_.drop (pos + bytes.length) }

/-- `OStreamOutputStream` as a `ZeroCopyOutputStream`. -/
def stream : ZeroCopyOutputStream OStreamOutputStream :=
  { Next := Next, BackUp := BackUp, ByteCount := ByteCount, Flush := Flush, store := store }

end OStreamOutputStream

/-! ## Sessions on an output channel -/

/-- A sequence of `Next` calls, each followed by `BackUp(k)` for the next `k` of `ks`: the
channel afterwards and the sizes that were lent. The session ends early when `Next` fails. -/
def lendCommit {σ : Type} (S : ZeroCopyOutputStream σ) : σ → List Int → σ × List Int
  | st, [] => (st, [])
  | st, k :: ks =>
    match S.Next st with
    | (st1, none) => (st1, [])
    | (st1, some (_, size)) =>
      let r := lendCommit S (S.BackUp st1 k) ks
      (r.1, size :: r.2)

/-- The sum of `lent size − k` over the calls of a session. -/
def committed : List Int → List Int → Int
  | size :: sizes, k :: ks => (size - k) + committed sizes ks
  | _, _ => 0

/-- Every `k` of a session is within the span it gives back part of: `0 ≤ k ≤ lent size`,
for as many lent sizes as there are calls. -/
def inContract : List Int → List Int → Bool
  | size :: sizes, k :: ks => decide (0 ≤ k) && decide (k ≤ size) && inContract sizes ks
  | [], [] => true
  | _, _ => false

/-- The state of a `FileOutputStream` with a buffer of `B` bytes over a file that accepts
every write: the cursor is within the buffer. -/
def FileOutputStream.Inv (B : Nat) (s : FileOutputStream) : Prop :=
  s.buffer_.length = B ∧ 0 ≤ s.buffer_offset_ ∧ s.buffer_offset_ ≤ (B : Int) ∧
    s.file_.room = none ∧ s.file_.fflush_ok = true

/-- The bytes a `FileOutputStream` has accepted: those in the file, then those buffered. -/
def FileOutputStream.content (s : FileOutputStream) : List Char :=
  s.file_.written ++ s.buffer_.take s.buffer_offset_.toNat

/-- The sink of an `OStreamOutputStream` accepts every write. -/
def OStreamOutputStream.SinkOk (s : OStreamOutputStream) : Prop :=
  s.output_.room = none ∧ s.output_.failed = false

/-- The state of an `OStreamOutputStream` with a buffer of `B` bytes over a sink that accepts
every write: the cursor is within the buffer. -/
def OStreamOutputStream.Inv (B : Nat) (s : OStreamOutputStream) : Prop :=
  s.buffer_size_ = (B : Int) ∧ 0 ≤ s.buffer_offset_ ∧ s.buffer_offset_ ≤ (B : Int) ∧
    s.SinkOk

/-! ## Sample inputs -/

/-- A well-matched sequence that nests every kind of construct. -/
def sampleNested : List Call :=
  [Call.Namespace "n".toList, Call.Class "C".toList [], Call.If "a".toList,
    Call.AddLine "x();".toList, Call.ElseIf "b".toList, Call.Else, Call.For "i".toList,
    Call.EndLoop, Call.EndIf, Call.EndClass, Call.Struct "S".toList "B".toList,
    Call.While "c".toList, Call.EndLoop, Call.EndClass, Call.EndNamespace]

/-- A well-matched sequence of two nested conditionals. -/
def sampleChain : List Call :=
  [Call.If "a".toList, Call.If "b".toList, Call.EndIf, Call.AddLine "x();".toList, Call.EndIf]

/-- A formatter that has one conditional open: the state after `If("z")` on a fresh
formatter. -/
def Formatter.inConditional : Formatter :=
  (Formatter.new IndentStyle.SPACES_2 true).If "z".toList

/-- A formatter that has one loop open: the state after `For(...)` on a fresh formatter. -/
def Formatter.inLoop : Formatter :=
  (Formatter.new IndentStyle.SPACES_2 true).For "int i = 0; i < n; ++i".toList

/-! ## Formatter: comments, guards, enumerations and single-line emitters -/

/-- The call `boost::split(lines, text, boost::is_any_of(sep))` for a single separator byte
(tokens are not compressed): the pieces of `text` between the separators, an empty piece
included where two separators are adjacent or one stands at either end. -/
def split (sep : Char) : List Char → List (List Char)
  | [] => [[]]
  | c :: cs =>
    if c = sep then [] :: split sep cs
    else
      match split sep cs with
      | [] => [[c]]
      | l :: ls => (c :: l) :: ls

namespace Formatter

/-- The loop `for (const auto& line : lines) AddLine(line)`. -/
def addLines (f : Formatter) (lines : List (List Char)) : Formatter :=
  lines.foldl AddLine f

/-- `Formatter::Print(const std::vector<std::string>&)`. -/
def PrintLines (f : Formatter) (lines : List (List Char)) : Formatter :=
  f.addLines lines

/-- `Formatter::Print(int)`: prints `std::to_string(value)`. -/
def PrintInt (f : Formatter) (value : Int) : Formatter :=
  f.Print (toString value).toList

/-- `Formatter::AddComment`. -/
def AddComment (f : Formatter) (comment : List Char) : Formatter :=
  if '\n' ∉ comment then ((f.Print "// ".toList).Print comment).EndLine
  else ((((f.AddLine "/*".toList).Indent).addLines (split '\n' comment)).Outdent).AddLine
    "*/".toList

/-- The constructor `Scope::Scope(formatter, prefix)`: its effect on the formatter. -/
def ScopeNew (f : Formatter) (pre : List Char) : Formatter :=
  (if pre ≠ [] then f.AddLine pre else f).Indent

/-- The destructor `Scope::~Scope` of a guard (its `formatter_` is not null): its effect on
the formatter. -/
def ScopeRelease (f : Formatter) : Formatter :=
  f.Outdent.CloseBlock []

/-- `Formatter::OpenBlock`: the formatter after the call; the guard returned is
`new Scope(this)`, whose constructor has run with the empty prefix. -/
def OpenBlock (f : Formatter) (pre : List Char) : Formatter :=
  let f1 := if pre ≠ [] then f.AddLine pre else f
  let f2 := if f1.use_braces_ then (f1.AddLine "\x7b".toList).Indent else f1
  f2.ScopeNew []

/-- The lines of the loop of `Formatter::Enum`: every value but the last is followed by a
comma. -/
def enumLines : List (List Char) → List (List Char)
  | [] => []
  | [v] => [v]
  | v :: w :: vs => (v ++ ",".toList) :: enumLines (w :: vs)

/-- `Formatter::Enum`. -/
def Enum (f : Formatter) (name : List Char) (values : List (List Char)) : Formatter :=
  let enum_def := (if ¬ "class".toList <:+: name then "enum".toList ++ " class".toList
    else "enum".toList) ++ (" ".toList ++ name)
  (((f.OpenBlockInternal enum_def).addLines (enumLines values)).CloseBlock ";".toList)

/-- `Formatter::Include`. -/
def Include (f : Formatter) (header : List Char) : Formatter :=
  f.AddLine ("#include ".toList ++ header)

/-- `Formatter::Define`. -/
def Define (f : Formatter) (m : List Char) : Formatter :=
  f.AddLine ("#define ".toList ++ m)

/-- `Formatter::IfDef`. -/
def IfDef (f : Formatter) (m : List Char) : Formatter :=
  f.AddLine ("#ifdef ".toList ++ m)

/-- `Formatter::IfNDef`. -/
def IfNDef (f : Formatter) (m : List Char) : Formatter :=
  f.AddLine ("#ifndef ".toList ++ m)

/-- `Formatter::EndIfDef`. -/
def EndIfDef (f : Formatter) : Formatter :=
  f.AddLine "#endif".toList

/-- `Formatter::Flush`: `output_->Flush()`, which writes no byte of its own. -/
def Flush (f : Formatter) : Formatter :=
  f

end Formatter

/-- One call of a public operation of `Formatter` or of its guard `Scope`. `PrintFormat` is
`Print` of the formatted text, `Print(const char*)` is `Print` of the string; the `const`
queries `GetIndentLevel` and `CurrentIndent` change nothing and are left out. -/
inductive Op where
  | Print (text : List Char)
  | PrintInt (value : Int)
  | PrintLines (lines : List (List Char))
  | Indent
  | Outdent
  | SetIndentLevel (level : Int)
  | OpenBlock (pre : List Char)
  | ScopeNew (pre : List Char)
  | ScopeRelease
  | CloseBlock (suffix : List Char)
  | OpenBlockInternal (pre : List Char)
  | EndLine
  | AddLine (line : List Char)
  | AddComment (comment : List Char)
  | If (condition : List Char)
  | Else
  | ElseIf (condition : List Char)
  | EndIf
  | For (loop_header : List Char)
  | While (condition : List Char)
  | EndLoop
  | Class (name inheritance : List Char)
  | Struct (name inheritance : List Char)
  | EndClass
  | Namespace (name : List Char)
  | EndNamespace
  | Enum (name : List Char) (values : List (List Char))
  | Public
  | Private
  | Protected
  | Include (header : List Char)
  | Define (m : List Char)
  | IfDef (m : List Char)
  | IfNDef (m : List Char)
  | EndIfDef
  | Flush
  deriving DecidableEq

/-- The formatter after one public operation. -/
def Formatter.apply (f : Formatter) : Op → Formatter
  | .Print text => f.Print text
  | .PrintInt value => f.PrintInt value
  | .PrintLines lines => f.PrintLines lines
  | .Indent => f.Indent
  | .Outdent => f.Outdent
  | .SetIndentLevel level => f.SetIndentLevel level
  | .OpenBlock pre => f.OpenBlock pre
  | .ScopeNew pre => f.ScopeNew pre
  | .ScopeRelease => f.ScopeRelease
  | .CloseBlock suffix => f.CloseBlock suffix
  | .OpenBlockInternal pre => f.OpenBlockInternal pre
  | .EndLine => f.EndLine
  | .AddLine line => f.AddLine line
  | .AddComment comment => f.AddComment comment
  | .If condition => f.If condition
  | .Else => f.Else
  | .ElseIf condition => f.ElseIf condition
  | .EndIf => f.EndIf
  | .For loop_header => f.For loop_header
  | .While condition => f.While condition
  | .EndLoop => f.EndLoop
  | .Class name inheritance => f.Class name inheritance
  | .Struct name inheritance => f.Struct name inheritance
  | .EndClass => f.EndClass
  | .Namespace name => f.Namespace name
  | .EndNamespace => f.EndNamespace
  | .Enum name values => f.Enum name values
  | .Public => f.Public
  | .Private => f.Private
  | .Protected => f.Protected
  | .Include header => f.Include header
  | .Define m => f.Define m
  | .IfDef m => f.IfDef m
  | .IfNDef m => f.IfNDef m
  | .EndIfDef => f.EndIfDef
  | .Flush => f.Flush

/-- The formatter after a sequence of public operations, made in order. -/
def Formatter.applyAll (f : Formatter) (ops : List Op) : Formatter :=
  ops.foldl Formatter.apply f

/-- The bytes of the lines of `lines` written by `AddLine` at indent level `L` from the start
of a line: each line that is not empty carries the indent prefix of level `L`, an empty line
is its terminator alone. -/
def linesAt (style : IndentStyle) (L : Nat) (lines : List (List Char)) : List Char :=
  (lines.map (fun l => (if l = [] then [] else indentPrefix style L ++ l) ++ ['\n'])).flatten

/-- The bytes that `CloseBlock(suffix)` followed by `OpenBlockInternal()` append at indent
level `L`: in brace style the closing delimiter with the suffix on one line, one level up, and
the opening delimiter on the next; without braces the suffix as a line. The first line carries
its indent prefix when the formatter is at the start of a line. -/
def chainLines (f : Formatter) (L : Nat) (suffix : List Char) : List Char :=
  if f.use_braces_ then
    (if f.at_start_of_line_ then indentPrefix f.indent_style_ (L - 1) else []) ++
      "\x7d".toList ++ suffix ++ ['\n'] ++ (indentPrefix f.indent_style_ (L - 1) ++ "\x7b\n".toList)
  else
    (if f.at_start_of_line_ then indentPrefix f.indent_style_ L else []) ++ suffix ++ ['\n']

/-- A formatter inside the else-branch of a conditional: the state after `If("a")`, `Else()`
on a fresh formatter. -/
def Formatter.inElse : Formatter :=
  ((Formatter.new IndentStyle.SPACES_2 true).If "a".toList).Else

/-- A formatter with a conditional open whose indent level was taken back to 0: the state
after `If("a")`, `Outdent()` on a fresh formatter. -/
def Formatter.inConditionalAtZero : Formatter :=
  ((Formatter.new IndentStyle.SPACES_2 true).If "a".toList).Outdent

/-! ## Expected texts of the block operations -/

/-- The bytes that a block-opening operation appends at indent level `L`: its header line and,
in brace style, the opening delimiter on a line of its own at the same level. The header line
carries its indent prefix when the formatter is at the start of a line. -/
def openLines (f : Formatter) (L : Nat) (header : List Char) : List Char :=
  (if f.at_start_of_line_ then indentPrefix f.indent_style_ L else []) ++ header ++ ['\n'] ++
    (if f.use_braces_ then indentPrefix f.indent_style_ L ++ "\x7b\n".toList else [])

/-- The header lines of the namespaces `names`, nested from indent level `L`: the namespace at
position `i` has its header at level `L + i`. -/
def namespaceHeaders (style : IndentStyle) (L : Nat) (names : List (List Char)) : List Char :=
  ((names.enumFrom L).map (fun p =>
    indentPrefix style p.1 ++ "namespace ".toList ++ p.2 ++ " \x7b\n".toList)).flatten

/-- The closing lines of the namespaces `names`, nested from indent level `L`: innermost first,
the one of the namespace at position `i` at level `L + i`. -/
def namespaceClosers (style : IndentStyle) (L : Nat) (names : List (List Char)) : List Char :=
  ((names.enumFrom L).reverse.map (fun p =>
    indentPrefix style p.1 ++ "\x7d // namespace ".toList ++ p.2 ++ ['\n'])).flatten

/-- The header line that `Formatter::Enum` builds in `enum_def`. -/
def enumHeader (name : List Char) : List Char :=
  (if ¬ "class".toList <:+: name then "enum".toList ++ " class".toList else "enum".toList) ++
    (" ".toList ++ name)

/-- A text holds neither the opening nor the closing delimiter. -/
def delimiterFree (t : List Char) : Bool :=
  decide ('\x7b' ∉ t ∧ '\x7d' ∉ t)

/-- The calls of the structural operations other than `Namespace` and `EndNamespace` (the
conditional, loop and type operations, `Enum`, `OpenBlockInternal`, `CloseBlock`, `OpenBlock`
and the release of its guard) whose text arguments hold no delimiter. -/
def Op.plainStructural : Op → Bool
  | .If condition => delimiterFree condition
  | .ElseIf condition => delimiterFree condition
  | .Else => true
  | .EndIf => true
  | .For loop_header => delimiterFree loop_header
  | .While condition => delimiterFree condition
  | .EndLoop => true
  | .Class name inheritance => delimiterFree name && delimiterFree inheritance
  | .Struct name inheritance => delimiterFree name && delimiterFree inheritance
  | .EndClass => true
  | .Enum name values => delimiterFree name && values.all delimiterFree
  | .OpenBlockInternal pre => delimiterFree pre
  | .CloseBlock suffix => delimiterFree suffix
  | .OpenBlock pre => delimiterFree pre
  | .ScopeRelease => true
  | _ => false

/-! ## Calls made on the buffered channels -/

/-- One call made by the user of an output channel: `Next` (lend a span), `BackUp(count)`
(commit, giving back `count` bytes) or `Flush`. -/
inductive StreamCall where
  | Next
  | BackUp (count : Int)
  | Flush
  deriving DecidableEq

/-- One call made by the user of an input channel: `Next` (lend a span) or `BackUp(count)`
(push back `count` bytes). -/
inductive ReadCall where
  | Next
  | BackUp (count : Int)
  deriving DecidableEq

/-- The `FileOutputStream` after one call. -/
def FileOutputStream.call (s : FileOutputStream) : StreamCall → FileOutputStream
  | .Next => s.Next.1
  | .BackUp count => s.BackUp count
  | .Flush => s.Flush.1

/-- The `FileOutputStream` after a sequence of calls, made in order. -/
def FileOutputStream.calls (s : FileOutputStream) (cs : List StreamCall) : FileOutputStream :=
  cs.foldl FileOutputStream.call s

/-- The `FileInputStream` after one call. -/
def FileInputStream.call (s : FileInputStream) : ReadCall → FileInputStream
  | .Next => s.Next.1
  | .BackUp count => s.BackUp count

/-- The `FileInputStream` after a sequence of calls, made in order. -/
def FileInputStream.calls (s : FileInputStream) (cs : List ReadCall) : FileInputStream :=
  cs.foldl FileInputStream.call s

/-- The `OStreamOutputStream` after one call. -/
def OStreamOutputStream.call (s : OStreamOutputStream) : StreamCall → OStreamOutputStream
  | .Next => s.Next.1
  | .BackUp count => s.BackUp count
  | .Flush => s.Flush.1

/-- The `OStreamOutputStream` after a sequence of calls, made in order. -/
def OStreamOutputStream.calls (s : OStreamOutputStream) (cs : List StreamCall) :
    OStreamOutputStream :=
  cs.foldl OStreamOutputStream.call s

/-- A formatter in the style without braces whose output holds no delimiter so far. -/
def Formatter.Plain (f : Formatter) : Prop :=
  f.use_braces_ = false ∧ delimiterFree f.output_ = true

/-! ## `Skip`, the bytes an input channel has still to deliver -/

/-- `ZeroCopyInputStream::Skip`: the loop `while (count > 0)`, one iteration per unit of
fuel. -/
def ZeroCopyInputStream.Skip {σ : Type} (S : ZeroCopyInputStream σ) :
    Nat → σ → Int → Option (σ × Bool)
  | 0, st, count => if count > 0 then none else some (st, true)
  | fuel + 1, st, count =>
    if count > 0 then
      match S.Next st with
      | (st1, none) => some (st1, false)
      | (st1, some src) =>
        if (src.length : Int) ≥ count then
          some (S.BackUp st1 ((src.length : Int) - count), true)
        else ZeroCopyInputStream.Skip S fuel st1 (count - (src.length : Int))
    else some (st, true)

/-- The bytes a `FileInputStream` has still to deliver: those of the buffer from the read
cursor up to `buffer_available_`, then those not yet read from the file. -/
def FileInputStream.pending (s : FileInputStream) : List Char :=
  (s.buffer_.drop s.buffer_offset_.toNat).take
    (s.buffer_available_ - s.buffer_offset_).toNat ++ s.file_.unread

/-- The state of a `FileInputStream` with a buffer of `B` bytes: the read cursor is within the
bytes available, these are within the buffer, and the size noted at the last `Next` does not
reach back beyond the start of the buffer. -/
def FileInputStream.Inv (B : Nat) (s : FileInputStream) : Prop :=
  s.buffer_.length = B ∧ 0 ≤ s.last_returned_size_ ∧
    s.last_returned_size_ ≤ s.buffer_offset_ ∧ s.buffer_offset_ ≤ s.buffer_available_ ∧
    s.buffer_available_ ≤ (B : Int)

/-- The bytes an `OStreamOutputStream` has accepted: those the sink has received, then those
buffered. -/
def OStreamOutputStream.content (s : OStreamOutputStream) : List Char :=
  s.output_.received ++ s.buffer_.take s.buffer_offset_.toNat

/-! ## What the user of an output channel does, call by call -/

/-- One step of a user of an output channel, as seen at the interface: `Next` returned `true`
with a span of `size` bytes, `Next` returned `false`, `BackUp(count)` was called, `Flush` was
called, or `bytes` were copied into the span lent last. -/
inductive Event where
  | lent (size : Int)
  | refused
  | gaveBack (count : Int)
  | flushed
  | copied (bytes : List Char)
  deriving DecidableEq

/-- The channel `S` with a record of the calls made on it: every virtual function does what it
does in `S` and adds its event to the record. -/
def logged {σ : Type} (S : ZeroCopyOutputStream σ) : ZeroCopyOutputStream (σ × List Event) :=
  { Next := fun st =>
      match S.Next st.1 with
      | (st1, none) => ((st1, st.2 ++ [Event.refused]), none)
      | (st1, some (pos, size)) => ((st1, st.2 ++ [Event.lent size]), some (pos, size))
    BackUp := fun st count => (S.BackUp st.1 count, st.2 ++ [Event.gaveBack count])
    ByteCount := fun st => S.ByteCount st.1
    Flush := fun st => (((S.Flush st.1).1, st.2 ++ [Event.flushed]), (S.Flush st.1).2)
    store := fun st pos bytes => (S.store st.1 pos bytes, st.2 ++ [Event.copied bytes]) }

/-- The number of `Next` calls in a record. -/
def lendCount : List Event → Nat
  | [] => 0
  | Event.lent _ :: es => lendCount es + 1
  | Event.refused :: es => lendCount es + 1
  | _ :: es => lendCount es

/-- The record of spans that were lent and filled to their end: for each chunk a `Next` that
lent as many bytes as the chunk has, and the copy of the chunk into the span. -/
def filledSpans (chunks : List (List Char)) : List Event :=
  (chunks.map (fun c => [Event.lent (c.length : Int), Event.copied c])).flatten

/-- One call of a write operation of an output channel. -/
inductive Write where
  | WriteRaw (data : List Char)
  | WriteString (str : List Char)
  | WriteChar (value : Char)
  deriving DecidableEq

/-- The bytes a write operation is to deliver. -/
def Write.payload : Write → List Char
  | .WriteRaw data => data
  | .WriteString str => str
  | .WriteChar value => [value]

/-- The channel after one write operation, and what the operation returned. -/
def ZeroCopyOutputStream.write {σ : Type} (S : ZeroCopyOutputStream σ) (fuel : Nat) (st : σ) :
    Write → Option (σ × Bool)
  | .WriteRaw data => S.WriteRaw fuel st data
  | .WriteString str => S.WriteString fuel st str
  | .WriteChar value => some (S.WriteChar st value)

/-- A text holds no newline character. -/
def newlineFree (t : List Char) : Bool :=
  decide ('\n' ∉ t)

/-- No text argument of the call holds a newline character. -/
def Op.newlineFree : Op → Bool
  | .Print text => code_generator.newlineFree text
  | .PrintLines lines => lines.all code_generator.newlineFree
  | .OpenBlock pre => code_generator.newlineFree pre
  | .ScopeNew pre => code_generator.newlineFree pre
  | .CloseBlock suffix => code_generator.newlineFree suffix
  | .OpenBlockInternal pre => code_generator.newlineFree pre
  | .AddLine line => code_generator.newlineFree line
  | .AddComment comment => code_generator.newlineFree comment
  | .If condition => code_generator.newlineFree condition
  | .ElseIf condition => code_generator.newlineFree condition
  | .For loop_header => code_generator.newlineFree loop_header
  | .While condition => code_generator.newlineFree condition
  | .Class name inheritance =>
    code_generator.newlineFree name && code_generator.newlineFree inheritance
  | .Struct name inheritance =>
    code_generator.newlineFree name && code_generator.newlineFree inheritance
  | .Namespace name => code_generator.newlineFree name
  | .Enum name values =>
    code_generator.newlineFree name && values.all code_generator.newlineFree
  | .Include header => code_generator.newlineFree header
  | .Define m => code_generator.newlineFree m
  | .IfDef m => code_generator.newlineFree m
  | .IfNDef m => code_generator.newlineFree m
  | _ => true

/-- The start-of-line flag says what the output says: it is set exactly when no byte has been
written or the last byte written is a newline. -/
def Formatter.FlagExact (f : Formatter) : Prop :=
  f.at_start_of_line_ = true ↔ (f.output_ = [] ∨ f.output_.getLast? = some '\n')

/-! ## The C++ generator (`cpp_generator.cpp`) -/

/-- The record `CppType`. -/
structure CppType where
  name : List Char
  is_const : Bool
  is_reference : Bool
  is_pointer : Bool
  deriving DecidableEq

/-- `CppType::ToString`. -/
def CppType.ToString (t : CppType) : List Char :=
  (if t.is_const then "const ".toList else []) ++ t.name ++
    (if t.is_pointer then "*".toList else []) ++ (if t.is_reference then "&".toList else [])

/-- The record `CppParameter`. -/
structure CppParameter where
  type : CppType
  name : List Char
  default_value : List Char
  deriving DecidableEq

/-- `CppParameter::ToString`. -/
def CppParameter.ToString (p : CppParameter) : List Char :=
  (p.type.ToString ++ " ".toList ++ p.name) ++
    (if p.default_value ≠ [] then " = ".toList ++ p.default_value else [])

/-- The record `CppFunction`. -/
structure CppFunction where
  return_type : List Char
  name : List Char
  parameters : List CppParameter
  is_virtual : Bool
  is_pure_virtual : Bool
  is_const : Bool
  is_static : Bool
  body : List Char
  access_specifier : List Char
  deriving DecidableEq

/-- `CppFunction::GetSignature`. -/
def CppFunction.GetSignature (func : CppFunction) : List Char :=
  (if func.is_virtual then "virtual ".toList else []) ++
    (if func.is_static then "static ".toList else []) ++
    (func.return_type ++ " ".toList ++ func.name ++ "(".toList) ++
    (func.parameters.enum.map (fun p =>
      (if p.1 > 0 then ", ".toList else []) ++ p.2.ToString)).flatten ++
    ")".toList ++
    (if func.is_const then " const".toList else []) ++
    (if func.is_pure_virtual then " = 0".toList else [])

/-- `std::string::find(pat)`: the first position at which `pat` occurs in the string, `none`
for `npos`. -/
def find : List Char → List Char → Option Nat
  | [], pat => if pat = [] then some 0 else none
  | c :: cs, pat =>
    if pat.isPrefixOf (c :: cs) then some 0 else (find cs pat).map (fun pos => pos + 1)

/-- The lines that the loop of `GenerateFunctionImplementation` takes from a function body:
the pieces between newlines, and the piece after the last newline when it is not empty. -/
def bodyLines : List Char → List Char → List (List Char)
  | [], cur => if cur ≠ [] then [cur] else []
  | c :: cs, cur => if c = '\n' then cur :: bodyLines cs [] else bodyLines cs (cur ++ [c])

/-- The text that `CppGenerator::GenerateFunctionImplementation` passes to `AddLine` as the
header: the signature, with `class_name + "::"` inserted at the position that
`signature.find(func.name)` returns when `class_name` is not empty. -/
def CppGenerator.implementationHeader (func : CppFunction) (class_name : List Char) :
    List Char :=
  let signature := func.GetSignature
  if class_name ≠ [] then
    match find signature func.name with
    | some pos => signature.take pos ++ (class_name ++ "::".toList) ++ signature.drop pos
    | none => signature
  else signature

/-- `CppGenerator::GenerateFunctionImplementation`: its effect on the formatter of the
generator. -/
def CppGenerator.GenerateFunctionImplementation (formatter_ : Formatter) (func : CppFunction)
    (class_name : List Char) : Formatter :=
  let f1 := (formatter_.AddLine (CppGenerator.implementationHeader func class_name)
    ).OpenBlockInternal []
  let f2 := if func.body ≠ [] then f1.PrintLines (bodyLines func.body [])
    else f1.AddComment "TODO: Implement function body".toList
  f2.CloseBlock []

/-- The formatter has just ended a line: the flag is set and the last byte written is a
newline. -/
def Formatter.EndsLine (f : Formatter) : Prop :=
  f.at_start_of_line_ = true ∧ f.output_.getLast? = some '\n'

/-- The formatter `g` has written what `f` has written and has the same start-of-line flag. -/
def Formatter.SameLine (f g : Formatter) : Prop :=
  g.output_ = f.output_ ∧ g.at_start_of_line_ = f.at_start_of_line_

/-- A `FileOutputStream` with a full buffer of 4 bytes over a `FILE` whose `fwrite` takes every
byte into its own buffer and whose `fflush` fails: the state after one `Next` on a new stream
over such a file. -/
def FileOutputStream.fullOverFailingFlush : FileOutputStream :=
  (FileOutputStream.new { written := [], room := none, fflush_ok := false } 4).calls
    [StreamCall.Next]

/-! ## Levels at which the `int` arithmetic of the formatter overflows -/

/-- A formatter with 4-space indent at indent level `2^30 = 1073741824`, at the start of a
line: the state after `SetIndentLevel(1073741824)` on a fresh formatter. At this level the
product `indent_level_ * 4` is `2^32`, which an `int` holds as 0. -/
def Formatter.deep (use_braces : Bool) : Formatter :=
  (Formatter.new IndentStyle.SPACES_4 use_braces).SetIndentLevel 1073741824

/-- A formatter with a namespace open whose indent level was taken back to 0: the state after
`Namespace("a")`, `Outdent()` on a fresh formatter. -/
def Formatter.inNamespaceAtZero : Formatter :=
  ((Formatter.new IndentStyle.SPACES_2 true).Namespace "a".toList).Outdent

/-- A formatter with 2-space indent and braces that has a conditional open and whose indent
level was set to `2^30 + 1`: the state after `If("a")`, `SetIndentLevel(1073741825)` on a fresh
formatter. One level lower the product `indent_level_ * 2` is `2^31`, which an `int` holds as
`-2147483648`. -/
def Formatter.inConditionalDeep : Formatter :=
  ((Formatter.new IndentStyle.SPACES_2 true).If "a".toList).SetIndentLevel 1073741825

/-- A formatter at indent level `INT_MAX`, in the middle of a line: the state after
`Print("x")`, `SetIndentLevel(2147483647)` on a fresh formatter with 2-space indent. -/
def Formatter.atIntMax (use_braces : Bool) : Formatter :=
  ((Formatter.new IndentStyle.SPACES_2 use_braces).Print "x".toList).SetIndentLevel 2147483647

/-- The largest number of indent levels that the open constructs account for at any point of
the call sequence `cs`, which starts with the constructs `os` open (the sequence is followed as
far as its calls fit). -/
def peak (use_braces : Bool) : List BlockKind → List Call → Int
  | os, [] => depth use_braces os
  | os, c :: cs =>
    match expect os c with
    | some os1 => max (depth use_braces os) (peak use_braces os1 cs)
    | none => depth use_braces os

/-- Every operation of `ops`, made in order from `f`, starts at an indent level `L` such that
the indent prefix of level `L + 2` has at most `INT_MAX` characters. No operation executes
`++indent_level_` more than twice, so that none of them takes the level beyond `INT_MAX` or
writes an indent prefix whose `int` count of characters overflows. -/
def Formatter.levelsFit (f : Formatter) : List Op → Bool
  | [] => true
  | op :: ops =>
    indentFits f.indent_style_ (f.indent_level_ + 2).toNat && (f.apply op).levelsFit ops

end code_generator

open code_generator

/-! ## Formatter: frame lemmas -/

namespace code_generator
namespace Formatter

@[simp] theorem Print_indent_level (f : Formatter) (t : List Char) :
    (f.Print t).indent_level_ = f.indent_level_ := by
  unfold Print WriteString WriteIndent; split_ifs <;> rfl

@[simp] theorem Print_block_stack (f : Formatter) (t : List Char) :
    (f.Print t).block_stack_ = f.block_stack_ := by
  unfold Print WriteString WriteIndent; split_ifs <;> rfl

@[simp] theorem Print_use_braces (f : Formatter) (t : List Char) :
    (f.Print t).use_braces_ = f.use_braces_ := by
  unfold Print WriteString WriteIndent; split_ifs <;> rfl

@[simp] theorem Print_indent_style (f : Formatter) (t : List Char) :
    (f.Print t).indent_style_ = f.indent_style_ := by
  unfold Print WriteString WriteIndent; split_ifs <;> rfl

@[simp] theorem AddLine_indent_level (f : Formatter) (t : List Char) :
    (f.AddLine t).indent_level_ = f.indent_level_ := by
  unfold AddLine EndLine; split_ifs <;> simp

@[simp] theorem AddLine_block_stack (f : Formatter) (t : List Char) :
    (f.AddLine t).block_stack_ = f.block_stack_ := by
  unfold AddLine EndLine; split_ifs <;> simp

@[simp] theorem AddLine_use_braces (f : Formatter) (t : List Char) :
    (f.AddLine t).use_braces_ = f.use_braces_ := by
  unfold AddLine EndLine; split_ifs <;> simp

@[simp] theorem AddLine_indent_style (f : Formatter) (t : List Char) :
    (f.AddLine t).indent_style_ = f.indent_style_ := by
  unfold AddLine EndLine; split_ifs <;> simp

@[simp] theorem AddLine_at_start (f : Formatter) (t : List Char) :
    (f.AddLine t).at_start_of_line_ = true := by
  unfold AddLine EndLine; rfl

end Formatter
end code_generator

/-! ## Formatter: what `Print` and `AddLine` write -/

namespace code_generator
namespace Formatter

end Formatter

theorem wrapInt_of_fits (x : Int) (h1 : -2147483648 ≤ x) (h2 : x ≤ INT_MAX) : wrapInt x = x := by
  unfold wrapInt
  unfold INT_MAX at h2
  omega

theorem indentFits_le (style : IndentStyle) (L : Nat) (h : indentFits style L = true) :
    (L : Int) ≤ INT_MAX := by
  unfold indentFits at h
  unfold INT_MAX at *
  cases style <;> simp only [decide_eq_true_eq] at h <;> omega

theorem indentFits_mono (style : IndentStyle) (L M : Nat) (hLM : L ≤ M)
    (h : indentFits style M = true) : indentFits style L = true := by
  unfold indentFits at *
  unfold INT_MAX at *
  cases style <;> simp only [decide_eq_true_eq] at h ⊢ <;> omega

theorem indentFits_zero (style : IndentStyle) : indentFits style 0 = true := by
  cases style <;> decide

theorem deep_prefix_length :
    (indentPrefix IndentStyle.SPACES_4 1073741824).length = 4294967296 := by
  unfold indentPrefix
  rw [List.length_replicate]

theorem deep_prefix_not_prefix (out : List Char) (h : out.length < 4294967296) :
    ¬ (indentPrefix IndentStyle.SPACES_4 1073741824 <+: out) := by
  intro hp
  have hl := hp.length_le
  rw [deep_prefix_length] at hl
  omega

namespace Formatter

theorem Indent_eq (f : Formatter) (h0 : 0 ≤ f.indent_level_) (h : f.indent_level_ < INT_MAX) :
    f.Indent = { f with indent_level_ := f.indent_level_ + 1 } := by
  unfold Indent
  rw [wrapInt_of_fits _ (by omega) (by omega)]

theorem WriteIndent_eq (f : Formatter) (L : Nat) (hL : f.indent_level_ = (L : Int))
    (hfit : indentFits f.indent_style_ L = true) :
    f.WriteIndent = f.WriteString (indentPrefix f.indent_style_ L) := by
  unfold WriteIndent
  rcases Nat.eq_zero_or_pos L with h0 | hpos
  · subst h0
    have : f.indent_level_ ≤ 0 := by omega
    simp only [this, if_true]
    cases hs : f.indent_style_ <;> simp [WriteString, indentPrefix]
  · have : ¬ f.indent_level_ ≤ 0 := by omega
    simp only [this, if_false]
    unfold indentFits at hfit
    unfold INT_MAX at hfit
    cases hs : f.indent_style_ <;> rw [hs] at hfit <;>
      simp only [decide_eq_true_eq] at hfit <;>
      simp only [WriteString, indentPrefix, hL, IndentStyle.toInt, reduceCtorEq, if_false,
        if_true, Int.toNat_ofNat]
    · rw [wrapInt_of_fits _ (by omega) (by unfold INT_MAX; omega)]
      congr 2
    · rw [wrapInt_of_fits _ (by omega) (by unfold INT_MAX; omega)]
      congr 2

theorem WriteIndentThrows_of_fits (f : Formatter) (L : Nat) (hL : f.indent_level_ = (L : Int))
    (hfit : indentFits f.indent_style_ L = true) : f.WriteIndentThrows = false := by
  unfold WriteIndentThrows
  unfold indentFits at hfit
  unfold INT_MAX at hfit
  cases hs : f.indent_style_ <;> rw [hs] at hfit <;>
    simp only [decide_eq_true_eq] at hfit <;>
    simp only [hL, IndentStyle.toInt, ne_eq, not_true_eq_false, decide_False, Bool.and_false,
      Bool.false_and, reduceCtorEq, not_false_eq_true, decide_True, Bool.and_true,
      Bool.and_eq_false_imp, decide_eq_true_eq, decide_eq_false_iff_not, not_lt]
  · intro _
    rw [wrapInt_of_fits _ (by omega) (by unfold INT_MAX; omega)]; omega
  · intro _
    rw [wrapInt_of_fits _ (by omega) (by unfold INT_MAX; omega)]; omega

theorem Print_eq (f : Formatter) (text : List Char) (L : Nat) (hL : f.indent_level_ = (L : Int))
    (hfit : indentFits f.indent_style_ L = true) (ht : text ≠ []) :
    f.Print text =
      { f with
        output_ := f.output_ ++
          ((if f.at_start_of_line_ then indentPrefix f.indent_style_ L else []) ++ text)
        at_start_of_line_ := false } := by
  unfold Print
  rw [WriteIndent_eq f L hL hfit]
  cases hs : f.at_start_of_line_ <;> simp [ht, WriteString]
  cases f; simp_all

theorem AddLine_eq (f : Formatter) (text : List Char) (L : Nat)
    (hL : f.indent_level_ = (L : Int)) (hfit : indentFits f.indent_style_ L = true)
    (ht : text ≠ []) :
    f.AddLine text =
      { f with
        output_ := f.output_ ++
          ((if f.at_start_of_line_ then indentPrefix f.indent_style_ L else []) ++ text ++ ['\n'])
        at_start_of_line_ := true } := by
  unfold AddLine
  rw [if_pos ht, Print_eq f text L hL hfit ht]
  simp [EndLine]

end Formatter
end code_generator

namespace code_generator
namespace Formatter

theorem AddLine_mk (out : List Char) (style : IndentStyle) (braces : Bool) (L : Nat)
    (atStart : Bool) (stack : List BlockState) (text : List Char) (ht : text ≠ [])
    (hfit : indentFits style L = true) :
    Formatter.AddLine ⟨out, style, braces, (L : Int), atStart, stack⟩ text =
      ⟨out ++ ((if atStart then indentPrefix style L else []) ++ text ++ ['\n']),
        style, braces, (L : Int), true, stack⟩ := by
  rw [AddLine_eq _ text L rfl hfit ht]

theorem AddLine_mk_succ (out : List Char) (style : IndentStyle) (braces : Bool) (L : Nat)
    (atStart : Bool) (stack : List BlockState) (text : List Char) (ht : text ≠ [])
    (hfit : indentFits style (L + 1) = true) :
    Formatter.AddLine ⟨out, style, braces, (L : Int) + 1, atStart, stack⟩ text =
      ⟨out ++ ((if atStart then indentPrefix style (L + 1) else []) ++ text ++ ['\n']),
        style, braces, (L : Int) + 1, true, stack⟩ := by
  rw [AddLine_eq _ text (L + 1) (by simp) hfit ht]

theorem Indent_mk (out : List Char) (style : IndentStyle) (braces : Bool) (L : Nat)
    (atStart : Bool) (stack : List BlockState) (hL : (L : Int) < INT_MAX) :
    Formatter.Indent ⟨out, style, braces, (L : Int), atStart, stack⟩ =
      ⟨out, style, braces, (L : Int) + 1, atStart, stack⟩ := by
  show (⟨out, style, braces, wrapInt ((L : Int) + 1), atStart, stack⟩ : Formatter) = _
  rw [wrapInt_of_fits _ (by omega) (by unfold INT_MAX at *; omega)]

theorem Outdent_mk_succ (out : List Char) (style : IndentStyle) (braces : Bool) (L : Nat)
    (atStart : Bool) (stack : List BlockState) :
    Formatter.Outdent ⟨out, style, braces, (L : Int) + 1, atStart, stack⟩ =
      ⟨out, style, braces, (L : Int), atStart, stack⟩ := by
  have : (L : Int) + 1 > 0 := by omega
  simp [Outdent, this]

end Formatter

/-- C1: with 2-space indent and brace style on, a fresh formatter that receives the calls
Namespace(app), Class(Widget), Public(), AddLine(void Run();), EndClass(), EndNamespace() has
written exactly the seven lines of the scenario, byte for byte, and is left at indent level 0
with an empty block stack, at the start of a line. -/
theorem class_in_namespace_scenario :
    ((((((Formatter.new IndentStyle.SPACES_2 true).Namespace "app".toList).Class
        "Widget".toList []).Public.AddLine "void Run();".toList).EndClass).EndNamespace)
      = { output_ := "namespace app \x7b\n  class Widget\n  \x7b\n  public:\n    void Run();\n  \x7d;\n\x7d // namespace app\n".toList,
          indent_style_ := IndentStyle.SPACES_2, use_braces_ := true, indent_level_ := 0,
          at_start_of_line_ := true, block_stack_ := [] } := by
  decide

/-- C2 (amended): with brace style on, from every indent level `L` at the start of a line and
in every indent style, provided the indent prefix of level `L + 1` has at most `INT_MAX`
characters, the chain If, AddLine, ElseIf, AddLine, Else, AddLine, EndIf appends the ten lines
of the scenario in order, the three bodies at level `L + 1` and every other line at level `L`,
the two else-headers on the line of the closing delimiter before them; afterwards the indent
level is `L` again and the block stack is the one before `If`. -/
theorem conditional_chain_scenario (f : Formatter) (L : Nat)
    (hb : f.use_braces_ = true) (hs : f.at_start_of_line_ = true)
    (hL : f.indent_level_ = (L : Int))
    (hfit : indentFits f.indent_style_ (L + 1) = true) :
    let ind := indentPrefix f.indent_style_
    let g := ((((((f.If "x > 0".toList).AddLine "a();".toList).ElseIf "x < 0".toList).AddLine
      "b();".toList).Else).AddLine "c();".toList).EndIf
    g.output_ = f.output_ ++
        (ind L ++ "if (x > 0)\n".toList ++
         (ind L ++ "\x7b\n".toList) ++
         (ind (L + 1) ++ "a();\n".toList) ++
         (ind L ++ "\x7d else if (x < 0)\n".toList) ++
         (ind L ++ "\x7b\n".toList) ++
         (ind (L + 1) ++ "b();\n".toList) ++
         (ind L ++ "\x7d else\n".toList) ++
         (ind L ++ "\x7b\n".toList) ++
         (ind (L + 1) ++ "c();\n".toList) ++
         (ind L ++ "\x7d\n".toList)) ∧
      g.indent_level_ = (L : Int) ∧ g.block_stack_ = f.block_stack_ ∧
      g.at_start_of_line_ = true := by
  obtain ⟨out, style, braces, lvl, atStart, stack⟩ := f
  simp only at hb hs hL hfit
  subst hb hs hL
  have hfit0 : indentFits style L = true := indentFits_mono style L (L + 1) (by omega) hfit
  have hlt : (L : Int) < INT_MAX := by
    have := indentFits_le style (L + 1) hfit
    push_cast at this
    omega
  simp [Formatter.If, Formatter.ElseIf, Formatter.Else, Formatter.EndIf,
    Formatter.OpenBlockInternal, Formatter.CloseBlock, Formatter.push, Formatter.pop,
    Formatter.updateTop, Formatter.topIs, Formatter.Indent_mk, Formatter.AddLine_mk,
    Formatter.AddLine_mk_succ, Formatter.Outdent_mk_succ, hfit, hfit0, hlt]

end code_generator

/-! ## Block balance -/

namespace code_generator
namespace Formatter

@[simp] theorem OpenBlockInternal_block_stack (f : Formatter) (p : List Char) :
    (f.OpenBlockInternal p).block_stack_ = f.block_stack_ := by
  unfold OpenBlockInternal
  by_cases hp : p = [] <;> by_cases hb : f.use_braces_ = true <;> simp [hp, hb, Indent]

@[simp] theorem OpenBlockInternal_use_braces (f : Formatter) (p : List Char) :
    (f.OpenBlockInternal p).use_braces_ = f.use_braces_ := by
  unfold OpenBlockInternal
  by_cases hp : p = [] <;> by_cases hb : f.use_braces_ = true <;> simp [hp, hb, Indent]

theorem OpenBlockInternal_indent_level (f : Formatter) (p : List Char) :
    (f.OpenBlockInternal p).indent_level_ =
      if f.use_braces_ then wrapInt (f.indent_level_ + 1) else f.indent_level_ := by
  unfold OpenBlockInternal
  by_cases hp : p = [] <;> by_cases hb : f.use_braces_ = true <;> simp [hp, hb, Indent]

@[simp] theorem CloseBlock_block_stack (f : Formatter) (s : List Char) :
    (f.CloseBlock s).block_stack_ = f.block_stack_ := by
  unfold CloseBlock Outdent; split_ifs <;> simp_all

@[simp] theorem CloseBlock_use_braces (f : Formatter) (s : List Char) :
    (f.CloseBlock s).use_braces_ = f.use_braces_ := by
  unfold CloseBlock Outdent; split_ifs <;> simp_all

theorem CloseBlock_indent_level (f : Formatter) (s : List Char) :
    (f.CloseBlock s).indent_level_ =
      if f.use_braces_ = true ∧ f.indent_level_ > 0 then f.indent_level_ - 1
      else f.indent_level_ := by
  unfold CloseBlock Outdent; split_ifs <;> simp_all

theorem EndIf_of_topKind_ne (f : Formatter) (h : f.topKind ≠ some BlockKind.conditional) :
    f.EndIf = f := by
  unfold topKind at h
  rcases hst : f.block_stack_ with _ | ⟨⟨ty, lbl⟩, rest⟩
  · simp [EndIf, topIs, hst]
  · rw [hst] at h; cases ty <;> simp_all [EndIf, topIs, kindOf]

theorem EndLoop_of_topKind_ne (f : Formatter) (h : f.topKind ≠ some BlockKind.loop) :
    f.EndLoop = f := by
  unfold topKind at h
  rcases hst : f.block_stack_ with _ | ⟨⟨ty, lbl⟩, rest⟩
  · simp [EndLoop, topIs, hst]
  · rw [hst] at h; cases ty <;> simp_all [EndLoop, topIs, kindOf]

theorem EndClass_of_topKind_ne (f : Formatter) (h : f.topKind ≠ some BlockKind.typeDef) :
    f.EndClass = f := by
  unfold topKind at h
  rcases hst : f.block_stack_ with _ | ⟨⟨ty, lbl⟩, rest⟩
  · simp [EndClass, topIs, hst]
  · rw [hst] at h; cases ty <;> simp_all [EndClass, topIs, kindOf]

theorem EndNamespace_of_topKind_ne (f : Formatter) (h : f.topKind ≠ some BlockKind.nameSpace) :
    f.EndNamespace = f := by
  unfold topKind at h
  rcases hst : f.block_stack_ with _ | ⟨⟨ty, lbl⟩, rest⟩
  · simp [EndNamespace, hst]
  · rw [hst] at h; cases ty <;> simp_all [EndNamespace, kindOf]

theorem Else_of_topKind_ne (f : Formatter) (h : f.topKind ≠ some BlockKind.conditional) :
    f.Else = f := by
  unfold topKind at h
  rcases hst : f.block_stack_ with _ | ⟨⟨ty, lbl⟩, rest⟩
  · simp [Else, topIs, hst]
  · rw [hst] at h; cases ty <;> simp_all [Else, topIs, kindOf]

theorem ElseIf_of_topKind_ne (f : Formatter) (h : f.topKind ≠ some BlockKind.conditional)
    (condition : List Char) : f.ElseIf condition = f := by
  unfold topKind at h
  rcases hst : f.block_stack_ with _ | ⟨⟨ty, lbl⟩, rest⟩
  · simp [ElseIf, topIs, hst]
  · rw [hst] at h; cases ty <;> simp_all [ElseIf, topIs, kindOf]

theorem call_end_of_topKind_ne (f : Formatter) (e : EndCall) (h : f.topKind ≠ some e.closes) :
    f.call e.toCall = f := by
  cases e
  · exact EndIf_of_topKind_ne f h
  · exact EndLoop_of_topKind_ne f h
  · exact EndClass_of_topKind_ne f h
  · exact EndNamespace_of_topKind_ne f h

@[simp] theorem call_use_braces (f : Formatter) (c : Call) :
    (f.call c).use_braces_ = f.use_braces_ := by
  cases c <;> simp only [call]
  · simp
  · simp [If, push]
  · unfold ElseIf; split_ifs <;> simp [updateTop]
    split <;> simp_all
  · unfold Else; split_ifs <;> simp [updateTop]
    split <;> simp_all
  · unfold EndIf; split_ifs <;> simp [pop]
  · simp [For, push]
  · simp [While, push]
  · unfold EndLoop; split_ifs <;> simp [pop]
  · simp [Class, push]
  · simp [Struct, push]
  · unfold EndClass; split_ifs <;> simp [pop]
  · simp [Namespace, push, Indent]
  · unfold EndNamespace; split
    · rfl
    · split_ifs <;> simp [pop, Outdent]
      split_ifs <;> simp

end Formatter

theorem depth_nonneg (b : Bool) (os : List BlockKind) : 0 ≤ depth b os := by
  induction os with
  | nil => simp [depth]
  | cons k os ih => unfold depth; split_ifs <;> omega

end code_generator

namespace code_generator

theorem depth_append (b : Bool) (p q : List BlockKind) :
    depth b (p ++ q) = depth b p + depth b q := by
  induction p with
  | nil => simp [depth]
  | cons k p ih =>
    show depth b (k :: (p ++ q)) = depth b (k :: p) + depth b q
    simp only [depth]; rw [ih]; omega

theorem depth_le_insert (b : Bool) (p q : List BlockKind) (k : BlockKind) :
    depth b (p ++ q) ≤ depth b (p ++ k :: q) := by
  rw [depth_append, depth_append]
  simp only [depth]
  split_ifs <;> omega

theorem depth_le_peak (b : Bool) (cs : List Call) :
    ∀ os : List BlockKind, depth b os ≤ peak b os cs := by
  cases cs with
  | nil => intro os; simp [peak]
  | cons c cs =>
    intro os
    unfold peak
    split
    · exact le_max_left _ _
    · exact le_refl _

theorem peak_step_le (b : Bool) (os os1 : List BlockKind) (c : Call) (cs : List Call)
    (he : expect os c = some os1) : peak b os1 cs ≤ peak b os (c :: cs) := by
  conv_rhs => unfold peak
  rw [he]
  exact le_max_right _ _

theorem InStep_level_le (L : Int) (base : List BlockState) (os : List BlockKind) (f : Formatter)
    (h : InStep L base os f) (hmax : L + depth f.use_braces_ os ≤ INT_MAX) :
    f.indent_level_ ≤ INT_MAX := by
  obtain ⟨_, _, _, hl⟩ := h
  rw [hl]; exact hmax

theorem InStep_level_nonneg (L : Int) (base : List BlockState) (os : List BlockKind)
    (f : Formatter) (hL : 0 ≤ L) (h : InStep L base os f) : 0 ≤ f.indent_level_ := by
  obtain ⟨_, _, _, hl⟩ := h
  have := depth_nonneg f.use_braces_ os
  omega

theorem InStep_raise (L : Int) (base : List BlockState) (os : List BlockKind) (f : Formatter)
    (k : BlockKind) (hL : 0 ≤ L) (h : InStep L base os f)
    (hmax : L + depth f.use_braces_ (k :: os) ≤ INT_MAX) :
    (if (f.use_braces_ || decide (k = BlockKind.nameSpace)) = true
      then wrapInt (f.indent_level_ + 1) else f.indent_level_) =
      f.indent_level_ + (if f.use_braces_ || k = BlockKind.nameSpace then 1 else 0) := by
  have h0 := InStep_level_nonneg L base os f hL h
  obtain ⟨_, _, _, hl⟩ := h
  simp only [depth] at hmax
  by_cases hk : (f.use_braces_ || decide (k = BlockKind.nameSpace)) = true
  · rw [if_pos hk] at hmax
    rw [if_pos hk, if_pos hk]
    exact wrapInt_of_fits _ (by omega) (by omega)
  · rw [if_neg hk, if_neg hk]; omega

theorem InStep_open (L : Int) (base : List BlockState) (os : List BlockKind) (f g : Formatter)
    (b : BlockState) (k : BlockKind) (h : InStep L base os f)
    (hb : g.use_braces_ = f.use_braces_) (hst : g.block_stack_ = b :: f.block_stack_)
    (hk : kindOf b.type = some k)
    (hi : g.indent_level_ =
      f.indent_level_ + (if f.use_braces_ || k = BlockKind.nameSpace then 1 else 0)) :
    InStep L base (k :: os) g := by
  obtain ⟨top, hs, hm, hl⟩ := h
  refine ⟨b :: top, by simp [hst, hs], by simp [hk, hm], ?_⟩
  rw [hi, hl, hb]; simp only [depth]; omega

theorem InStep_close (L : Int) (base : List BlockState) (os : List BlockKind) (f g : Formatter)
    (k : BlockKind) (hL : 0 ≤ L) (h : InStep L base (k :: os) f)
    (hb : g.use_braces_ = f.use_braces_) (hst : g.block_stack_ = f.block_stack_.tail)
    (hi : g.indent_level_ =
      if (f.use_braces_ || k = BlockKind.nameSpace) = true ∧ f.indent_level_ > 0
        then f.indent_level_ - 1 else f.indent_level_) :
    InStep L base os g := by
  obtain ⟨top, hs, hm, hl⟩ := h
  rcases top with _ | ⟨t, top1⟩
  · simp at hm
  · simp only [List.map_cons, List.cons.injEq] at hm
    refine ⟨top1, by simp [hst, hs], hm.2, ?_⟩
    have hd := depth_nonneg f.use_braces_ os
    rw [hi, hb]; simp only [depth] at hl
    split_ifs at hl ⊢ <;> first | omega | (exfalso; simp_all; done) | (exfalso; simp_all; omega)

theorem InStep_top (L : Int) (base : List BlockState) (os : List BlockKind) (f : Formatter)
    (k : BlockKind) (h : InStep L base (k :: os) f) :
    ∃ t rest, f.block_stack_ = t :: rest ∧ kindOf t.type = some k := by
  obtain ⟨top, hs, hm, _⟩ := h
  rcases top with _ | ⟨t, top1⟩
  · simp at hm
  · simp only [List.map_cons, List.cons.injEq] at hm
    exact ⟨t, top1 ++ base, by simp [hs], hm.1⟩

theorem InStep_retop (L : Int) (base : List BlockState) (os : List BlockKind) (f g : Formatter)
    (k : BlockKind) (t t1 : BlockState) (rest : List BlockState)
    (h : InStep L base (k :: os) f)
    (hf : f.block_stack_ = t :: rest) (hg : g.block_stack_ = t1 :: rest)
    (hk : kindOf t1.type = some k)
    (hb : g.use_braces_ = f.use_braces_) (hi : g.indent_level_ = f.indent_level_) :
    InStep L base (k :: os) g := by
  obtain ⟨top, hs, hm, hl⟩ := h
  rcases top with _ | ⟨t0, top1⟩
  · simp at hm
  · simp only [List.map_cons, List.cons.injEq] at hm
    rw [hf] at hs
    simp only [List.cons_append, List.cons.injEq] at hs
    exact ⟨t1 :: top1, by simp [hg, hs.2], by simp [hk, hm.2], by rw [hi, hb, hl]⟩

end code_generator

namespace code_generator

theorem InStep_pos (L : Int) (base : List BlockState) (os : List BlockKind) (f : Formatter)
    (k : BlockKind) (hL : 0 ≤ L) (h : InStep L base (k :: os) f)
    (hb : (f.use_braces_ || k = BlockKind.nameSpace) = true) : 0 < f.indent_level_ := by
  obtain ⟨top, _, _, hl⟩ := h
  have hd := depth_nonneg f.use_braces_ os
  simp only [depth] at hl
  rw [if_pos hb] at hl
  omega

theorem InStep_Else (L : Int) (base : List BlockState) (os : List BlockKind) (f : Formatter)
    (hL : 0 ≤ L) (h : InStep L base (BlockKind.conditional :: os) f)
    (hmax : L + depth f.use_braces_ (BlockKind.conditional :: os) ≤ INT_MAX) :
    InStep L base (BlockKind.conditional :: os) f.Else := by
  obtain ⟨t, rest, hf, hk⟩ := InStep_top L base os f _ h
  by_cases hty : t.type = BlockType.IF
  · have hpos : f.use_braces_ = true → 0 < f.indent_level_ := fun hb =>
      InStep_pos L base os f _ hL h (by simp [hb])
    have htop : f.topIs (fun t => t = BlockType.IF) = true := by simp [Formatter.topIs, hf, hty]
    refine InStep_retop L base os f f.Else _ t { t with type := BlockType.ELSE } rest h hf ?_ rfl
      ?_ ?_
    · simp [Formatter.Else, htop, Formatter.updateTop, hf]
    · unfold Formatter.Else; rw [if_pos htop]; simp [Formatter.updateTop, hf]
    · unfold Formatter.Else; rw [if_pos htop]
      rw [Formatter.OpenBlockInternal_indent_level]
      simp only [Formatter.updateTop, Formatter.CloseBlock_block_stack, hf,
        Formatter.CloseBlock_use_braces, Formatter.CloseBlock_indent_level]
      by_cases hb : f.use_braces_ = true
      · have := hpos hb
        have hle := InStep_level_le L _ _ f h hmax
        simp only [hb, this, and_self, if_true]
        rw [wrapInt_of_fits (f.indent_level_ - 1 + 1) (by omega) (by omega)]; omega
      · simp [hb]
  · have htop : f.topIs (fun t => t = BlockType.IF) = false := by simp [Formatter.topIs, hf, hty]
    have : f.Else = f := by simp [Formatter.Else, htop]
    rw [this]; exact h

theorem InStep_ElseIf (L : Int) (base : List BlockState) (os : List BlockKind) (f : Formatter)
    (condition : List Char)
    (hL : 0 ≤ L) (h : InStep L base (BlockKind.conditional :: os) f)
    (hmax : L + depth f.use_braces_ (BlockKind.conditional :: os) ≤ INT_MAX) :
    InStep L base (BlockKind.conditional :: os) (f.ElseIf condition) := by
  obtain ⟨t, rest, hf, hk⟩ := InStep_top L base os f _ h
  have hpos : f.use_braces_ = true → 0 < f.indent_level_ := fun hb =>
    InStep_pos L base os f _ hL h (by simp [hb])
  have htop : f.topIs (fun t => t = BlockType.IF || t = BlockType.ELSE) = true := by
    simp only [Formatter.topIs, hf]; cases hty : t.type <;> simp_all [kindOf]
  refine InStep_retop L base os f (f.ElseIf condition) _ t ⟨BlockType.IF, condition⟩ rest h hf
    ?_ rfl ?_ ?_
  · simp [Formatter.ElseIf, htop, Formatter.updateTop, hf]
  · unfold Formatter.ElseIf; rw [if_pos htop]; simp [Formatter.updateTop, hf]
  · unfold Formatter.ElseIf; rw [if_pos htop]
    rw [Formatter.OpenBlockInternal_indent_level]
    simp only [Formatter.updateTop, Formatter.CloseBlock_block_stack, hf,
      Formatter.CloseBlock_use_braces, Formatter.CloseBlock_indent_level]
    by_cases hb : f.use_braces_ = true
    · have := hpos hb
      have hle := InStep_level_le L _ _ f h hmax
      simp only [hb, this, and_self, if_true]
      rw [wrapInt_of_fits (f.indent_level_ - 1 + 1) (by omega) (by omega)]; omega
    · simp [hb]

theorem InStep_step (L : Int) (base : List BlockState) (os os1 : List BlockKind)
    (f : Formatter) (c : Call) (hL : 0 ≤ L) (h : InStep L base os f)
    (he : expect os c = some os1) (hmax : L + depth f.use_braces_ os1 ≤ INT_MAX) :
    InStep L base os1 (f.call c) := by
  cases c with
  | AddLine line =>
    simp only [expect, Option.some.injEq] at he; subst he
    obtain ⟨top, hs, hm, hl⟩ := h
    exact ⟨top, by simp [Formatter.call, hs], hm, by simp [Formatter.call, hl]⟩
  | If condition =>
    simp only [expect, Option.some.injEq] at he; subst he
    exact InStep_open L base os f _ ⟨BlockType.IF, condition⟩ _ h (by simp) (by
      simp [Formatter.call, Formatter.If, Formatter.push]) rfl (by
      have hr := InStep_raise L base os f BlockKind.conditional hL h hmax
      simpa [Formatter.call, Formatter.If, Formatter.push,
        Formatter.OpenBlockInternal_indent_level] using hr)
  | For loop_header =>
    simp only [expect, Option.some.injEq] at he; subst he
    exact InStep_open L base os f _ ⟨BlockType.FOR, loop_header⟩ _ h (by simp) (by
      simp [Formatter.call, Formatter.For, Formatter.push]) rfl (by
      have hr := InStep_raise L base os f BlockKind.loop hL h hmax
      simpa [Formatter.call, Formatter.For, Formatter.push,
        Formatter.OpenBlockInternal_indent_level] using hr)
  | While condition =>
    simp only [expect, Option.some.injEq] at he; subst he
    exact InStep_open L base os f _ ⟨BlockType.WHILE, condition⟩ _ h (by simp) (by
      simp [Formatter.call, Formatter.While, Formatter.push]) rfl (by
      have hr := InStep_raise L base os f BlockKind.loop hL h hmax
      simpa [Formatter.call, Formatter.While, Formatter.push,
        Formatter.OpenBlockInternal_indent_level] using hr)
  | Class name inheritance =>
    simp only [expect, Option.some.injEq] at he; subst he
    exact InStep_open L base os f _ ⟨BlockType.CLASS, name⟩ _ h (by simp) (by
      simp [Formatter.call, Formatter.Class, Formatter.push]) rfl (by
      have hr := InStep_raise L base os f BlockKind.typeDef hL h hmax
      simpa [Formatter.call, Formatter.Class, Formatter.push,
        Formatter.OpenBlockInternal_indent_level] using hr)
  | Struct name inheritance =>
    simp only [expect, Option.some.injEq] at he; subst he
    exact InStep_open L base os f _ ⟨BlockType.STRUCT, name⟩ _ h (by simp) (by
      simp [Formatter.call, Formatter.Struct, Formatter.push]) rfl (by
      have hr := InStep_raise L base os f BlockKind.typeDef hL h hmax
      simpa [Formatter.call, Formatter.Struct, Formatter.push,
        Formatter.OpenBlockInternal_indent_level] using hr)
  | Namespace name =>
    simp only [expect, Option.some.injEq] at he; subst he
    exact InStep_open L base os f _ ⟨BlockType.NAMESPACE, name⟩ _ h (by simp) (by
      simp [Formatter.call, Formatter.Namespace, Formatter.push, Formatter.Indent]) rfl (by
      have hr := InStep_raise L base os f BlockKind.nameSpace hL h hmax
      simpa [Formatter.call, Formatter.Namespace, Formatter.push, Formatter.Indent] using hr)
  | ElseIf condition =>
    rcases os with _ | ⟨k, os2⟩
    · simp [expect] at he
    · cases k <;> simp [expect] at he
      subst he
      exact InStep_ElseIf L base os2 f condition hL h hmax
  | Else =>
    rcases os with _ | ⟨k, os2⟩
    · simp [expect] at he
    · cases k <;> simp [expect] at he
      subst he
      exact InStep_Else L base os2 f hL h hmax
  | EndIf =>
    rcases os with _ | ⟨k, os2⟩
    · simp [expect] at he
    · cases k <;> simp [expect] at he
      subst he
      obtain ⟨t, rest, hf, hk⟩ := InStep_top L base os2 f _ h
      have htop : f.topIs (fun t => t = BlockType.IF || t = BlockType.ELSE) = true := by
        simp only [Formatter.topIs, hf]; cases hty : t.type <;> simp_all [kindOf]
      refine InStep_close L base os2 f _ _ hL h (by simp) ?_ ?_
      · simp [Formatter.call, Formatter.EndIf, htop, Formatter.pop]
      · simp [Formatter.call, Formatter.EndIf, htop, Formatter.pop,
          Formatter.CloseBlock_indent_level]
  | EndLoop =>
    rcases os with _ | ⟨k, os2⟩
    · simp [expect] at he
    · cases k <;> simp [expect] at he
      subst he
      obtain ⟨t, rest, hf, hk⟩ := InStep_top L base os2 f _ h
      have htop : f.topIs (fun t => t = BlockType.FOR || t = BlockType.WHILE) = true := by
        simp only [Formatter.topIs, hf]; cases hty : t.type <;> simp_all [kindOf]
      refine InStep_close L base os2 f _ _ hL h (by simp) ?_ ?_
      · simp [Formatter.call, Formatter.EndLoop, htop, Formatter.pop]
      · simp [Formatter.call, Formatter.EndLoop, htop, Formatter.pop,
          Formatter.CloseBlock_indent_level]
  | EndClass =>
    rcases os with _ | ⟨k, os2⟩
    · simp [expect] at he
    · cases k <;> simp [expect] at he
      subst he
      obtain ⟨t, rest, hf, hk⟩ := InStep_top L base os2 f _ h
      have htop : f.topIs (fun t => t = BlockType.CLASS || t = BlockType.STRUCT) = true := by
        simp only [Formatter.topIs, hf]; cases hty : t.type <;> simp_all [kindOf]
      refine InStep_close L base os2 f _ _ hL h (by simp) ?_ ?_
      · simp [Formatter.call, Formatter.EndClass, htop, Formatter.pop]
      · simp [Formatter.call, Formatter.EndClass, htop, Formatter.pop,
          Formatter.CloseBlock_indent_level]
  | EndNamespace =>
    rcases os with _ | ⟨k, os2⟩
    · simp [expect] at he
    · cases k <;> simp [expect] at he
      subst he
      obtain ⟨t, rest, hf, hk⟩ := InStep_top L base os2 f _ h
      have hty : t.type = BlockType.NAMESPACE := by
        cases hty : t.type <;> simp_all [kindOf]
      have hpos := InStep_pos L base os2 f _ hL h (by simp)
      refine InStep_close L base os2 f _ _ hL h (by simp) ?_ ?_
      · simp [Formatter.call, Formatter.EndNamespace, hf, hty, Formatter.pop,
          Formatter.Outdent, hpos]
      · simp [Formatter.call, Formatter.EndNamespace, hf, hty, Formatter.pop,
          Formatter.Outdent, hpos]

end code_generator

namespace code_generator

theorem InStep_start (f : Formatter) : InStep f.indent_level_ f.block_stack_ [] f :=
  ⟨[], by simp, by simp, by simp [depth]⟩

theorem InStep_done (L : Int) (base : List BlockState) (f : Formatter)
    (h : InStep L base [] f) : f.indent_level_ = L ∧ f.block_stack_ = base := by
  obtain ⟨top, hs, hm, hl⟩ := h
  simp only [List.map_nil, List.map_eq_nil_iff] at hm
  subst hm
  exact ⟨by simpa [depth] using hl, by simpa using hs⟩

theorem run_cons (f : Formatter) (c : Call) (cs : List Call) :
    f.run (c :: cs) = (f.call c).run cs := rfl

theorem run_append (f : Formatter) (cs ds : List Call) :
    f.run (cs ++ ds) = (f.run cs).run ds := by
  simp [Formatter.run, List.foldl_append]

theorem run_use_braces (cs : List Call) :
    ∀ f : Formatter, (f.run cs).use_braces_ = f.use_braces_ := by
  induction cs with
  | nil => intro f; rfl
  | cons c cs ih => intro f; rw [run_cons, ih, Formatter.call_use_braces]

theorem peak_le_of_fits (f : Formatter) (cs : List Call) (hL : 0 ≤ f.indent_level_)
    (hfit : indentFits f.indent_style_
      (f.indent_level_ + peak f.use_braces_ [] cs).toNat = true) :
    f.indent_level_ + peak f.use_braces_ [] cs ≤ INT_MAX := by
  have hle := indentFits_le _ _ hfit
  have hp := depth_le_peak f.use_braces_ cs []
  simp only [depth] at hp
  rw [Int.toNat_of_nonneg (by omega)] at hle
  exact hle

theorem InStep_run (L : Int) (base : List BlockState) (hL : 0 ≤ L) (cs : List Call) :
    ∀ (os : List BlockKind) (f : Formatter), InStep L base os f → matchedFrom os cs = true →
      L + peak f.use_braces_ os cs ≤ INT_MAX →
      (f.run cs).indent_level_ = L ∧ (f.run cs).block_stack_ = base := by
  induction cs with
  | nil =>
    intro os f h hm _
    simp only [matchedFrom, List.isEmpty_iff] at hm
    subst hm
    exact InStep_done L base f h
  | cons c cs ih =>
    intro os f h hm hmax
    simp only [matchedFrom] at hm
    rcases he : expect os c with _ | os1
    · simp [he] at hm
    · rw [he] at hm
      rw [run_cons]
      have hp := peak_step_le f.use_braces_ os os1 c cs he
      have hd := depth_le_peak f.use_braces_ cs os1
      exact ih os1 (f.call c) (InStep_step L base os os1 f c hL h he (by omega)) hm
        (by rw [Formatter.call_use_braces]; omega)

/-- C3 (amended): block balance. For every well-matched sequence of calls, in either brace
style, from every block stack and every indent level `≥ 0` such that the indent prefix of the
deepest level the sequence reaches (the starting level plus the largest number of levels that
the constructs open at one time account for) has at most `INT_MAX` characters, the indent
level and the block stack after the sequence are those before it. -/
theorem block_balance (f : Formatter) (cs : List Call) (hL : 0 ≤ f.indent_level_)
    (hfit : indentFits f.indent_style_
      (f.indent_level_ + peak f.use_braces_ [] cs).toNat = true)
    (hm : WellMatched cs = true) :
    (f.run cs).indent_level_ = f.indent_level_ ∧ (f.run cs).block_stack_ = f.block_stack_ :=
  InStep_run f.indent_level_ f.block_stack_ hL cs [] f (InStep_start f) hm
    (peak_le_of_fits f cs hL hfit)

end code_generator

namespace code_generator

theorem expect_end (e : EndCall) (r : List BlockKind) :
    expect (e.closes :: r) e.toCall = some r := by
  cases e <;> rfl

theorem expect_Else (r : List BlockKind) :
    expect (BlockKind.conditional :: r) Call.Else = some (BlockKind.conditional :: r) := rfl

theorem expect_ElseIf (r : List BlockKind) (s : List Char) :
    expect (BlockKind.conditional :: r) (Call.ElseIf s) = some (BlockKind.conditional :: r) := rfl

theorem expect_cases (os os1 : List BlockKind) (c : Call) (h : expect os c = some os1) :
    (∃ s, os1 = s ++ os ∧ ∀ r, expect r c = some (s ++ r)) ∨
    ((c = Call.Else ∨ ∃ s, c = Call.ElseIf s) ∧
      ∃ r0, os = BlockKind.conditional :: r0 ∧ os1 = os) ∨
    (∃ e : EndCall, c = e.toCall ∧ os = e.closes :: os1) := by
  cases c with
  | AddLine line =>
    left; simp only [expect, Option.some.injEq] at h
    exact ⟨[], by simp [h], fun r => by rcases r with _ | ⟨k, r⟩ <;> [rfl; (cases k <;> rfl)]⟩
  | If condition =>
    left; simp only [expect, Option.some.injEq] at h
    exact ⟨[BlockKind.conditional], by simp [← h], fun r => by rcases r with _ | ⟨k, r⟩ <;> [rfl; (cases k <;> rfl)]⟩
  | For loop_header =>
    left; simp only [expect, Option.some.injEq] at h
    exact ⟨[BlockKind.loop], by simp [← h], fun r => by rcases r with _ | ⟨k, r⟩ <;> [rfl; (cases k <;> rfl)]⟩
  | While condition =>
    left; simp only [expect, Option.some.injEq] at h
    exact ⟨[BlockKind.loop], by simp [← h], fun r => by rcases r with _ | ⟨k, r⟩ <;> [rfl; (cases k <;> rfl)]⟩
  | Class name inheritance =>
    left; simp only [expect, Option.some.injEq] at h
    exact ⟨[BlockKind.typeDef], by simp [← h], fun r => by rcases r with _ | ⟨k, r⟩ <;> [rfl; (cases k <;> rfl)]⟩
  | Struct name inheritance =>
    left; simp only [expect, Option.some.injEq] at h
    exact ⟨[BlockKind.typeDef], by simp [← h], fun r => by rcases r with _ | ⟨k, r⟩ <;> [rfl; (cases k <;> rfl)]⟩
  | Namespace name =>
    left; simp only [expect, Option.some.injEq] at h
    exact ⟨[BlockKind.nameSpace], by simp [← h], fun r => by rcases r with _ | ⟨k, r⟩ <;> [rfl; (cases k <;> rfl)]⟩
  | ElseIf condition =>
    right; left
    rcases os with _ | ⟨k, os2⟩
    · simp [expect] at h
    · cases k <;> simp [expect] at h
      exact ⟨Or.inr ⟨condition, rfl⟩, os2, rfl, h.symm⟩
  | Else =>
    right; left
    rcases os with _ | ⟨k, os2⟩
    · simp [expect] at h
    · cases k <;> simp [expect] at h
      exact ⟨Or.inl rfl, os2, rfl, h.symm⟩
  | EndIf =>
    right; right
    rcases os with _ | ⟨k, os2⟩
    · simp [expect] at h
    · cases k <;> simp [expect] at h
      exact ⟨EndCall.EndIf, rfl, by simp [EndCall.closes, h]⟩
  | EndLoop =>
    right; right
    rcases os with _ | ⟨k, os2⟩
    · simp [expect] at h
    · cases k <;> simp [expect] at h
      exact ⟨EndCall.EndLoop, rfl, by simp [EndCall.closes, h]⟩
  | EndClass =>
    right; right
    rcases os with _ | ⟨k, os2⟩
    · simp [expect] at h
    · cases k <;> simp [expect] at h
      exact ⟨EndCall.EndClass, rfl, by simp [EndCall.closes, h]⟩
  | EndNamespace =>
    right; right
    rcases os with _ | ⟨k, os2⟩
    · simp [expect] at h
    · cases k <;> simp [expect] at h
      exact ⟨EndCall.EndNamespace, rfl, by simp [EndCall.closes, h]⟩

theorem InStep_topKind_cons (L : Int) (base : List BlockState) (k : BlockKind)
    (os : List BlockKind) (f : Formatter) (h : InStep L base (k :: os) f) :
    f.topKind = some k := by
  obtain ⟨t, rest, hf, hk⟩ := InStep_top L base os f k h
  unfold Formatter.topKind; rw [hf]; exact hk

theorem InStep_topKind_nil (L : Int) (base : List BlockState) (f : Formatter) (k : BlockKind)
    (hbase : ∀ b rest, base = b :: rest → kindOf b.type ≠ some k)
    (h : InStep L base [] f) : f.topKind ≠ some k := by
  have hs := (InStep_done L base f h).2
  unfold Formatter.topKind; rw [hs]
  rcases base with _ | ⟨b, rest⟩
  · simp
  · exact hbase b rest rfl

/-- With the construct of kind `k` at position `p` of the expected constructs already closed
in the formatter, and no construct of kind `k` on top of `base`, the rest of a well-matched
sequence still ends at level `L` over `base`. -/
theorem lag_run (L : Int) (base : List BlockState) (hL : 0 ≤ L) (k : BlockKind)
    (hbase : ∀ b rest, base = b :: rest → kindOf b.type ≠ some k) (cs : List Call) :
    ∀ (p q : List BlockKind) (f : Formatter), InStep L base (p ++ q) f →
      matchedFrom (p ++ k :: q) cs = true →
      L + peak f.use_braces_ (p ++ k :: q) cs ≤ INT_MAX →
      (f.run cs).indent_level_ = L ∧ (f.run cs).block_stack_ = base := by
  induction cs with
  | nil =>
    intro p q f _ hm _
    simp [matchedFrom] at hm
  | cons c cs ih =>
    intro p q f h hm hmax
    simp only [matchedFrom] at hm
    rcases he : expect (p ++ k :: q) c with _ | os1
    · simp [he] at hm
    replace hm : matchedFrom os1 cs = true := by rw [he] at hm; exact hm
    rw [run_cons]
    have hp := peak_step_le f.use_braces_ _ os1 c cs he
    have hd := depth_le_peak f.use_braces_ cs os1
    have hmax0 : L + peak f.use_braces_ os1 cs ≤ INT_MAX := by omega
    have hdb : L + depth f.use_braces_ os1 ≤ INT_MAX := by omega
    have hmax1 : L + peak (f.call c).use_braces_ os1 cs ≤ INT_MAX := by
      rw [Formatter.call_use_braces]; exact hmax0
    clear hp hd
    -- the formatter has no construct of kind `k` on top when `p` and `q` give none
    have hnone : p = [] → (∀ q1, q ≠ k :: q1) → f.topKind ≠ some k := by
      intro hp hq
      subst hp
      rcases q with _ | ⟨o, q1⟩
      · exact InStep_topKind_nil L base f k hbase h
      · rw [InStep_topKind_cons L base o q1 f h]
        intro hc
        simp only [Option.some.injEq] at hc
        exact hq q1 (by rw [hc])
    rcases expect_cases _ _ c he with ⟨s, hs, hall⟩ | ⟨hc, r0, hr0, hos⟩ | ⟨e, hc, hos⟩
    · -- a call that does not look at the open constructs
      subst hs
      have hi := depth_le_insert f.use_braces_ (s ++ p) q k
      rw [List.append_assoc, List.append_assoc] at hi
      have h1 := InStep_step L base (p ++ q) _ f c hL h (hall (p ++ q)) (by omega)
      rw [← List.append_assoc] at h1
      exact ih (s ++ p) q (f.call c) h1 (by simpa using hm) (by simpa using hmax1)
    · -- `Else` / `ElseIf`
      rw [hos] at hm
      rcases p with _ | ⟨o, p1⟩
      · simp only [List.nil_append, List.cons.injEq] at hr0
        obtain ⟨hk, _⟩ := hr0
        by_cases hq : ∃ q1, q = k :: q1
        · obtain ⟨q1, hq1⟩ := hq
          have hex : expect ([] ++ q) c = some ([] ++ q) := by
            rw [hq1, hk]
            rcases hc with hc | ⟨s, hc⟩ <;> subst hc <;> rfl
          have hi := depth_le_insert f.use_braces_ [] q k
          rw [hos] at hdb
          exact ih [] q (f.call c) (InStep_step L base _ _ f c hL h hex (by omega)) hm
            (by rw [hos] at hmax1; exact hmax1)
        · have htk := hnone rfl (fun q1 hq1 => hq ⟨q1, hq1⟩)
          rw [hk] at htk
          have hnoop : f.call c = f := by
            rcases hc with hc | ⟨s, hc⟩ <;> subst hc
            · exact Formatter.Else_of_topKind_ne f htk
            · exact Formatter.ElseIf_of_topKind_ne f htk s
          rw [hnoop]
          exact ih [] q f h hm (by rw [hos] at hmax0; exact hmax0)
      · simp only [List.cons_append, List.cons.injEq] at hr0
        obtain ⟨ho, _⟩ := hr0
        have hex : expect (o :: p1 ++ q) c = some (o :: p1 ++ q) := by
          rw [ho]
          rcases hc with hc | ⟨s, hc⟩ <;> subst hc <;> rfl
        have hi := depth_le_insert f.use_braces_ (o :: p1) q k
        rw [hos] at hdb
        exact ih (o :: p1) q (f.call c) (InStep_step L base _ _ f c hL h hex (by omega)) hm
          (by rw [hos] at hmax1; exact hmax1)
    · -- an `End*` call
      rcases p with _ | ⟨o, p1⟩
      · simp only [List.nil_append, List.cons.injEq] at hos
        obtain ⟨hk, hq⟩ := hos
        subst hq
        by_cases hq : ∃ q1, q = k :: q1
        · obtain ⟨q1, hq1⟩ := hq
          have hex : expect ([] ++ q) c = some q1 := by
            rw [hq1, hk, hc]; exact expect_end e q1
          have hi := depth_le_insert f.use_braces_ [] q1 k
          rw [hq1] at hdb
          have h1 := InStep_step L base _ _ f c hL h hex (by
            simp only [List.nil_append] at hi; omega)
          exact ih [] q1 (f.call c) h1 (by rw [hq1] at hm; simpa using hm)
            (by rw [hq1] at hmax1; simpa using hmax1)
        · have htk := hnone rfl (fun q1 hq1 => hq ⟨q1, hq1⟩)
          rw [hk] at htk
          have hnoop : f.call c = f := by
            rw [hc]; exact Formatter.call_end_of_topKind_ne f e htk
          rw [hnoop]
          exact InStep_run L base hL cs q f h hm hmax0
      · simp only [List.cons_append, List.cons.injEq] at hos
        obtain ⟨ho, hos1⟩ := hos
        have hex : expect (o :: p1 ++ q) c = some (p1 ++ q) := by
          rw [ho, hc]; exact expect_end e _
        have hi := depth_le_insert f.use_braces_ p1 q k
        rw [← hos1] at hdb
        have h1 := InStep_step L base _ _ f c hL h hex (by omega)
        exact ih p1 q (f.call c) h1 (by rw [hos1]; exact hm) (by rw [hos1]; exact hmax1)

theorem run_matched_prefix (L : Int) (base : List BlockState) (hL : 0 ≤ L)
    (pre post : List Call) :
    ∀ (os : List BlockKind) (f : Formatter), InStep L base os f →
      matchedFrom os (pre ++ post) = true →
      L + peak f.use_braces_ os (pre ++ post) ≤ INT_MAX →
      ∃ os1, InStep L base os1 (f.run pre) ∧ matchedFrom os1 post = true ∧
        L + peak f.use_braces_ os1 post ≤ INT_MAX := by
  induction pre with
  | nil => intro os f h hm hmax; exact ⟨os, h, hm, hmax⟩
  | cons c cs ih =>
    intro os f h hm hmax
    simp only [List.cons_append, matchedFrom] at hm
    rcases he : expect os c with _ | os1
    · simp [he] at hm
    · rw [he] at hm
      rw [run_cons]
      have hp := peak_step_le f.use_braces_ os os1 c (cs ++ post) he
      have hd := depth_le_peak f.use_braces_ (cs ++ post) os1
      simp only [List.cons_append] at hmax
      have := ih os1 (f.call c) (InStep_step L base os os1 f c hL h he (by omega)) hm
        (by rw [Formatter.call_use_braces]; omega)
      rw [Formatter.call_use_braces] at this
      exact this

/-- C4, as amended: when the block stack before a well-matched sequence is empty, or its top
record is not of the kind that the extra `End*` call closes, and the indent prefix of the
deepest level the sequence reaches has at most `INT_MAX` characters, the sequence with that one
extra call inserted at any position still ends with the indent level and the block stack it
started with. -/
theorem extra_end_call_balanced (f : Formatter) (cs : List Call) (i : Nat) (e : EndCall)
    (hL : 0 ≤ f.indent_level_) (hm : WellMatched cs = true)
    (hfit : indentFits f.indent_style_
      (f.indent_level_ + peak f.use_braces_ [] cs).toNat = true)
    (hbase : f.topKind ≠ some e.closes) :
    (f.run (insertCall cs i e.toCall)).indent_level_ = f.indent_level_ ∧
      (f.run (insertCall cs i e.toCall)).block_stack_ = f.block_stack_ := by
  have hmax := peak_le_of_fits f cs hL hfit
  have hb : ∀ b rest, f.block_stack_ = b :: rest → kindOf b.type ≠ some e.closes := by
    intro b rest hst
    unfold Formatter.topKind at hbase
    rw [hst] at hbase
    exact hbase
  have hsplit : matchedFrom [] (cs.take i ++ cs.drop i) = true := by
    rw [List.take_append_drop]; exact hm
  obtain ⟨os1, h1, hm1, hmax1⟩ := run_matched_prefix f.indent_level_ f.block_stack_ hL
    (cs.take i) (cs.drop i) [] f (InStep_start f) hsplit (by
      rw [List.take_append_drop]; exact hmax)
  have hub : (f.run (cs.take i)).use_braces_ = f.use_braces_ := run_use_braces _ f
  unfold insertCall
  rw [run_append, run_cons]
  have hd := depth_le_peak f.use_braces_ (cs.drop i) os1
  by_cases hq : ∃ q1, os1 = e.closes :: q1
  · obtain ⟨q1, hq1⟩ := hq
    have hex : expect os1 e.toCall = some q1 := by rw [hq1]; exact expect_end e q1
    have hi := depth_le_insert f.use_braces_ [] q1 e.closes
    simp only [List.nil_append] at hi
    rw [hq1] at hd hmax1
    have h2 := InStep_step _ _ _ _ _ e.toCall hL h1 hex (by rw [hub]; omega)
    exact lag_run _ _ hL e.closes hb (cs.drop i) [] q1 _ h2 (by rw [hq1] at hm1; simpa using hm1)
      (by rw [Formatter.call_use_braces, hub]; simpa using hmax1)
  · have htk : (f.run (cs.take i)).topKind ≠ some e.closes := by
      rcases os1 with _ | ⟨o, q1⟩
      · exact InStep_topKind_nil _ _ _ _ hb h1
      · rw [InStep_topKind_cons _ _ o q1 _ h1]
        intro hc
        simp only [Option.some.injEq] at hc
        exact hq ⟨q1, by rw [hc]⟩
    rw [Formatter.call_end_of_topKind_ne _ e htk]
    exact InStep_run _ _ hL (cs.drop i) os1 _ h1 hm1 (by rw [hub]; exact hmax1)

end code_generator

/-! ## Buffered channels: `WriteRaw` over an adapter that lends at least one byte -/

namespace code_generator

theorem WriteRaw_appends {σ : Type} (S : ZeroCopyOutputStream σ) (Inv : σ → Prop)
    (content : σ → List Char)
    (hcycle : ∀ st, Inv st → ∃ st1 pos size, S.Next st = (st1, some (pos, size)) ∧ 1 ≤ size ∧
      ∀ bytes : List Char, bytes ≠ [] → (bytes.length : Int) ≤ size →
        Inv (if (bytes.length : Int) < size
              then S.BackUp (S.store st1 pos bytes) (size - (bytes.length : Int))
              else S.store st1 pos bytes) ∧
        content (if (bytes.length : Int) < size
              then S.BackUp (S.store st1 pos bytes) (size - (bytes.length : Int))
              else S.store st1 pos bytes) = content st ++ bytes ∧
        S.ByteCount (if (bytes.length : Int) < size
              then S.BackUp (S.store st1 pos bytes) (size - (bytes.length : Int))
              else S.store st1 pos bytes) = S.ByteCount st + (bytes.length : Int)) :
    ∀ (fuel : Nat) (data : List Char) (st : σ), Inv st → data.length ≤ fuel →
      ∃ st1, S.WriteRaw fuel st data = some (st1, true) ∧ Inv st1 ∧
        content st1 = content st ++ data ∧
        S.ByteCount st1 = S.ByteCount st + (data.length : Int) := by
  intro fuel
  induction fuel with
  | zero =>
    intro data st hinv hlen
    have : data = [] := List.eq_nil_of_length_eq_zero (by omega)
    subst this
    exact ⟨st, by simp [ZeroCopyOutputStream.WriteRaw], hinv, by simp, by simp⟩
  | succ fuel ih =>
    intro data st hinv hlen
    rcases data with _ | ⟨c, cs⟩
    · exact ⟨st, by simp [ZeroCopyOutputStream.WriteRaw], hinv, by simp, by simp⟩
    · obtain ⟨st1, pos, size, hnext, hsize, hbytes⟩ := hcycle st hinv
      have hlen1 : ((c :: cs).length : Int) ≥ 1 := by simp only [List.length_cons]; omega
      set copy : Int := min size ((c :: cs).length : Int) with hcopy
      have hc1 : 1 ≤ copy := le_min hsize hlen1
      have hc2 : copy ≤ size := min_le_left _ _
      have hc3 : copy ≤ ((c :: cs).length : Int) := min_le_right _ _
      have htl : (((c :: cs).take copy.toNat).length : Int) = copy := by
        rw [List.length_take]; omega
      have hne : (c :: cs).take copy.toNat ≠ [] := by
        intro h; rw [h] at htl; simp at htl; omega
      obtain ⟨h1, h2, h3⟩ := hbytes _ hne (by rw [htl]; exact hc2)
      rw [htl] at h1 h2 h3
      have hdl : ((c :: cs).drop copy.toNat).length ≤ fuel := by
        rw [List.length_drop]; simp only [List.length_cons] at hlen hc3 ⊢; omega
      obtain ⟨st4, hw, hi4, hc4, hb4⟩ := ih _ _ h1 hdl
      refine ⟨st4, ?_, hi4, ?_, ?_⟩
      · rw [ZeroCopyOutputStream.WriteRaw, hnext]
        simp only
        rw [if_neg (by omega)]
        exact hw
      · rw [hc4, h2, List.append_assoc, List.take_append_drop]
      · rw [hb4, h3, List.length_drop]
        have : (((c :: cs).length - copy.toNat : Nat) : Int) = ((c :: cs).length : Int) - copy := by
          omega
        rw [this]; ring

end code_generator

namespace code_generator

end code_generator

/-! ## The file-backed output channel -/

namespace code_generator

theorem FileOutputStream_Inv_new (B : Nat) :
    FileOutputStream.Inv B (FileOutputStream.new OutFile.fresh B) := by
  simp [FileOutputStream.Inv, FileOutputStream.new, OutFile.fresh]

theorem FileOutputStream_FlushBuffer_spec (B : Nat) (s : FileOutputStream)
    (h : FileOutputStream.Inv B s) :
    s.FlushBuffer = ({ s with
        file_ := { s.file_ with written := s.content }
        total_bytes_ := s.total_bytes_ + s.buffer_offset_
        buffer_offset_ := 0 }, true) := by
  obtain ⟨hlen, h0, hB, hroom, hfl⟩ := h
  unfold FileOutputStream.FlushBuffer FileOutputStream.content
  by_cases hpos : s.buffer_offset_ > 0
  · have hl : (((List.take s.buffer_offset_.toNat s.buffer_).length : Nat) : Int)
        = s.buffer_offset_ := by
      rw [List.length_take]; omega
    rw [if_pos hpos]
    simp only [OutFile.fwrite, hroom, hl, ne_eq, not_true_eq_false, if_false, hfl]
  · have hz : s.buffer_offset_ = 0 := by omega
    obtain ⟨file, buffer, offset, total⟩ := s
    obtain ⟨written, room, ok⟩ := file
    simp only at hz
    subst hz
    simp

theorem FileOutputStream_Next_spec (B : Nat) (hB : 1 ≤ B) (s : FileOutputStream)
    (h : FileOutputStream.Inv B s) :
    ∃ st1 size, s.Next = (st1, some ((B - size.toNat), size)) ∧ 1 ≤ size ∧ size ≤ (B : Int) ∧
      st1.buffer_offset_ = (B : Int) ∧ st1.buffer_ = s.buffer_ ∧
      st1.file_.room = none ∧ st1.file_.fflush_ok = true ∧
      st1.file_.written ++ st1.buffer_.take (B - size.toNat) = s.content ∧
      st1.total_bytes_ + (B : Int) - size = s.ByteCount := by
  have hspec := FileOutputStream_FlushBuffer_spec B s h
  obtain ⟨hlen, h0, hBo, hroom, hfl⟩ := h
  by_cases hfull : s.buffer_offset_ = (s.buffer_.length : Int)
  · refine ⟨{ file_ := { s.file_ with written := s.content }, buffer_ := s.buffer_,
              buffer_offset_ := (B : Int), total_bytes_ := s.total_bytes_ + s.buffer_offset_ },
      (B : Int), ?_, by omega, le_refl _, rfl, rfl, hroom, hfl, ?_, ?_⟩
    · unfold FileOutputStream.Next
      rw [if_pos hfull, hspec]
      simp [hlen]
    · simp
    · simp only [FileOutputStream.ByteCount]; ring
  · refine ⟨{ s with buffer_offset_ := (B : Int) }, (B : Int) - s.buffer_offset_, ?_,
      by omega, by omega, rfl, rfl, hroom, hfl, ?_, ?_⟩
    · unfold FileOutputStream.Next
      rw [if_neg hfull]
      simp only [hlen, Bool.true_eq_false, if_false]
      congr 3
      omega
    · simp only [FileOutputStream.content]
      congr 2
      omega
    · simp only [FileOutputStream.ByteCount]; ring

end code_generator

namespace code_generator

theorem FileOutputStream_Inv_BackUp (B : Nat) (s : FileOutputStream) (count : Int)
    (h : FileOutputStream.Inv B s) : FileOutputStream.Inv B (s.BackUp count) := by
  obtain ⟨hlen, h0, hBo, hroom, hfl⟩ := h
  unfold FileOutputStream.BackUp
  split_ifs with hc
  · exact ⟨hlen, by simp only; omega, by simp only; omega, hroom, hfl⟩
  · exact ⟨hlen, h0, hBo, hroom, hfl⟩

theorem FileOutputStream_cycle (B : Nat) (hB : 1 ≤ B) (st : FileOutputStream)
    (h : FileOutputStream.Inv B st) :
    ∃ st1 pos size, FileOutputStream.stream.Next st = (st1, some (pos, size)) ∧ 1 ≤ size ∧
      ∀ bytes : List Char, bytes ≠ [] → (bytes.length : Int) ≤ size →
        FileOutputStream.Inv B (if (bytes.length : Int) < size
              then FileOutputStream.stream.BackUp
                (FileOutputStream.stream.store st1 pos bytes) (size - (bytes.length : Int))
              else FileOutputStream.stream.store st1 pos bytes) ∧
        FileOutputStream.content (if (bytes.length : Int) < size
              then FileOutputStream.stream.BackUp
                (FileOutputStream.stream.store st1 pos bytes) (size - (bytes.length : Int))
              else FileOutputStream.stream.store st1 pos bytes) = st.content ++ bytes ∧
        FileOutputStream.stream.ByteCount (if (bytes.length : Int) < size
              then FileOutputStream.stream.BackUp
                (FileOutputStream.stream.store st1 pos bytes) (size - (bytes.length : Int))
              else FileOutputStream.stream.store st1 pos bytes)
          = FileOutputStream.stream.ByteCount st + (bytes.length : Int) := by
  obtain ⟨st1, size, hnext, hs1, hsB, hoff, hbuf, hroom, hfl, hcont, hbc⟩ :=
    FileOutputStream_Next_spec B hB st h
  obtain ⟨hlen, h0, hBo, _, _⟩ := h
  refine ⟨st1, B - size.toNat, size, hnext, hs1, ?_⟩
  intro bytes hne hbl
  have hlen1 : st1.buffer_.length = B := by rw [hbuf]; exact hlen
  -- the state after the copy and the commit, whichever branch is taken
  have hstate : (if (bytes.length : Int) < size
        then FileOutputStream.stream.BackUp
          (FileOutputStream.stream.store st1 (B - size.toNat) bytes) (size - (bytes.length : Int))
        else FileOutputStream.stream.store st1 (B - size.toNat) bytes)
      = { st1 with
          buffer_ := st1.buffer_.take (B - size.toNat) ++ bytes ++
            st1.buffer_.drop (B - size.toNat + bytes.length)
          buffer_offset_ := ((B - size.toNat + bytes.length : Nat) : Int) } := by
    simp only [FileOutputStream.stream, FileOutputStream.store, FileOutputStream.BackUp]
    split_ifs with h1 h2
    · simp only [hoff]
      congr 1
      omega
    · exfalso; simp only [hoff] at h2; omega
    · have : (bytes.length : Int) = size := by omega
      obtain ⟨file, buffer, offset, total⟩ := st1
      simp only at hoff
      simp only [hoff]
      congr 1
      omega
  rw [hstate]
  have htake : (st1.buffer_.take (B - size.toNat) ++ bytes ++
      st1.buffer_.drop (B - size.toNat + bytes.length)).take (B - size.toNat + bytes.length)
      = st1.buffer_.take (B - size.toNat) ++ bytes := by
    rw [List.take_left' (by rw [List.length_append, List.length_take, hlen1]; omega)]
  refine ⟨⟨?_, ?_, ?_, hroom, hfl⟩, ?_, ?_⟩
  · simp only [List.length_append, List.length_take, List.length_drop, hlen1]; omega
  · simp only; omega
  · simp only; omega
  · simp only [FileOutputStream.content, Int.toNat_ofNat, htake]
    rw [← List.append_assoc, hcont]
    rfl
  · simp only [FileOutputStream.stream, FileOutputStream.ByteCount] at hbc ⊢
    omega

theorem FileOutputStream_WriteRaw_spec (B : Nat) (hB : 1 ≤ B) (fuel : Nat) (data : List Char)
    (st : FileOutputStream) (h : FileOutputStream.Inv B st) (hfuel : data.length ≤ fuel) :
    ∃ st1, FileOutputStream.stream.WriteRaw fuel st data = some (st1, true) ∧
      FileOutputStream.Inv B st1 ∧ st1.content = st.content ++ data ∧
      st1.ByteCount = st.ByteCount + (data.length : Int) :=
  WriteRaw_appends FileOutputStream.stream (FileOutputStream.Inv B) FileOutputStream.content
    (fun st hst => FileOutputStream_cycle B hB st hst) fuel data st h hfuel

theorem FileOutputStream_dispose_spec (B : Nat) (s : FileOutputStream)
    (h : FileOutputStream.Inv B s) : s.dispose.written = s.content := by
  have hspec := FileOutputStream_FlushBuffer_spec B s h
  unfold FileOutputStream.dispose
  split_ifs with hpos
  · rw [hspec]
  · obtain ⟨hlen, h0, hBo, _, _⟩ := h
    have hz : s.buffer_offset_ = 0 := by omega
    simp [FileOutputStream.content, hz]

end code_generator

/-! ## The file-backed input channel -/

namespace code_generator

theorem FileInputStream_readAll_spec (B : Nat) (hB : 1 ≤ B) (fuel : Nat) :
    ∀ (s : FileInputStream) (str : List Char), s.buffer_.length = B →
      s.buffer_available_ ≤ s.buffer_offset_ → s.file_.unread.length + 1 ≤ fuel →
      ∃ s1, FileInputStream.stream.readAll fuel s str = some (s1, str ++ s.file_.unread) := by
  induction fuel with
  | zero => intro s str _ _ hf; omega
  | succ fuel ih =>
    intro s str hlen hcons hf
    have hnlt : ¬ s.buffer_offset_ < s.buffer_available_ := by omega
    by_cases hempty : s.file_.unread = []
    · refine ⟨{ s with file_ := { unread := s.file_.unread.drop s.buffer_.length } }, ?_⟩
      simp [ZeroCopyInputStream.readAll, FileInputStream.stream, FileInputStream.Next,
        FileInputStream.Refill, InFile.fread, hcons, hnlt, hempty]
    · have hpos : 0 < s.file_.unread.length := List.length_pos.mpr hempty
      have hdrop : (s.file_.unread.drop B).length + 1 ≤ fuel := by
        rw [List.length_drop]; omega
      have hsplit : s.file_.unread.take B ++ s.file_.unread.drop B = s.file_.unread :=
        List.take_append_drop _ _
      have htl : (s.file_.unread.take B).length ≤ B := by
        rw [List.length_take]; omega
      have htne : (s.file_.unread.take B).length ≠ 0 := by
        rw [List.length_take]; omega
      obtain ⟨bytes, hb⟩ : ∃ b, s.file_.unread.take B = b := ⟨_, rfl⟩
      rw [hb] at hsplit htl htne
      set s2 : FileInputStream :=
        { file_ := { unread := s.file_.unread.drop B }
          buffer_ := bytes ++ s.buffer_.drop bytes.length
          buffer_offset_ := (bytes.length : Int)
          buffer_available_ := (bytes.length : Int)
          total_bytes_ := s.total_bytes_
          last_returned_size_ := (bytes.length : Int) } with hs2
      have hnext : FileInputStream.stream.Next s = (s2, some bytes) := by
        simp only [FileInputStream.stream, FileInputStream.Next, FileInputStream.Refill,
          InFile.fread, hlen, hb, ge_iff_le, hcons, if_true, hnlt, if_false, htne]
        simp [hs2]
      obtain ⟨s3, h3⟩ := ih s2 (str ++ bytes)
        (by simp only [hs2, List.length_append, List.length_drop, hlen]; omega)
        (by simp only [hs2]; exact le_refl _)
        (by simp only [hs2]; exact hdrop)
      refine ⟨s3, ?_⟩
      rw [ZeroCopyInputStream.readAll, hnext]
      simp only
      rw [h3]
      simp only [hs2, List.append_assoc]
      rw [hsplit]

theorem FileInputStream_ReadToString_spec (B : Nat) (hB : 1 ≤ B) (fuel : Nat)
    (content str : List Char) (hf : content.length + 1 ≤ fuel) :
    ∃ s1, FileInputStream.stream.ReadToString fuel (FileInputStream.new ⟨content⟩ B) str (-1)
      = some (s1, str ++ content, true) := by
  obtain ⟨s1, h1⟩ := FileInputStream_readAll_spec B hB fuel (FileInputStream.new ⟨content⟩ B) str
    (by simp [FileInputStream.new]) (by simp [FileInputStream.new])
    (by simpa [FileInputStream.new] using hf)
  refine ⟨s1, ?_⟩
  unfold ZeroCopyInputStream.ReadToString
  rw [if_pos (by omega), h1]
  simp [FileInputStream.new]

/-- C6: round trip. For every payload and every buffer size `B ≥ 1`, `WriteRaw` on a
`FileOutputStream` over a new file returns `true` (given fuel for one iteration per byte); the
file holds exactly the payload once the stream is disposed of, and as well once it is flushed;
and the unbounded `ReadToString` of a `FileInputStream` with any buffer size `≥ 1` over that
file yields exactly the payload. -/
theorem file_round_trip (payload : List Char) (B Bin : Nat) (hB : 1 ≤ B) (hBin : 1 ≤ Bin)
    (fuel fuelIn : Nat) (hfuel : payload.length ≤ fuel) (hfuelIn : payload.length + 1 ≤ fuelIn) :
    ∃ out, FileOutputStream.stream.WriteRaw fuel (FileOutputStream.new OutFile.fresh B) payload
        = some (out, true) ∧
      out.dispose.written = payload ∧
      (out.Flush.2 = true ∧ out.Flush.1.file_.written = payload) ∧
      ∃ inp, FileInputStream.stream.ReadToString fuelIn
        (FileInputStream.new ⟨out.dispose.written⟩ Bin) [] (-1) = some (inp, payload, true) := by
  obtain ⟨out, hw, hinv, hcont, _⟩ := FileOutputStream_WriteRaw_spec B hB fuel payload
    (FileOutputStream.new OutFile.fresh B) (FileOutputStream_Inv_new B) hfuel
  have hc0 : (FileOutputStream.new OutFile.fresh B).content = [] := by
    simp [FileOutputStream.content, FileOutputStream.new, OutFile.fresh]
  rw [hc0, List.nil_append] at hcont
  have hd : out.dispose.written = payload := by
    rw [FileOutputStream_dispose_spec B out hinv, hcont]
  refine ⟨out, hw, hd, ?_, ?_⟩
  · unfold FileOutputStream.Flush
    rw [FileOutputStream_FlushBuffer_spec B out hinv]
    exact ⟨rfl, hcont⟩
  · rw [hd]
    obtain ⟨inp, hi⟩ := FileInputStream_ReadToString_spec Bin hBin fuelIn payload [] hfuelIn
    exact ⟨inp, by simpa using hi⟩

end code_generator

/-! ## The commit invariant of the three output adapters -/

namespace code_generator

theorem inContract_cons (size k : Int) (sizes ks : List Int) :
    inContract (size :: sizes) (k :: ks) = true ↔
      0 ≤ k ∧ k ≤ size ∧ inContract sizes ks = true := by
  simp [inContract, and_assoc]

theorem FileOutputStream_lendCommit_spec (B : Nat) (hB : 1 ≤ B) (ks : List Int) :
    ∀ s : FileOutputStream, FileOutputStream.Inv B s →
      (lendCommit FileOutputStream.stream s ks).2.length = ks.length ∧
      FileOutputStream.Inv B (lendCommit FileOutputStream.stream s ks).1 ∧
      (inContract (lendCommit FileOutputStream.stream s ks).2 ks = true →
        (lendCommit FileOutputStream.stream s ks).1.ByteCount
          = s.ByteCount + committed (lendCommit FileOutputStream.stream s ks).2 ks) := by
  induction ks with
  | nil => intro s h; exact ⟨rfl, h, fun _ => by simp [lendCommit, committed]⟩
  | cons k ks ih =>
    intro s h
    obtain ⟨st1, size, hnext, hs1, hsB, hoff, hbuf, hroom, hfl, _, hbc⟩ :=
      FileOutputStream_Next_spec B hB s h
    have hinv1 : FileOutputStream.Inv B st1 :=
      ⟨by rw [hbuf]; exact h.1, by omega, by omega, hroom, hfl⟩
    have hstep : lendCommit FileOutputStream.stream s (k :: ks)
        = ((lendCommit FileOutputStream.stream (st1.BackUp k) ks).1,
            size :: (lendCommit FileOutputStream.stream (st1.BackUp k) ks).2) := by
      rw [lendCommit]
      rw [show FileOutputStream.stream.Next s = s.Next from rfl, hnext]
      rfl
    obtain ⟨ih1, ih2, ih3⟩ := ih (st1.BackUp k) (FileOutputStream_Inv_BackUp B st1 k hinv1)
    rw [hstep]
    refine ⟨by simp [ih1], ih2, ?_⟩
    intro hc
    rw [inContract_cons] at hc
    obtain ⟨hk0, hk1, hrest⟩ := hc
    simp only [committed]
    rw [ih3 hrest]
    have : (st1.BackUp k).ByteCount = s.ByteCount + (size - k) := by
      simp only [FileOutputStream.BackUp, FileOutputStream.ByteCount] at hbc ⊢
      split_ifs with hcond
      · simp only [hoff]; omega
      · simp only [hoff]
        have : k = 0 := by
          by_contra hne
          exact hcond ⟨by omega, by rw [hoff]; omega⟩
        omega
    rw [this]; ring

theorem StringOutputStream_lendCommit_spec (ks : List Int) :
    ∀ s : StringOutputStream,
      (lendCommit StringOutputStream.stream s ks).2.length = ks.length ∧
      (inContract (lendCommit StringOutputStream.stream s ks).2 ks = true →
        (lendCommit StringOutputStream.stream s ks).1.ByteCount
          = s.ByteCount + committed (lendCommit StringOutputStream.stream s ks).2 ks) := by
  induction ks with
  | nil => intro s; exact ⟨rfl, fun _ => by simp [lendCommit, committed]⟩
  | cons k ks ih =>
    intro s
    obtain ⟨st1, size, hnext, hbc⟩ : ∃ st1 size, s.Next = (st1, some (s.target_.length, size)) ∧
        st1.total_bytes_ = s.total_bytes_ + size := ⟨_, _, rfl, rfl⟩
    have hstep : lendCommit StringOutputStream.stream s (k :: ks)
        = ((lendCommit StringOutputStream.stream (st1.BackUp k) ks).1,
            size :: (lendCommit StringOutputStream.stream (st1.BackUp k) ks).2) := by
      rw [lendCommit]
      rw [show StringOutputStream.stream.Next s = s.Next from rfl, hnext]
      rfl
    obtain ⟨ih1, ih3⟩ := ih (st1.BackUp k)
    rw [hstep]
    refine ⟨by simp [ih1], ?_⟩
    intro hc
    rw [inContract_cons] at hc
    obtain ⟨hk0, hk1, hrest⟩ := hc
    simp only [committed]
    rw [ih3 hrest]
    have : (st1.BackUp k).ByteCount = s.ByteCount + (size - k) := by
      simp only [StringOutputStream.BackUp, StringOutputStream.ByteCount]
      split_ifs with hcond
      · simp only [hbc]; ring
      · rw [hbc]; omega
    rw [this]; ring

end code_generator

namespace code_generator

theorem OStreamOutputStream_Flush_spec (s : OStreamOutputStream) (h : s.SinkOk) :
    s.Flush.2 = true ∧ s.Flush.1.SinkOk ∧ s.Flush.1.ByteCount = s.ByteCount ∧
      s.Flush.1.buffer_size_ = s.buffer_size_ ∧
      s.Flush.1.buffer_offset_ = (if s.buffer_offset_ > 0 then 0 else s.buffer_offset_) := by
  obtain ⟨hroom, hfail⟩ := h
  unfold OStreamOutputStream.Flush
  by_cases hpos : s.buffer_offset_ > 0
  · simp [hpos, OStream.write, hroom, hfail, OStreamOutputStream.SinkOk,
      OStreamOutputStream.ByteCount]
  · simp [hpos, OStreamOutputStream.SinkOk, hroom, hfail]

theorem OStreamOutputStream_Next_ok (s : OStreamOutputStream) (h : s.SinkOk) :
    ∃ st1 pos size, s.Next = (st1, some (pos, size)) ∧ st1.SinkOk ∧
      st1.buffer_size_ = s.buffer_size_ ∧ st1.buffer_offset_ = s.buffer_size_ ∧
      st1.ByteCount = s.ByteCount + size ∧
      size = s.buffer_size_ -
        (if s.buffer_offset_ = s.buffer_size_ ∧ s.buffer_offset_ > 0 then 0
          else s.buffer_offset_) := by
  obtain ⟨hf1, hf2, hf3, hf4, hf5⟩ := OStreamOutputStream_Flush_spec s h
  unfold OStreamOutputStream.Next
  by_cases hfull : s.buffer_offset_ = s.buffer_size_
  · rw [if_pos hfull]
    simp only [hf1, Bool.true_eq_false, if_false]
    refine ⟨_, _, _, rfl, hf2, hf4, hf4, ?_, ?_⟩
    · simp only [OStreamOutputStream.ByteCount] at hf3 ⊢
      rw [hf4]; omega
    · rw [hf4, hf5]
      by_cases hpos : s.buffer_offset_ > 0
      · simp [hpos, hfull]
      · simp [hpos]
  · rw [if_neg hfull]
    simp only [Bool.true_eq_false, if_false]
    refine ⟨_, _, _, rfl, h, rfl, rfl, ?_, ?_⟩
    · simp only [OStreamOutputStream.ByteCount]; omega
    · simp [hfull]

theorem OStreamOutputStream_SinkOk_BackUp (s : OStreamOutputStream) (count : Int)
    (h : s.SinkOk) : (s.BackUp count).SinkOk := by
  unfold OStreamOutputStream.BackUp
  split_ifs <;> exact h

theorem OStreamOutputStream_lendCommit_length (ks : List Int) :
    ∀ s : OStreamOutputStream, s.SinkOk →
      (lendCommit OStreamOutputStream.stream s ks).2.length = ks.length := by
  induction ks with
  | nil => intro s _; rfl
  | cons k ks ih =>
    intro s h
    obtain ⟨st1, pos, size, hnext, hok, _⟩ := OStreamOutputStream_Next_ok s h
    rw [lendCommit]
    rw [show OStreamOutputStream.stream.Next s = s.Next from rfl, hnext]
    simp only [List.length_cons]
    rw [show OStreamOutputStream.stream.BackUp st1 k = st1.BackUp k from rfl,
      ih (st1.BackUp k) (OStreamOutputStream_SinkOk_BackUp st1 k hok)]

theorem OStreamOutputStream_lendCommit_spec (B : Nat) (ks : List Int) :
    ∀ s : OStreamOutputStream, OStreamOutputStream.Inv B s →
      inContract (lendCommit OStreamOutputStream.stream s ks).2 ks = true →
        (lendCommit OStreamOutputStream.stream s ks).1.SinkOk ∧
        (lendCommit OStreamOutputStream.stream s ks).1.ByteCount
          = s.ByteCount + committed (lendCommit OStreamOutputStream.stream s ks).2 ks := by
  induction ks with
  | nil => intro s h _; exact ⟨h.2.2.2, by simp [lendCommit, committed]⟩
  | cons k ks ih =>
    intro s h
    obtain ⟨hsize, h0, hBo, hsink⟩ := h
    obtain ⟨st1, pos, size, hnext, hok, hsz1, hoff1, hbc1, hsize1⟩ :=
      OStreamOutputStream_Next_ok s hsink
    have hstep : lendCommit OStreamOutputStream.stream s (k :: ks)
        = ((lendCommit OStreamOutputStream.stream (st1.BackUp k) ks).1,
            size :: (lendCommit OStreamOutputStream.stream (st1.BackUp k) ks).2) := by
      rw [lendCommit]
      rw [show OStreamOutputStream.stream.Next s = s.Next from rfl, hnext]
      rfl
    rw [hstep]
    intro hc
    rw [inContract_cons] at hc
    obtain ⟨hk0, hk1, hrest⟩ := hc
    have hszB : size ≤ (B : Int) := by
      rw [hsize1, hsize]; split_ifs <;> omega
    have hback : st1.BackUp k = { st1 with buffer_offset_ := (B : Int) - k } := by
      unfold OStreamOutputStream.BackUp
      rw [if_pos (by rw [hoff1, hsize]; omega), hoff1, hsize]
    have hinv : OStreamOutputStream.Inv B (st1.BackUp k) := by
      rw [hback]
      exact ⟨by simp only; rw [hsz1, hsize], by simp only; omega, by simp only; omega, hok⟩
    obtain ⟨ih1, ih2⟩ := ih (st1.BackUp k) hinv hrest
    refine ⟨ih1, ?_⟩
    simp only [committed]
    rw [ih2]
    have : (st1.BackUp k).ByteCount = s.ByteCount + (size - k) := by
      rw [hback]
      simp only [OStreamOutputStream.ByteCount] at hbc1 ⊢
      rw [hoff1, hsize] at hbc1
      omega
    rw [this]; ring

theorem OStreamOutputStream_Inv_new (B : Nat) :
    OStreamOutputStream.Inv B (OStreamOutputStream.new OStream.fresh B) := by
  simp [OStreamOutputStream.Inv, OStreamOutputStream.new, OStream.fresh,
    OStreamOutputStream.SinkOk]

/-- C7: commit invariant. On a new `FileOutputStream` or `OStreamOutputStream` with buffer
size `B ≥ 1` over a sink that accepts every write, and on a new `StringOutputStream`, every
`Next` of a session succeeds, and when each `BackUp(k)` has `0 ≤ k ≤` the size just lent, the
final `Flush` returns `true` and `ByteCount()` is then the sum of `lent size − k`. -/
theorem commit_invariant (B : Nat) (hB : 1 ≤ B) (target : List Char) (ks : List Int) :
    (let r := lendCommit FileOutputStream.stream (FileOutputStream.new OutFile.fresh B) ks;
      r.2.length = ks.length ∧
      (inContract r.2 ks = true →
        (FileOutputStream.stream.Flush r.1).2 = true ∧
        FileOutputStream.stream.ByteCount (FileOutputStream.stream.Flush r.1).1
          = committed r.2 ks)) ∧
    (let r := lendCommit OStreamOutputStream.stream (OStreamOutputStream.new OStream.fresh B) ks;
      r.2.length = ks.length ∧
      (inContract r.2 ks = true →
        (OStreamOutputStream.stream.Flush r.1).2 = true ∧
        OStreamOutputStream.stream.ByteCount (OStreamOutputStream.stream.Flush r.1).1
          = committed r.2 ks)) ∧
    (let r := lendCommit StringOutputStream.stream (StringOutputStream.new target) ks;
      r.2.length = ks.length ∧
      (inContract r.2 ks = true →
        (StringOutputStream.stream.Flush r.1).2 = true ∧
        StringOutputStream.stream.ByteCount (StringOutputStream.stream.Flush r.1).1
          = committed r.2 ks)) := by
  refine ⟨?_, ?_, ?_⟩
  · obtain ⟨h1, h2, h3⟩ := FileOutputStream_lendCommit_spec B hB ks _
      (FileOutputStream_Inv_new B)
    refine ⟨h1, fun hc => ?_⟩
    have hfl := FileOutputStream_FlushBuffer_spec B _ h2
    have hbc := h3 hc
    constructor
    · show (FileOutputStream.FlushBuffer _).2 = true
      rw [hfl]
    · show (FileOutputStream.FlushBuffer _).1.ByteCount = _
      rw [show (FileOutputStream.new OutFile.fresh B).ByteCount = 0 from rfl, zero_add] at hbc
      rw [hfl, ← hbc]
      simp only [FileOutputStream.ByteCount, add_zero]
  · have hinv := OStreamOutputStream_Inv_new B
    refine ⟨OStreamOutputStream_lendCommit_length ks _ hinv.2.2.2, fun hc => ?_⟩
    obtain ⟨h2, h3⟩ := OStreamOutputStream_lendCommit_spec B ks _ hinv hc
    obtain ⟨hf1, _, hf3, _⟩ := OStreamOutputStream_Flush_spec _ h2
    refine ⟨hf1, ?_⟩
    show (OStreamOutputStream.Flush _).1.ByteCount = _
    rw [hf3, h3]
    simp [OStreamOutputStream.ByteCount, OStreamOutputStream.new]
  · obtain ⟨h1, h3⟩ := StringOutputStream_lendCommit_spec ks (StringOutputStream.new target)
    refine ⟨h1, fun hc => ⟨rfl, ?_⟩⟩
    rw [show ∀ x, (StringOutputStream.stream.Flush x).1 = x from fun _ => rfl]
    show StringOutputStream.ByteCount _ = _
    rw [h3 hc]
    simp [StringOutputStream.ByteCount, StringOutputStream.new]

end code_generator

/-! ## Scenarios, line output and no-op calls: the remaining statements -/

namespace code_generator

/-- The conditional chain with 4-space indent from level 1, byte for byte. -/
theorem conditional_chain_scenario_witness :
    ((((((((Formatter.new IndentStyle.SPACES_4 true).SetIndentLevel 1).If "x > 0".toList).AddLine
      "a();".toList).ElseIf "x < 0".toList).AddLine "b();".toList).Else).AddLine
      "c();".toList).EndIf.output_
      = "    if (x > 0)\n    \x7b\n        a();\n    \x7d else if (x < 0)\n    \x7b\n        b();\n    \x7d else\n    \x7b\n        c();\n    \x7d\n".toList := by
  have h := conditional_chain_scenario ((Formatter.new IndentStyle.SPACES_4 true).SetIndentLevel 1)
    1 (by decide) (by decide) (by decide) (by decide)
  exact h.1.trans (by decide)

/-- C2 as stated fails: with 4-space indent at indent level `2^30`, where the product
`indent_level_ * 4` is `2^32` and the `int` holds 0, the chain writes its ten lines with no
indentation on the lines of level `2^30` and four spaces on the three bodies: the output does
not begin with the indent prefix of level `2^30`. -/
theorem conditional_chain_at_overflow :
    ((((((((Formatter.deep true).If "x > 0".toList).AddLine "a();".toList).ElseIf
      "x < 0".toList).AddLine "b();".toList).Else).AddLine "c();".toList).EndIf).output_
      = "if (x > 0)\n\x7b\n    a();\n\x7d else if (x < 0)\n\x7b\n    b();\n\x7d else\n\x7b\n    c();\n\x7d\n".toList ∧
    ¬ (indentPrefix IndentStyle.SPACES_4 1073741824 <+:
      ((((((((Formatter.deep true).If "x > 0".toList).AddLine "a();".toList).ElseIf
        "x < 0".toList).AddLine "b();".toList).Else).AddLine "c();".toList).EndIf).output_) :=
  ⟨by decide, deep_prefix_not_prefix _ (by decide)⟩

/-- Block balance of the nested sample sequence: tabs, no braces, from level 3. -/
theorem block_balance_witness :
    (((Formatter.new IndentStyle.TABS false).SetIndentLevel 3).run sampleNested).indent_level_ = 3 ∧
      (((Formatter.new IndentStyle.TABS false).SetIndentLevel 3).run sampleNested).block_stack_
        = [] :=
  block_balance ((Formatter.new IndentStyle.TABS false).SetIndentLevel 3) sampleNested
    (by decide) (by decide) (by decide)

/-- C3 as stated fails: at indent level `INT_MAX` the `++indent_level_` of `Namespace` takes
the `int` to `-2147483648`, and `EndNamespace`, which lowers a positive level only, leaves it
there: the well-matched sequence Namespace, EndNamespace ends at another indent level than it
started. -/
theorem block_balance_at_overflow :
    WellMatched [Call.Namespace "n".toList, Call.EndNamespace] = true ∧
      (Formatter.atIntMax false).indent_level_ = 2147483647 ∧
      ((Formatter.atIntMax false).run
        [Call.Namespace "n".toList, Call.EndNamespace]).indent_level_ = -2147483648 := by
  decide

/-- C4 as stated fails: over a formatter that has a conditional open, the well-matched
sequence If, EndIf with one extra `EndIf` inserted between the two calls ends one indent level
lower and with that conditional popped. And at indent level `INT_MAX`, over an empty block
stack, the well-matched sequence Namespace, EndNamespace with an extra `EndIf` in between ends
at level `-2147483648`, because `++indent_level_` leaves the range of `int`. -/
theorem extra_end_call_unbalanced :
    (WellMatched [Call.If "a".toList, Call.EndIf] = true ∧
      0 ≤ Formatter.inConditional.indent_level_ ∧
      (Formatter.inConditional.run
        (insertCall [Call.If "a".toList, Call.EndIf] 1 Call.EndIf)).indent_level_
          ≠ Formatter.inConditional.indent_level_ ∧
      (Formatter.inConditional.run
        (insertCall [Call.If "a".toList, Call.EndIf] 1 Call.EndIf)).block_stack_
          ≠ Formatter.inConditional.block_stack_) ∧
    (WellMatched [Call.Namespace "n".toList, Call.EndNamespace] = true ∧
      (Formatter.atIntMax false).block_stack_ = [] ∧
      (Formatter.atIntMax false).indent_level_ = 2147483647 ∧
      ((Formatter.atIntMax false).run
        (insertCall [Call.Namespace "n".toList, Call.EndNamespace] 1 Call.EndIf)).indent_level_
          = -2147483648) := by
  decide

/-- An extra `EndIf` inside the inner conditional of `sampleChain`, from a fresh formatter:
the sequence still ends at level 0 with an empty stack. -/
theorem extra_end_call_balanced_witness :
    ((Formatter.new IndentStyle.SPACES_2 true).run
        (insertCall sampleChain 2 EndCall.EndIf.toCall)).indent_level_ = 0 ∧
      ((Formatter.new IndentStyle.SPACES_2 true).run
        (insertCall sampleChain 2 EndCall.EndIf.toCall)).block_stack_ = [] :=
  extra_end_call_balanced (Formatter.new IndentStyle.SPACES_2 true) sampleChain 2 EndCall.EndIf
    (by decide) (by decide) (by decide) (by decide)

/-- C5: each of `EndIf`, `EndLoop`, `EndClass` and `EndNamespace` called when the block stack
is empty or its top record is not of the kind the call closes, and each of `Else` and `ElseIf`
called when the stack is empty or its top is neither `IF` nor `ELSE`, returns the formatter
unchanged: indent level, block stack, start-of-line flag and the bytes written are the same. -/
theorem mismatched_close_is_noop (f : Formatter) :
    (f.topKind ≠ some BlockKind.conditional → f.EndIf = f) ∧
      (f.topKind ≠ some BlockKind.loop → f.EndLoop = f) ∧
      (f.topKind ≠ some BlockKind.typeDef → f.EndClass = f) ∧
      (f.topKind ≠ some BlockKind.nameSpace → f.EndNamespace = f) ∧
      (f.topKind ≠ some BlockKind.conditional → f.Else = f) ∧
      (f.topKind ≠ some BlockKind.conditional → ∀ condition, f.ElseIf condition = f) :=
  ⟨Formatter.EndIf_of_topKind_ne f, Formatter.EndLoop_of_topKind_ne f,
    Formatter.EndClass_of_topKind_ne f, Formatter.EndNamespace_of_topKind_ne f,
    Formatter.Else_of_topKind_ne f, Formatter.ElseIf_of_topKind_ne f⟩

/-- With a loop open, every closing or chaining call but `EndLoop` is a no-op, and `EndLoop`
is one on a fresh formatter. -/
theorem mismatched_close_is_noop_witness :
    Formatter.inLoop.EndIf = Formatter.inLoop ∧
      Formatter.inLoop.EndClass = Formatter.inLoop ∧
      Formatter.inLoop.EndNamespace = Formatter.inLoop ∧
      Formatter.inLoop.Else = Formatter.inLoop ∧
      Formatter.inLoop.ElseIf "x".toList = Formatter.inLoop ∧
      (Formatter.new IndentStyle.SPACES_2 true).EndLoop = Formatter.new IndentStyle.SPACES_2 true :=
  ⟨(mismatched_close_is_noop Formatter.inLoop).1 (by decide),
    (mismatched_close_is_noop Formatter.inLoop).2.2.1 (by decide),
    (mismatched_close_is_noop Formatter.inLoop).2.2.2.1 (by decide),
    (mismatched_close_is_noop Formatter.inLoop).2.2.2.2.1 (by decide),
    (mismatched_close_is_noop Formatter.inLoop).2.2.2.2.2 (by decide) _,
    (mismatched_close_is_noop (Formatter.new IndentStyle.SPACES_2 true)).2.1 (by decide)⟩

/-- Eleven bytes make the round trip through a 4-byte write buffer and a 3-byte read
buffer. -/
theorem file_round_trip_witness :
    ∃ out, FileOutputStream.stream.WriteRaw 11 (FileOutputStream.new OutFile.fresh 4)
        "hello world".toList = some (out, true) ∧
      out.dispose.written = "hello world".toList ∧
      (out.Flush.2 = true ∧ out.Flush.1.file_.written = "hello world".toList) ∧
      ∃ inp, FileInputStream.stream.ReadToString 12
        (FileInputStream.new ⟨out.dispose.written⟩ 3) [] (-1)
          = some (inp, "hello world".toList, true) :=
  file_round_trip "hello world".toList 4 3 (by decide) (by decide) 11 12 (by decide) (by decide)

set_option maxRecDepth 1000000 in
/-- Four lend/commit cycles on a 4-byte buffer commit six bytes to the file and to the sink;
four cycles on an empty string commit 1018 bytes. -/
theorem commit_invariant_witness :
    FileOutputStream.stream.ByteCount (FileOutputStream.stream.Flush
      (lendCommit FileOutputStream.stream (FileOutputStream.new OutFile.fresh 4)
        [1, 1, 0, 2]).1).1 = 6 ∧
    OStreamOutputStream.stream.ByteCount (OStreamOutputStream.stream.Flush
      (lendCommit OStreamOutputStream.stream (OStreamOutputStream.new OStream.fresh 4)
        [1, 1, 0, 2]).1).1 = 6 ∧
    StringOutputStream.stream.ByteCount (StringOutputStream.stream.Flush
      (lendCommit StringOutputStream.stream (StringOutputStream.new [])
        [1, 255, 0, 2]).1).1 = 1018 :=
  ⟨((commit_invariant 4 (by decide) [] [1, 1, 0, 2]).1.2 (by decide)).2.trans (by decide),
    ((commit_invariant 4 (by decide) [] [1, 1, 0, 2]).2.1.2 (by decide)).2.trans (by decide),
    ((commit_invariant 4 (by decide) [] [1, 255, 0, 2]).2.2.2 (by decide)).2.trans (by decide)⟩

/-- C9 (amended): for every non-empty text and every indent level `L` whose indent prefix has
at most `INT_MAX` characters, `Print(text)` appends the indent prefix of level `L` and then the
text when the formatter is at the start of a line, and the text alone otherwise, the prefix
being `L * 2` spaces, `L * 4` spaces or `L` tabs by style; nothing else is written (no line
terminator), the start-of-line flag is false afterwards, and a second `Print` on the same line
appends its text without a prefix. -/
theorem Print_writes_indent_once (f : Formatter) (text more : List Char) (L : Nat)
    (hL : f.indent_level_ = (L : Int)) (hfit : indentFits f.indent_style_ L = true)
    (ht : text ≠ []) :
    (f.Print text).output_ = f.output_ ++
        ((if f.at_start_of_line_ then indentPrefix f.indent_style_ L else []) ++ text) ∧
      (f.Print text).at_start_of_line_ = false ∧
      (f.Print text).indent_level_ = f.indent_level_ ∧
      (f.Print text).block_stack_ = f.block_stack_ ∧
      ((f.Print text).Print more).output_ = f.output_ ++
        ((if f.at_start_of_line_ then indentPrefix f.indent_style_ L else []) ++ text ++ more) ∧
      indentPrefix IndentStyle.SPACES_2 L = List.replicate (L * 2) ' ' ∧
      indentPrefix IndentStyle.SPACES_4 L = List.replicate (L * 4) ' ' ∧
      indentPrefix IndentStyle.TABS L = List.replicate L '\t' := by
  have h1 := Formatter.Print_eq f text L hL hfit ht
  refine ⟨by rw [h1], by rw [h1], by simp, by simp, ?_, rfl, rfl, rfl⟩
  by_cases hm : more = []
  · subst hm
    rw [show (f.Print text).Print [] = f.Print text from by simp [Formatter.Print], h1]
    simp
  · rw [Formatter.Print_eq (f.Print text) more L (by simpa using hL) (by simpa using hfit) hm, h1]
    simp

/-- Two prints on one line with 4-space indent at level 2: the prefix is written once. -/
theorem Print_writes_indent_once_witness :
    (((Formatter.new IndentStyle.SPACES_4 true).SetIndentLevel 2).Print "int x".toList).output_
        = "        int x".toList ∧
      ((((Formatter.new IndentStyle.SPACES_4 true).SetIndentLevel 2).Print "int x".toList).Print
        " = 1;".toList).output_ = "        int x = 1;".toList :=
  ⟨(Print_writes_indent_once ((Formatter.new IndentStyle.SPACES_4 true).SetIndentLevel 2)
      "int x".toList " = 1;".toList 2 (by decide) (by decide) (by decide)).1.trans (by decide),
    (Print_writes_indent_once ((Formatter.new IndentStyle.SPACES_4 true).SetIndentLevel 2)
      "int x".toList " = 1;".toList 2 (by decide) (by decide) (by decide)).2.2.2.2.1.trans
      (by decide)⟩

/-- C9 as stated fails: with 4-space indent at indent level `2^30` at the start of a line, the
product `indent_level_ * 4` is `2^32`, the `int` holds 0, and `Print("x")` writes the text
alone, not the `2^32` spaces of the indent prefix before it; with 2-space indent at that level
the `int` product is negative and `WriteIndent` throws instead of writing a prefix. -/
theorem Print_at_overflow :
    (Formatter.deep true).at_start_of_line_ = true ∧
      (Formatter.deep true).indent_level_ = 1073741824 ∧
      ((Formatter.deep true).Print "x".toList).output_ = "x".toList ∧
      (indentPrefix IndentStyle.SPACES_4 1073741824).length = 4294967296 ∧
      ((Formatter.new IndentStyle.SPACES_2 true).SetIndentLevel 1073741824).WriteIndentThrows
        = true := by
  exact ⟨by decide, by decide, by decide, deep_prefix_length, by decide⟩

/-- C10: for every text, `AddLine(text)` is `Print(text)` when the text is not empty, followed
by exactly one newline byte and the start-of-line flag being set; `AddLine` of the empty text
appends the single newline byte and no indentation; the indent level and the block stack are
never changed. -/
theorem AddLine_is_Print_then_newline (f : Formatter) (text : List Char) :
    f.AddLine text =
        { (if text = [] then f else f.Print text) with
          output_ := (if text = [] then f else f.Print text).output_ ++ ['\n']
          at_start_of_line_ := true } ∧
      (f.AddLine []).output_ = f.output_ ++ ['\n'] ∧
      (f.AddLine text).indent_level_ = f.indent_level_ ∧
      (f.AddLine text).block_stack_ = f.block_stack_ := by
  refine ⟨?_, ?_, by simp, by simp⟩
  · unfold Formatter.AddLine Formatter.EndLine
    by_cases h : text = [] <;> simp [h]
  · simp [Formatter.AddLine, Formatter.EndLine]

end code_generator

/-! ## Lines written by `AddLine`, and the pieces of `split` -/

namespace code_generator
namespace Formatter

theorem AddLine_full (f : Formatter) (text : List Char) (L : Nat)
    (hL : f.indent_level_ = (L : Int)) (hfit : indentFits f.indent_style_ L = true) :
    f.AddLine text =
      { f with
        output_ := f.output_ ++
          ((if text = [] then []
            else (if f.at_start_of_line_ then indentPrefix f.indent_style_ L else []) ++ text)
            ++ ['\n'])
        at_start_of_line_ := true } := by
  by_cases ht : text = []
  · subst ht
    simp [AddLine, EndLine]
  · rw [AddLine_eq f text L hL hfit ht]
    simp [ht]

@[simp] theorem addLines_nil (f : Formatter) : f.addLines [] = f := rfl

@[simp] theorem addLines_cons (f : Formatter) (l : List Char) (ls : List (List Char)) :
    f.addLines (l :: ls) = (f.AddLine l).addLines ls := rfl

@[simp] theorem addLines_indent_level (f : Formatter) (ls : List (List Char)) :
    (f.addLines ls).indent_level_ = f.indent_level_ := by
  induction ls generalizing f with
  | nil => rfl
  | cons l ls ih => simp [ih]

@[simp] theorem addLines_block_stack (f : Formatter) (ls : List (List Char)) :
    (f.addLines ls).block_stack_ = f.block_stack_ := by
  induction ls generalizing f with
  | nil => rfl
  | cons l ls ih => simp [ih]

@[simp] theorem addLines_use_braces (f : Formatter) (ls : List (List Char)) :
    (f.addLines ls).use_braces_ = f.use_braces_ := by
  induction ls generalizing f with
  | nil => rfl
  | cons l ls ih => simp [ih]

@[simp] theorem addLines_indent_style (f : Formatter) (ls : List (List Char)) :
    (f.addLines ls).indent_style_ = f.indent_style_ := by
  induction ls generalizing f with
  | nil => rfl
  | cons l ls ih => simp [ih]

theorem addLines_at_start (ls : List (List Char)) :
    ∀ f : Formatter, f.at_start_of_line_ = true → (f.addLines ls).at_start_of_line_ = true := by
  induction ls with
  | nil => intro f h; exact h
  | cons l ls ih => intro f _; rw [addLines_cons]; exact ih _ (AddLine_at_start f l)

theorem addLines_eq (ls : List (List Char)) (L : Nat) :
    ∀ f : Formatter, f.indent_level_ = (L : Int) → indentFits f.indent_style_ L = true →
      f.at_start_of_line_ = true →
      f.addLines ls = { f with output_ := f.output_ ++ linesAt f.indent_style_ L ls } := by
  induction ls with
  | nil => intro f _ _ _; simp [linesAt]
  | cons l ls ih =>
    intro f hL hfit hs
    rw [addLines_cons, ih (f.AddLine l) (by simpa using hL) (by simpa using hfit) (by simp)]
    rw [AddLine_full f l L hL hfit]
    simp [linesAt, hs]

end Formatter

theorem split_ne_nil (sep : Char) (t : List Char) : split sep t ≠ [] := by
  induction t with
  | nil => simp [split]
  | cons c cs ih =>
    unfold split
    split_ifs
    · simp
    · split <;> simp

theorem intercalate_split (sep : Char) (t : List Char) :
    [sep].intercalate (split sep t) = t := by
  induction t with
  | nil => simp [split, List.intercalate]
  | cons c cs ih =>
    unfold split
    split_ifs with hc
    · rcases hsp : split sep cs with _ | ⟨l, ls⟩
      · exact absurd hsp (split_ne_nil sep cs)
      · rw [hsp] at ih
        subst hc
        simp only [List.intercalate, List.intersperse, List.flatten_cons,
          List.nil_append] at ih ⊢
        rcases ls with _ | ⟨l2, ls2⟩ <;> simp_all [List.intersperse]
    · rcases hsp : split sep cs with _ | ⟨l, ls⟩
      · exact absurd hsp (split_ne_nil sep cs)
      · rw [hsp] at ih
        simp only [List.intercalate] at ih ⊢
        rcases ls with _ | ⟨l2, ls2⟩ <;> simp_all [List.intersperse]

theorem not_mem_of_mem_split (sep : Char) (t : List Char) :
    ∀ l ∈ split sep t, sep ∉ l := by
  induction t with
  | nil => simp [split]
  | cons c cs ih =>
    unfold split
    split_ifs with hc
    · intro l hl
      rcases List.mem_cons.mp hl with h | h
      · subst h; simp
      · exact ih l h
    · rcases hsp : split sep cs with _ | ⟨l0, ls⟩
      · exact absurd hsp (split_ne_nil sep cs)
      · rw [hsp] at ih
        intro l hl
        rcases List.mem_cons.mp hl with h | h
        · subst h
          have := ih l0 (List.mem_cons_self _ _)
          simp only [List.mem_cons, not_or]
          exact ⟨fun h => hc h.symm, this⟩
        · exact ih l (List.mem_cons_of_mem _ h)

end code_generator

/-! ## Comments -/

namespace code_generator

theorem AddComment_multi_eq (f : Formatter) (text : List Char) (L : Nat)
    (hs : f.at_start_of_line_ = true) (hL : f.indent_level_ = (L : Int))
    (hfit : indentFits f.indent_style_ (L + 1) = true) (hn : '\n' ∈ text) :
    f.AddComment text =
      { f with
        output_ := f.output_ ++ (indentPrefix f.indent_style_ L ++ "/*\n".toList) ++
          linesAt f.indent_style_ (L + 1) (split '\n' text) ++
          (indentPrefix f.indent_style_ L ++ "*/\n".toList) } := by
  obtain ⟨out, style, braces, lvl, atStart, stack⟩ := f
  simp only at hs hL hfit
  subst hs hL
  have hfit0 : indentFits style L = true := indentFits_mono style L (L + 1) (by omega) hfit
  have hlt : (L : Int) < INT_MAX := by
    have := indentFits_le style (L + 1) hfit
    push_cast at this
    omega
  unfold Formatter.AddComment
  rw [if_neg (not_not.mpr hn)]
  rw [Formatter.AddLine_mk _ _ _ _ _ _ _ (by decide) hfit0]
  rw [Formatter.Indent_mk _ _ _ _ _ _ hlt]
  rw [Formatter.addLines_eq _ (L + 1) _ (by simp) hfit rfl]
  simp only [Formatter.Outdent_mk_succ]
  rw [Formatter.AddLine_mk _ _ _ _ _ _ _ (by decide) hfit0]
  simp

end code_generator

/-! ## Blocks: what `OpenBlockInternal`, `CloseBlock` and the guard write -/

namespace code_generator
namespace Formatter

theorem Outdent_mk (out : List Char) (style : IndentStyle) (braces : Bool) (L : Nat)
    (atStart : Bool) (stack : List BlockState) :
    Formatter.Outdent ⟨out, style, braces, (L : Int), atStart, stack⟩ =
      ⟨out, style, braces, ((L - 1 : Nat) : Int), atStart, stack⟩ := by
  rcases Nat.eq_zero_or_pos L with h0 | hpos
  · subst h0; simp [Outdent]
  · have h1 : (L : Int) > 0 := by omega
    have h2 : ((L - 1 : Nat) : Int) = (L : Int) - 1 := by omega
    simp [Outdent, h1, h2]

theorem OpenBlockInternal_braces_eq (f : Formatter) (pre : List Char) (L : Nat)
    (hb : f.use_braces_ = true) (hL : f.indent_level_ = (L : Int))
    (hfit : indentFits f.indent_style_ L = true) (hlt : (L : Int) < INT_MAX) :
    f.OpenBlockInternal pre =
      { f with
        output_ := f.output_ ++
          ((if f.at_start_of_line_ then indentPrefix f.indent_style_ L else []) ++
            (if pre = [] then [] else pre ++ ['\n'] ++ indentPrefix f.indent_style_ L) ++
            "\x7b\n".toList)
        indent_level_ := (L : Int) + 1
        at_start_of_line_ := true } := by
  obtain ⟨out, style, braces, lvl, atStart, stack⟩ := f
  simp only at hb hL hfit
  subst hb hL
  by_cases hp : pre = []
  · subst hp
    simp [OpenBlockInternal, Indent_mk, AddLine_mk, hfit, hlt]
  · simp [OpenBlockInternal, Indent_mk, AddLine_mk, hp, hfit, hlt]

theorem OpenBlockInternal_plain_eq (f : Formatter) (pre : List Char) (L : Nat)
    (hb : f.use_braces_ = false) (hL : f.indent_level_ = (L : Int))
    (hfit : indentFits f.indent_style_ L = true) :
    f.OpenBlockInternal pre =
      if pre = [] then f
      else
        { f with
          output_ := f.output_ ++
            ((if f.at_start_of_line_ then indentPrefix f.indent_style_ L else []) ++ pre ++
              ['\n'])
          at_start_of_line_ := true } := by
  obtain ⟨out, style, braces, lvl, atStart, stack⟩ := f
  simp only at hb hL hfit
  subst hb hL
  by_cases hp : pre = []
  · subst hp
    simp [OpenBlockInternal]
  · simp [OpenBlockInternal, AddLine_mk, hp, hfit]

theorem CloseBlock_braces_eq (f : Formatter) (suffix : List Char) (L : Nat)
    (hb : f.use_braces_ = true) (hL : f.indent_level_ = (L : Int))
    (hfit : indentFits f.indent_style_ (L - 1) = true) :
    f.CloseBlock suffix =
      { f with
        output_ := f.output_ ++
          ((if f.at_start_of_line_ then indentPrefix f.indent_style_ (L - 1) else []) ++
            "\x7d".toList ++ suffix ++ ['\n'])
        indent_level_ := ((L - 1 : Nat) : Int)
        at_start_of_line_ := true } := by
  obtain ⟨out, style, braces, lvl, atStart, stack⟩ := f
  simp only at hb hL hfit
  subst hb hL
  simp [CloseBlock, Outdent_mk, AddLine_mk, hfit]

theorem CloseBlock_plain_eq (f : Formatter) (suffix : List Char)
    (hb : f.use_braces_ = false) : f.CloseBlock suffix = f.AddLine suffix := by
  simp [CloseBlock, hb]

theorem OpenBlock_eq (f : Formatter) (pre : List Char) :
    f.OpenBlock pre = (f.OpenBlockInternal pre).Indent := by
  simp [OpenBlock, OpenBlockInternal, ScopeNew]

end Formatter
end code_generator

/-! ## Comments: the statements -/

namespace code_generator

/-- C11 as stated fails: for the text `a` followed by a newline, whose second constituent
line is empty, `AddComment` on a fresh formatter (2-space indent) writes that line as a bare
newline, not as a line indented at level 1. And with 4-space indent at indent level `2^30`,
where the `int` count of spaces wraps around, the opener and the closer are written without
indentation and the constituent lines with four spaces. -/
theorem AddComment_blank_line_unindented :
    ('\n' ∈ "a\n".toList ∧
      ((Formatter.new IndentStyle.SPACES_2 true).AddComment "a\n".toList).output_
        = "/*\n  a\n\n*/\n".toList ∧
      ((Formatter.new IndentStyle.SPACES_2 true).AddComment "a\n".toList).output_
        ≠ "/*\n".toList ++
          ((split '\n' "a\n".toList).map
            (fun l => indentPrefix IndentStyle.SPACES_2 1 ++ l ++ ['\n'])).flatten ++
          "*/\n".toList) ∧
    ((Formatter.deep true).indent_level_ = 1073741824 ∧
      ((Formatter.deep true).AddComment "a\nb".toList).output_
        = "/*\n    a\n    b\n*/\n".toList) := by
  decide

/-- C11, as amended: for every text with at least one newline, `AddComment(text)` at the start
of a line at a level `L` such that the indent prefix of level `L + 1` has at most `INT_MAX`
characters writes the opener line at level `L`, then every constituent line of the text on its
own line, indented at level `L + 1` when it is not empty and as an empty line without
indentation when it is empty, then the closer line at level `L`; the indent level is `L` again
and the block stack is unchanged. The constituent lines are the pieces of the text between its
newlines. -/
theorem AddComment_block_comment (f : Formatter) (text : List Char) (L : Nat)
    (hs : f.at_start_of_line_ = true) (hL : f.indent_level_ = (L : Int))
    (hfit : indentFits f.indent_style_ (L + 1) = true) (hn : '\n' ∈ text) :
    (f.AddComment text).output_ =
        f.output_ ++ (indentPrefix f.indent_style_ L ++ "/*\n".toList) ++
          linesAt f.indent_style_ (L + 1) (split '\n' text) ++
          (indentPrefix f.indent_style_ L ++ "*/\n".toList) ∧
      (f.AddComment text).indent_level_ = (L : Int) ∧
      (f.AddComment text).block_stack_ = f.block_stack_ ∧
      (f.AddComment text).at_start_of_line_ = true ∧
      ['\n'].intercalate (split '\n' text) = text ∧
      (∀ l ∈ split '\n' text, '\n' ∉ l) := by
  rw [AddComment_multi_eq f text L hs hL hfit hn]
  exact ⟨rfl, hL, rfl, hs, intercalate_split '\n' text, not_mem_of_mem_split '\n' text⟩

/-- A two-line comment with a blank line in between, at level 1 with 4-space indent. -/
theorem AddComment_block_comment_witness :
    (((Formatter.new IndentStyle.SPACES_4 true).SetIndentLevel 1).AddComment
        "line1\n\nline2".toList).output_
      = "    /*\n        line1\n\n        line2\n    */\n".toList :=
  (AddComment_block_comment ((Formatter.new IndentStyle.SPACES_4 true).SetIndentLevel 1)
    "line1\n\nline2".toList 1 (by decide) (by decide) (by decide) (by decide)).1.trans
    (by decide)

/-- C12 (amended): for every text without a newline, `AddComment(text)` at the start of a line,
at a level whose indent prefix has at most `INT_MAX` characters, writes exactly one line: the
indent prefix of the current level, the marker `// `, the text and the line terminator; the
indent level and the block stack are unchanged. -/
theorem AddComment_line_comment (f : Formatter) (text : List Char) (L : Nat)
    (hs : f.at_start_of_line_ = true) (hL : f.indent_level_ = (L : Int))
    (hfit : indentFits f.indent_style_ L = true) (hn : '\n' ∉ text) :
    (f.AddComment text).output_ =
        f.output_ ++ (indentPrefix f.indent_style_ L ++ "// ".toList ++ text ++ ['\n']) ∧
      (f.AddComment text).indent_level_ = f.indent_level_ ∧
      (f.AddComment text).block_stack_ = f.block_stack_ ∧
      (f.AddComment text).at_start_of_line_ = true := by
  unfold Formatter.AddComment
  rw [if_pos hn]
  have h1 := Formatter.Print_eq f "// ".toList L hL hfit (by decide)
  refine ⟨?_, by simp [Formatter.EndLine], by simp [Formatter.EndLine], by simp [Formatter.EndLine]⟩
  by_cases ht : text = []
  · subst ht
    rw [show (f.Print "// ".toList).Print [] = f.Print "// ".toList from by simp [Formatter.Print],
      h1]
    simp [Formatter.EndLine, hs]
  · rw [Formatter.Print_eq (f.Print "// ".toList) text L (by simpa using hL)
      (by simpa using hfit) ht, h1]
    simp [Formatter.EndLine, hs]

/-- A line comment at level 2 with 2-space indent. -/
theorem AddComment_line_comment_witness :
    (((Formatter.new IndentStyle.SPACES_2 true).SetIndentLevel 2).AddComment
        "generated".toList).output_ = "    // generated\n".toList :=
  (AddComment_line_comment ((Formatter.new IndentStyle.SPACES_2 true).SetIndentLevel 2)
    "generated".toList 2 (by decide) (by decide) (by decide) (by decide)).1.trans (by decide)

/-- C12 as stated fails: with 4-space indent at indent level `2^30` at the start of a line,
where the `int` count of spaces is 0, `AddComment("generated")` writes the comment line without
the indent prefix of the current level, which has `2^32` spaces. -/
theorem AddComment_line_at_overflow :
    '\n' ∉ "generated".toList ∧
      (Formatter.deep true).at_start_of_line_ = true ∧
      (Formatter.deep true).indent_level_ = 1073741824 ∧
      ((Formatter.deep true).AddComment "generated".toList).output_ = "// generated\n".toList ∧
      (indentPrefix IndentStyle.SPACES_4 1073741824).length = 4294967296 := by
  exact ⟨by decide, by decide, by decide, by decide, deep_prefix_length⟩

end code_generator

/-! ## The indent level is never negative -/

namespace code_generator
namespace Formatter

theorem Outdent_indent_level (f : Formatter) :
    f.Outdent.indent_level_ =
      if f.indent_level_ > 0 then f.indent_level_ - 1 else f.indent_level_ := by
  unfold Outdent; split_ifs <;> rfl

@[simp] theorem Outdent_block_stack (f : Formatter) :
    f.Outdent.block_stack_ = f.block_stack_ := by
  unfold Outdent; split_ifs <;> rfl

@[simp] theorem Outdent_use_braces (f : Formatter) :
    f.Outdent.use_braces_ = f.use_braces_ := by
  unfold Outdent; split_ifs <;> rfl

@[simp] theorem updateTop_indent_level (f : Formatter) (g : BlockState → BlockState) :
    (f.updateTop g).indent_level_ = f.indent_level_ := by
  unfold updateTop; split <;> rfl

@[simp] theorem updateTop_use_braces (f : Formatter) (g : BlockState → BlockState) :
    (f.updateTop g).use_braces_ = f.use_braces_ := by
  unfold updateTop; split <;> rfl

theorem Outdent_nonneg (f : Formatter) (h : 0 ≤ f.indent_level_) :
    0 ≤ f.Outdent.indent_level_ := by
  rw [Outdent_indent_level]; split_ifs <;> omega

theorem Outdent_le (f : Formatter) : f.Outdent.indent_level_ ≤ f.indent_level_ := by
  rw [Outdent_indent_level]; split_ifs <;> omega

theorem Indent_indent_level (f : Formatter) (h : 0 ≤ f.indent_level_)
    (hmax : f.indent_level_ < INT_MAX) : f.Indent.indent_level_ = f.indent_level_ + 1 := by
  rw [Indent_eq f h hmax]

theorem OpenBlockInternal_nonneg (f : Formatter) (p : List Char) (h : 0 ≤ f.indent_level_)
    (hmax : f.indent_level_ < INT_MAX) :
    0 ≤ (f.OpenBlockInternal p).indent_level_ ∧
      (f.OpenBlockInternal p).indent_level_ ≤ f.indent_level_ + 1 := by
  rw [OpenBlockInternal_indent_level]
  split_ifs
  · rw [wrapInt_of_fits _ (by omega) (by omega)]; omega
  · omega

theorem CloseBlock_nonneg (f : Formatter) (s : List Char) (h : 0 ≤ f.indent_level_) :
    0 ≤ (f.CloseBlock s).indent_level_ := by
  rw [CloseBlock_indent_level]; split_ifs <;> omega

theorem CloseBlock_le (f : Formatter) (s : List Char) :
    (f.CloseBlock s).indent_level_ ≤ f.indent_level_ := by
  rw [CloseBlock_indent_level]; split_ifs <;> omega

theorem apply_indent_nonneg (f : Formatter) (op : Op) (h : 0 ≤ f.indent_level_)
    (hmax : f.indent_level_ + 2 ≤ INT_MAX) :
    0 ≤ (f.apply op).indent_level_ := by
  cases op <;> simp only [Formatter.apply]
  case Print text => simpa using h
  case PrintInt value => simpa [PrintInt] using h
  case PrintLines lines => simpa [PrintLines] using h
  case Indent => rw [Indent_indent_level f h (by omega)]; omega
  case Outdent => exact Outdent_nonneg f h
  case SetIndentLevel level => simp [SetIndentLevel]
  case OpenBlock pre =>
    rw [OpenBlock_eq]
    have := OpenBlockInternal_nonneg f pre h (by omega)
    rw [Indent_indent_level _ this.1 (by omega)]; omega
  case ScopeNew pre =>
    unfold ScopeNew
    split_ifs
    · rw [Indent_indent_level _ (by simpa using h) (by simp only [AddLine_indent_level]; omega)]
      simp only [AddLine_indent_level]; omega
    · rw [Indent_indent_level _ h (by omega)]; omega
  case ScopeRelease =>
    exact CloseBlock_nonneg _ _ (Outdent_nonneg f h)
  case CloseBlock suffix => exact CloseBlock_nonneg f suffix h
  case OpenBlockInternal pre => exact (OpenBlockInternal_nonneg f pre h (by omega)).1
  case EndLine => simpa [EndLine] using h
  case AddLine line => simpa using h
  case AddComment comment =>
    unfold AddComment
    by_cases hn : '\n' ∈ comment
    · rw [if_neg (not_not.mpr hn)]
      simp only [AddLine_indent_level]
      apply Outdent_nonneg
      simp only [addLines_indent_level]
      rw [Indent_indent_level _ (by simpa using h) (by simp only [AddLine_indent_level]; omega)]
      simp only [AddLine_indent_level]; omega
    · rw [if_pos hn]
      simpa [EndLine] using h
  case If condition =>
    exact (OpenBlockInternal_nonneg _ _ (by simpa [push] using h)
      (by simp only [push, AddLine_indent_level]; omega)).1
  case Else =>
    unfold Else
    split_ifs
    · have h1 := CloseBlock_le f
      refine (OpenBlockInternal_nonneg _ _ ?_ ?_).1
      · rw [updateTop_indent_level]
        exact CloseBlock_nonneg f _ h
      · rw [updateTop_indent_level]
        exact lt_of_le_of_lt (h1 _) (by omega)
    · exact h
  case ElseIf condition =>
    unfold ElseIf
    split_ifs
    · have h1 := CloseBlock_le f
      refine (OpenBlockInternal_nonneg _ _ ?_ ?_).1
      · rw [updateTop_indent_level]
        exact CloseBlock_nonneg f _ h
      · rw [updateTop_indent_level]
        exact lt_of_le_of_lt (h1 _) (by omega)
    · exact h
  case EndIf =>
    unfold EndIf
    split_ifs
    · simpa [pop] using CloseBlock_nonneg f _ h
    · exact h
  case For loop_header =>
    exact (OpenBlockInternal_nonneg _ _ (by simpa [push] using h)
      (by simp only [push, AddLine_indent_level]; omega)).1
  case While condition =>
    exact (OpenBlockInternal_nonneg _ _ (by simpa [push] using h)
      (by simp only [push, AddLine_indent_level]; omega)).1
  case EndLoop =>
    unfold EndLoop
    split_ifs
    · simpa [pop] using CloseBlock_nonneg f _ h
    · exact h
  case Class name inheritance =>
    exact (OpenBlockInternal_nonneg _ _ (by simpa [push] using h)
      (by simp only [push, AddLine_indent_level]; omega)).1
  case Struct name inheritance =>
    exact (OpenBlockInternal_nonneg _ _ (by simpa [push] using h)
      (by simp only [push, AddLine_indent_level]; omega)).1
  case EndClass =>
    unfold EndClass
    split_ifs
    · simpa [pop] using CloseBlock_nonneg f _ h
    · exact h
  case Namespace name =>
    unfold Namespace
    rw [Indent_indent_level _ (by simpa [push] using h)
      (by simp only [push, AddLine_indent_level]; omega)]
    simp only [push, AddLine_indent_level]; omega
  case EndNamespace =>
    unfold EndNamespace
    split
    · exact h
    · split_ifs
      · simpa [pop] using Outdent_nonneg f h
      · exact h
  case Enum name values =>
    unfold Enum
    apply CloseBlock_nonneg
    rw [addLines_indent_level]
    exact (OpenBlockInternal_nonneg _ _ h (by omega)).1
  case Public =>
    have h1 := Outdent_nonneg f h
    have h2 := Outdent_le f
    unfold Public
    rw [Indent_indent_level _ (by simpa using h1) (by simp only [AddLine_indent_level]; omega)]
    simp only [AddLine_indent_level]; omega
  case Private =>
    have h1 := Outdent_nonneg f h
    have h2 := Outdent_le f
    unfold Private
    rw [Indent_indent_level _ (by simpa using h1) (by simp only [AddLine_indent_level]; omega)]
    simp only [AddLine_indent_level]; omega
  case Protected =>
    have h1 := Outdent_nonneg f h
    have h2 := Outdent_le f
    unfold Protected
    rw [Indent_indent_level _ (by simpa using h1) (by simp only [AddLine_indent_level]; omega)]
    simp only [AddLine_indent_level]; omega
  case Include header => simpa [Include] using h
  case Define m => simpa [Define] using h
  case IfDef m => simpa [IfDef] using h
  case IfNDef m => simpa [IfNDef] using h
  case EndIfDef => simpa [EndIfDef] using h
  case Flush => exact h

theorem applyAll_indent_nonneg (ops : List Op) :
    ∀ f : Formatter, 0 ≤ f.indent_level_ → f.levelsFit ops = true →
      0 ≤ (f.applyAll ops).indent_level_ := by
  induction ops with
  | nil => intro f h _; exact h
  | cons op ops ih =>
    intro f h hfit
    simp only [levelsFit, Bool.and_eq_true] at hfit
    have hle := indentFits_le _ _ hfit.1
    rw [Int.toNat_of_nonneg (by omega)] at hle
    exact ih (f.apply op) (apply_indent_nonneg f op h hle) hfit.2

end Formatter

/-- C13 (amended): the indent level is never negative as long as the `int` arithmetic of the
formatter does not overflow. After every finite sequence of public operations on a fresh
formatter (in either brace style and any indent style) each of which starts at an indent level
`L` such that the indent prefix of level `L + 2` has at most `INT_MAX` characters, the indent
level is at least 0; in such a state `Indent` raises it by exactly 1 when it is below
`INT_MAX`, and `Outdent` lowers it by exactly 1 when it is positive and leaves it at 0
otherwise. -/
theorem indent_never_negative (style : IndentStyle) (use_braces : Bool) (ops : List Op)
    (hfit : (Formatter.new style use_braces).levelsFit ops = true) :
    0 ≤ ((Formatter.new style use_braces).applyAll ops).indent_level_ ∧
      (((Formatter.new style use_braces).applyAll ops).indent_level_ < INT_MAX →
        ((Formatter.new style use_braces).applyAll ops).Indent.indent_level_
          = ((Formatter.new style use_braces).applyAll ops).indent_level_ + 1) ∧
      ((Formatter.new style use_braces).applyAll ops).Outdent.indent_level_
        = (if 0 < ((Formatter.new style use_braces).applyAll ops).indent_level_
            then ((Formatter.new style use_braces).applyAll ops).indent_level_ - 1 else 0) := by
  have h := Formatter.applyAll_indent_nonneg ops (Formatter.new style use_braces)
    (by simp [Formatter.new]) hfit
  refine ⟨h, fun hlt => Formatter.Indent_indent_level _ h hlt, ?_⟩
  rw [Formatter.Outdent_indent_level]
  split_ifs with h1
  · rfl
  · have h2 : ¬ 0 < ((Formatter.new style use_braces).applyAll ops).indent_level_ := h1
    omega

/-- The level after `SetIndentLevel(-3)`, `Outdent()`, `Indent()`, `OpenBlock("x")`,
`EndIf()` on a fresh formatter is not negative. -/
theorem indent_never_negative_witness :
    0 ≤ ((Formatter.new IndentStyle.SPACES_2 true).applyAll
      [Op.SetIndentLevel (-3), Op.Outdent, Op.Indent, Op.OpenBlock "x".toList,
        Op.EndIf]).indent_level_ :=
  (indent_never_negative IndentStyle.SPACES_2 true
    [Op.SetIndentLevel (-3), Op.Outdent, Op.Indent, Op.OpenBlock "x".toList, Op.EndIf]
    (by decide)).1

/-- C13 as stated fails: after `SetIndentLevel(2147483647)`, `Indent()` on a fresh formatter
the indent level is `-2147483648`, because `++indent_level_` leaves the range of `int`:
`Indent` has not raised the level by 1, the level is negative, and `Outdent`, which lowers a
positive level only, leaves it there. -/
theorem indent_negative_after_overflow :
    ((Formatter.new IndentStyle.SPACES_2 true).applyAll
        [Op.SetIndentLevel 2147483647]).indent_level_ = 2147483647 ∧
      ((Formatter.new IndentStyle.SPACES_2 true).applyAll
        [Op.SetIndentLevel 2147483647, Op.Indent]).indent_level_ = -2147483648 ∧
      ((Formatter.new IndentStyle.SPACES_2 true).applyAll
        [Op.SetIndentLevel 2147483647, Op.Indent, Op.Outdent]).indent_level_
          = -2147483648 := by
  decide

end code_generator

/-! ## Blocks and guards: the statements -/

namespace code_generator

/-- C14, evaluated on the code: `OpenBlock(prefix)` writes the same text as
`OpenBlockInternal(prefix)` but leaves the indent level one higher (one `++indent_level_`
more, which is one higher whenever the level is below `INT_MAX`), because the constructor of
the guard it returns indents once more; on a fresh formatter with 2-space indent and braces,
`OpenBlock` ends at level 2 where `OpenBlockInternal` ends at level 1, and a line written
inside the block is indented by four spaces, two levels deeper than the opening delimiter. -/
theorem OpenBlock_indents_once_more :
    (∀ (f : Formatter) (pre : List Char),
        (f.OpenBlock pre).output_ = (f.OpenBlockInternal pre).output_ ∧
        (f.OpenBlock pre).indent_level_ =
          wrapInt ((f.OpenBlockInternal pre).indent_level_ + 1) ∧
        (0 ≤ (f.OpenBlockInternal pre).indent_level_ →
          (f.OpenBlockInternal pre).indent_level_ < INT_MAX →
          (f.OpenBlock pre).indent_level_ = (f.OpenBlockInternal pre).indent_level_ + 1)) ∧
      ((Formatter.new IndentStyle.SPACES_2 true).OpenBlock "void f()".toList).indent_level_ = 2 ∧
      ((Formatter.new IndentStyle.SPACES_2 true).OpenBlockInternal
        "void f()".toList).indent_level_ = 1 ∧
      (((Formatter.new IndentStyle.SPACES_2 true).OpenBlock "void f()".toList).AddLine
        "return;".toList).output_ = "void f()\n\x7b\n    return;\n".toList ∧
      (((Formatter.new IndentStyle.SPACES_2 true).OpenBlockInternal "void f()".toList).AddLine
        "return;".toList).output_ = "void f()\n\x7b\n  return;\n".toList := by
  refine ⟨fun f pre => ?_, by decide, by decide, by decide, by decide⟩
  rw [Formatter.OpenBlock_eq]
  exact ⟨rfl, rfl, fun h0 hlt => Formatter.Indent_indent_level _ h0 hlt⟩

/-- C15 (amended): for every formatter state at an indent level `L ≥ 0` such that the indent
prefix of level `L + 2` has at most `INT_MAX` characters, in either brace style, and every
prefix, `OpenBlock(prefix)`, any number of `AddLine` calls and then the release of
the guard leave the indent level at `L` and the block stack as it was; in brace style
`OpenBlock` writes the prefix line (when the prefix is not empty) and the opening delimiter at
level `L`, and the release appends exactly one line, the closing delimiter at level `L`. The
first line written carries its indent prefix when the call is made at the start of a line. -/
theorem OpenBlock_release_balanced (f : Formatter) (pre : List Char) (lines : List (List Char))
    (L : Nat) (hL : f.indent_level_ = (L : Int))
    (hfit2 : indentFits f.indent_style_ (L + 2) = true) :
    (((f.OpenBlock pre).addLines lines).ScopeRelease).indent_level_ = (L : Int) ∧
      (((f.OpenBlock pre).addLines lines).ScopeRelease).block_stack_ = f.block_stack_ ∧
      (f.use_braces_ = true →
        (f.OpenBlock pre).output_ = f.output_ ++
          ((if f.at_start_of_line_ then indentPrefix f.indent_style_ L else []) ++
            (if pre = [] then [] else pre ++ ['\n'] ++ indentPrefix f.indent_style_ L) ++
            "\x7b\n".toList) ∧
        (((f.OpenBlock pre).addLines lines).ScopeRelease).output_ =
          ((f.OpenBlock pre).addLines lines).output_ ++
            (indentPrefix f.indent_style_ L ++ "\x7d\n".toList)) := by
  have hfit : indentFits f.indent_style_ L = true :=
    indentFits_mono _ L (L + 2) (by omega) hfit2
  have hmax : (L : Int) + 2 ≤ INT_MAX := by
    have := indentFits_le _ _ hfit2
    push_cast at this
    exact this
  rw [Formatter.OpenBlock_eq]
  by_cases hb : f.use_braces_ = true
  · rw [Formatter.OpenBlockInternal_braces_eq f pre L hb hL hfit (by omega)]
    obtain ⟨out, style, braces, lvl, atStart, stack⟩ := f
    simp only at hb hL hfit
    subst hb hL
    have h1 : ((L : Int) + 1) = ((L + 1 : Nat) : Int) := by push_cast; ring
    simp only [h1]
    rw [Formatter.Indent_mk _ _ _ _ _ _ (by push_cast; omega)]
    generalize hg : Formatter.addLines _ lines = g
    have hgl : g.indent_level_ = ((L + 1 : Nat) : Int) + 1 := by rw [← hg]; simp
    have hgb : g.use_braces_ = true := by rw [← hg]; simp
    have hgs : g.indent_style_ = style := by rw [← hg]; simp
    have hgk : g.block_stack_ = stack := by rw [← hg]; simp
    have hga : g.at_start_of_line_ = true := by
      rw [← hg]; exact Formatter.addLines_at_start _ _ rfl
    obtain ⟨gout, gstyle, gbraces, glvl, gatStart, gstack⟩ := g
    simp only at hgl hgb hgs hgk hga
    subst hgl hgb hgs hgk hga
    simp only [Formatter.ScopeRelease, Formatter.Outdent_mk_succ]
    rw [Formatter.CloseBlock_braces_eq _ [] (L + 1) rfl rfl (by simpa using hfit)]
    simp
  · have hb' : f.use_braces_ = false := by simpa using hb
    have h0 : (f.OpenBlockInternal pre).indent_level_ = (L : Int) := by
      simp [Formatter.OpenBlockInternal_indent_level, hb', hL]
    have hu : (((f.OpenBlockInternal pre).Indent.addLines lines).Outdent).use_braces_ = false := by
      simp [Formatter.Indent, hb']
    have hi : ((f.OpenBlockInternal pre).Indent.addLines lines).indent_level_ = (L : Int) + 1 := by
      rw [Formatter.addLines_indent_level, Formatter.Indent_indent_level _ (by omega) (by omega),
        h0]
    have hpos : ((f.OpenBlockInternal pre).Indent.addLines lines).indent_level_ > 0 := by
      rw [hi]; omega
    refine ⟨?_, ?_, fun h => absurd h hb⟩
    · rw [Formatter.ScopeRelease, Formatter.CloseBlock_plain_eq _ _ hu]
      rw [Formatter.AddLine_indent_level, Formatter.Outdent_indent_level, if_pos hpos, hi]
      ring
    · rw [Formatter.ScopeRelease, Formatter.CloseBlock_plain_eq _ _ hu]
      simp [Formatter.Indent]

/-- A guarded block around one line, opened at level 1 with 2-space indent and braces. -/
theorem OpenBlock_release_balanced_witness :
    (((((Formatter.new IndentStyle.SPACES_2 true).SetIndentLevel 1).OpenBlock
        "void f()".toList).addLines ["return;".toList]).ScopeRelease).indent_level_ = 1 ∧
      (((((Formatter.new IndentStyle.SPACES_2 true).SetIndentLevel 1).OpenBlock
        "void f()".toList).addLines ["return;".toList]).ScopeRelease).output_
        = "  void f()\n  \x7b\n      return;\n  \x7d\n".toList :=
  ⟨(OpenBlock_release_balanced ((Formatter.new IndentStyle.SPACES_2 true).SetIndentLevel 1)
      "void f()".toList ["return;".toList] 1 (by decide) (by decide)).1,
    ((OpenBlock_release_balanced ((Formatter.new IndentStyle.SPACES_2 true).SetIndentLevel 1)
      "void f()".toList ["return;".toList] 1 (by decide) (by decide)).2.2
      (by decide)).2.trans (by decide)⟩

/-- C15 as stated fails: with 4-space indent and braces at indent level `2^30` at the start of
a line, where the `int` count of spaces is 0, `OpenBlock("void f()")` writes the prefix line and
the opening delimiter without indentation, and the release of the guard writes the closing
delimiter without indentation: none of the three lines carries the indent prefix of level
`2^30`, which has `2^32` spaces. -/
theorem OpenBlock_release_at_overflow :
    (Formatter.deep true).indent_level_ = 1073741824 ∧
      (Formatter.deep true).at_start_of_line_ = true ∧
      ((Formatter.deep true).OpenBlock "void f()".toList).output_ = "void f()\n\x7b\n".toList ∧
      (((Formatter.deep true).OpenBlock "void f()".toList).ScopeRelease).output_
        = "void f()\n\x7b\n\x7d\n".toList ∧
      (indentPrefix IndentStyle.SPACES_4 1073741824).length = 4294967296 :=
  ⟨by decide, by decide, by decide, by decide, deep_prefix_length⟩

end code_generator

/-! ## `Else` and `ElseIf` -/

namespace code_generator

theorem chain_eq (f : Formatter) (top : BlockState) (rest : List BlockState) (L : Nat)
    (suffix : List Char) (g : BlockState → BlockState)
    (hst : f.block_stack_ = top :: rest) (hL : f.indent_level_ = (L : Int))
    (hfit : indentFits f.indent_style_ L = true)
    (hpos : f.use_braces_ = true → 1 ≤ L) (hne : suffix ≠ []) :
    ((f.CloseBlock suffix).updateTop g).OpenBlockInternal [] =
      { f with
        output_ := f.output_ ++ chainLines f L suffix
        at_start_of_line_ := true
        block_stack_ := g top :: rest } := by
  obtain ⟨out, style, braces, lvl, atStart, stack⟩ := f
  simp only at hst hL hpos hfit
  subst hst hL
  cases braces
  · rw [Formatter.CloseBlock_plain_eq _ _ rfl, Formatter.AddLine_mk _ _ _ _ _ _ _ hne hfit]
    simp [Formatter.updateTop, Formatter.OpenBlockInternal, chainLines]
  · obtain ⟨K, rfl⟩ : ∃ K, L = K + 1 := ⟨L - 1, by have := hpos rfl; omega⟩
    have hfitK : indentFits style K = true := indentFits_mono style K (K + 1) (by omega) hfit
    have hlt : (K : Int) < INT_MAX := by
      have := indentFits_le style (K + 1) hfit
      push_cast at this
      omega
    rw [Formatter.CloseBlock_braces_eq _ suffix (K + 1) rfl rfl (by simpa using hfitK)]
    simp only [Formatter.updateTop, Nat.add_sub_cancel]
    rw [Formatter.OpenBlockInternal_braces_eq _ [] K rfl rfl hfitK hlt]
    simp [chainLines]

/-- C16 as stated fails. With `ELSE` on top of the block stack (the state after `If`, `Else`)
a further `Else()` changes nothing and writes nothing. And in brace style at indent level 0
with `IF` on top (the state after `If`, `Outdent`) `Else()` takes effect but leaves the indent
level at 1. And with `IF` on top at indent level `2^30 + 1` with 2-space indent, `Else()` lowers
the level and then cannot write the line of the closing delimiter: the `int` count of spaces
of level `2^30` is negative and `WriteIndent` throws. -/
theorem Else_after_Else_is_noop :
    Formatter.inElse.block_stack_ = [⟨BlockType.ELSE, "a".toList⟩] ∧
      Formatter.inElse.Else = Formatter.inElse ∧
      Formatter.inConditionalAtZero.block_stack_ = [⟨BlockType.IF, "a".toList⟩] ∧
      Formatter.inConditionalAtZero.indent_level_ = 0 ∧
      Formatter.inConditionalAtZero.Else.indent_level_ = 1 ∧
      Formatter.inConditionalDeep.block_stack_ = [⟨BlockType.IF, "a".toList⟩] ∧
      Formatter.inConditionalDeep.at_start_of_line_ = true ∧
      Formatter.inConditionalDeep.Outdent.indent_level_ = 1073741824 ∧
      Formatter.inConditionalDeep.Outdent.WriteIndentThrows = true := by
  decide

/-- C16, as amended: `Else()` takes effect when the top of the block stack is `IF`, and
`ElseIf(cond)` when it is `IF` or `ELSE`; with `ELSE` on top `Else()` is a no-op. Taking effect
at an indent level `L` (at least 1 in brace style) whose indent prefix has at most `INT_MAX`
characters: the block is closed with the suffix on the
line of the closing delimiter and a new block is opened (`chainLines`), the top record becomes
`ELSE` with its label kept, or the record of `IF` and `cond`, the records beneath and the
depth of the stack stay, and the indent level is the one before the call. -/
theorem Else_ElseIf_take_effect (f : Formatter) (top : BlockState) (rest : List BlockState)
    (L : Nat) (condition : List Char)
    (hst : f.block_stack_ = top :: rest) (hL : f.indent_level_ = (L : Int))
    (hfit : indentFits f.indent_style_ L = true)
    (hpos : f.use_braces_ = true → 1 ≤ L) :
    (top.type = BlockType.IF →
        f.Else = { f with
          output_ := f.output_ ++ chainLines f L " else".toList
          at_start_of_line_ := true
          block_stack_ := { top with type := BlockType.ELSE } :: rest }) ∧
      (top.type = BlockType.IF ∨ top.type = BlockType.ELSE →
        f.ElseIf condition = { f with
          output_ := f.output_ ++
            chainLines f L (" else if (".toList ++ condition ++ ")".toList)
          at_start_of_line_ := true
          block_stack_ := ⟨BlockType.IF, condition⟩ :: rest }) ∧
      (top.type = BlockType.ELSE → f.Else = f) := by
  refine ⟨fun ht => ?_, fun ht => ?_, fun ht => ?_⟩
  · have htop : f.topIs (fun t => t = BlockType.IF) = true := by
      simp [Formatter.topIs, hst, ht]
    unfold Formatter.Else
    rw [if_pos htop]
    exact chain_eq f top rest L _ _ hst hL hfit hpos (by decide)
  · have htop : f.topIs (fun t => t = BlockType.IF || t = BlockType.ELSE) = true := by
      rcases ht with ht | ht <;> simp [Formatter.topIs, hst, ht]
    unfold Formatter.ElseIf
    rw [if_pos htop]
    exact chain_eq f top rest L _ _ hst hL hfit hpos (by simp)
  · have htop : f.topIs (fun t => t = BlockType.IF) = false := by
      simp [Formatter.topIs, hst, ht]
    simp [Formatter.Else, htop]

/-- `Else` after `If`, and `ElseIf` after `If`, `Else`, on a fresh formatter with 2-space
indent and braces. -/
theorem Else_ElseIf_take_effect_witness :
    Formatter.inConditional.Else.output_
        = "if (z)\n\x7b\n\x7d else\n\x7b\n".toList ∧
      Formatter.inConditional.Else.block_stack_ = [⟨BlockType.ELSE, "z".toList⟩] ∧
      (Formatter.inElse.ElseIf "b".toList).output_
        = "if (a)\n\x7b\n\x7d else\n\x7b\n\x7d else if (b)\n\x7b\n".toList ∧
      (Formatter.inElse.ElseIf "b".toList).indent_level_ = 1 :=
  ⟨(congrArg Formatter.output_ ((Else_ElseIf_take_effect Formatter.inConditional
      ⟨BlockType.IF, "z".toList⟩ [] 1 [] (by decide) (by decide) (by decide)
      (by decide)).1 rfl)).trans
      (by decide),
    (congrArg Formatter.block_stack_ ((Else_ElseIf_take_effect Formatter.inConditional
      ⟨BlockType.IF, "z".toList⟩ [] 1 [] (by decide) (by decide) (by decide)
      (by decide)).1 rfl)).trans
      (by decide),
    (congrArg Formatter.output_ ((Else_ElseIf_take_effect Formatter.inElse
      ⟨BlockType.ELSE, "a".toList⟩ [] 1 "b".toList (by decide) (by decide) (by decide)
      (by decide)).2.1 (Or.inr rfl))).trans (by decide),
    (congrArg Formatter.indent_level_ ((Else_ElseIf_take_effect Formatter.inElse
      ⟨BlockType.ELSE, "a".toList⟩ [] 1 "b".toList (by decide) (by decide) (by decide)
      (by decide)).2.1 (Or.inr rfl))).trans (by decide)⟩

end code_generator

/-! ## `OpenBlockInternal`, `CloseBlock` and the access labels: the statements -/

namespace code_generator

/-- C18 (amended): with brace style enabled, for every prefix and every indent level
`L < INT_MAX` whose indent prefix has at most `INT_MAX` characters, `OpenBlockInternal(prefix)`
writes the prefix as its own line at level `L` when it is not empty and no such line when it is
empty, then the opening delimiter line at level `L`, and leaves the indent level at `L + 1` and
the block stack unchanged. The first line written carries its indent prefix when the call is
made at the start of a line. -/
theorem OpenBlockInternal_with_braces (f : Formatter) (pre : List Char) (L : Nat)
    (hb : f.use_braces_ = true) (hL : f.indent_level_ = (L : Int))
    (hfit : indentFits f.indent_style_ L = true) (hmax : (L : Int) < INT_MAX) :
    (f.OpenBlockInternal pre).output_ = f.output_ ++
        ((if f.at_start_of_line_ then indentPrefix f.indent_style_ L else []) ++
          (if pre = [] then [] else pre ++ ['\n'] ++ indentPrefix f.indent_style_ L) ++
          "\x7b\n".toList) ∧
      (f.OpenBlockInternal pre).indent_level_ = (L : Int) + 1 ∧
      (f.OpenBlockInternal pre).block_stack_ = f.block_stack_ ∧
      (f.OpenBlockInternal pre).at_start_of_line_ = true := by
  rw [Formatter.OpenBlockInternal_braces_eq f pre L hb hL hfit hmax]
  exact ⟨rfl, rfl, rfl, rfl⟩

/-- A header line and the opening delimiter at level 1 with 4-space indent, and the delimiter
alone for the empty prefix. -/
theorem OpenBlockInternal_with_braces_witness :
    (((Formatter.new IndentStyle.SPACES_4 true).SetIndentLevel 1).OpenBlockInternal
        "void f()".toList).output_ = "    void f()\n    \x7b\n".toList ∧
      (((Formatter.new IndentStyle.SPACES_4 true).SetIndentLevel 1).OpenBlockInternal
        []).output_ = "    \x7b\n".toList ∧
      (((Formatter.new IndentStyle.SPACES_4 true).SetIndentLevel 1).OpenBlockInternal
        "void f()".toList).indent_level_ = 2 :=
  ⟨(OpenBlockInternal_with_braces ((Formatter.new IndentStyle.SPACES_4 true).SetIndentLevel 1)
      "void f()".toList 1 (by decide) (by decide) (by decide) (by decide)).1.trans (by decide),
    (OpenBlockInternal_with_braces ((Formatter.new IndentStyle.SPACES_4 true).SetIndentLevel 1)
      [] 1 (by decide) (by decide) (by decide) (by decide)).1.trans (by decide),
    (OpenBlockInternal_with_braces ((Formatter.new IndentStyle.SPACES_4 true).SetIndentLevel 1)
      "void f()".toList 1 (by decide) (by decide) (by decide) (by decide)).2.1.trans
      (by decide)⟩

/-- C18 as stated fails: with 4-space indent and braces at indent level `2^30` at the start of
a line, where the `int` count of spaces is 0, `OpenBlockInternal("void f()")` writes the prefix
line and the opening delimiter without the indent prefix of that level, which has `2^32`
spaces; and at indent level `INT_MAX` `OpenBlockInternal()` leaves the indent level at
`-2147483648`, not one higher. -/
theorem OpenBlockInternal_braces_at_overflow :
    (Formatter.deep true).indent_level_ = 1073741824 ∧
      (Formatter.deep true).at_start_of_line_ = true ∧
      ((Formatter.deep true).OpenBlockInternal "void f()".toList).output_
        = "void f()\n\x7b\n".toList ∧
      (indentPrefix IndentStyle.SPACES_4 1073741824).length = 4294967296 ∧
      (Formatter.atIntMax true).indent_level_ = 2147483647 ∧
      ((Formatter.atIntMax true).OpenBlockInternal []).indent_level_ = -2147483648 :=
  ⟨by decide, by decide, by decide, deep_prefix_length, by decide, by decide⟩

/-- C19 (amended): for every suffix, provided the indent prefix of the level at which the line
is written (the lowered level in brace style, the current level otherwise) has at most
`INT_MAX` characters, `CloseBlock(suffix)` with brace style enabled first lowers the indent
level by one, clamped at 0, and then writes the line of the closing delimiter followed by the
suffix at the lowered level; with brace style disabled it writes the suffix as a line at the
current level (for the empty suffix the line is empty, as `AddLine` writes it) and leaves the
indent level unchanged. In neither style is the block stack changed, and the result does not
depend on it. The line carries its indent prefix when the call is made at the start of a
line. -/
theorem CloseBlock_spec (f : Formatter) (suffix : List Char) (L : Nat)
    (hL : f.indent_level_ = (L : Int))
    (hfit : indentFits f.indent_style_ (if f.use_braces_ then L - 1 else L) = true) :
    (f.use_braces_ = true →
        (f.CloseBlock suffix).indent_level_ = max ((L : Int) - 1) 0 ∧
        (f.CloseBlock suffix).output_ = f.output_ ++
          ((if f.at_start_of_line_ then indentPrefix f.indent_style_ (L - 1) else []) ++
            "\x7d".toList ++ suffix ++ ['\n'])) ∧
      (f.use_braces_ = false →
        (f.CloseBlock suffix).indent_level_ = (L : Int) ∧
        (f.CloseBlock suffix).output_ = f.output_ ++
          ((if suffix = [] then []
            else (if f.at_start_of_line_ then indentPrefix f.indent_style_ L else []) ++ suffix)
            ++ ['\n'])) ∧
      (f.CloseBlock suffix).block_stack_ = f.block_stack_ ∧
      (∀ stack : List BlockState,
        Formatter.CloseBlock { f with block_stack_ := stack } suffix
          = { f.CloseBlock suffix with block_stack_ := stack }) := by
  refine ⟨fun hb => ?_, fun hb => ?_, by simp, fun stack => ?_⟩
  · rw [hb, if_pos rfl] at hfit
    rw [Formatter.CloseBlock_braces_eq f suffix L hb hL hfit]
    refine ⟨?_, rfl⟩
    simp only
    omega
  · rw [hb] at hfit
    rw [Formatter.CloseBlock_plain_eq f suffix hb, Formatter.AddLine_full f suffix L hL hfit]
    exact ⟨hL, rfl⟩
  · obtain ⟨out, style, braces, lvl, atStart, stk⟩ := f
    simp only at hL hfit
    subst hL
    cases braces
    · rw [Formatter.CloseBlock_plain_eq _ suffix rfl, Formatter.CloseBlock_plain_eq _ suffix rfl,
        Formatter.AddLine_full _ suffix L rfl hfit, Formatter.AddLine_full _ suffix L rfl hfit]
    · rw [Formatter.CloseBlock_braces_eq _ suffix L rfl rfl hfit,
        Formatter.CloseBlock_braces_eq _ suffix L rfl rfl hfit]

/-- The closing line of a type definition from level 2 with braces, and a plain closing line
at level 1 without braces. -/
theorem CloseBlock_spec_witness :
    (((Formatter.new IndentStyle.SPACES_2 true).SetIndentLevel 2).CloseBlock ";".toList).output_
        = "  \x7d;\n".toList ∧
      (((Formatter.new IndentStyle.SPACES_2 true).SetIndentLevel 2).CloseBlock
        ";".toList).indent_level_ = 1 ∧
      (((Formatter.new IndentStyle.SPACES_2 false).SetIndentLevel 1).CloseBlock
        "end".toList).output_ = "  end\n".toList :=
  ⟨((CloseBlock_spec ((Formatter.new IndentStyle.SPACES_2 true).SetIndentLevel 2) ";".toList 2
      (by decide) (by decide)).1 (by decide)).2.trans (by decide),
    ((CloseBlock_spec ((Formatter.new IndentStyle.SPACES_2 true).SetIndentLevel 2) ";".toList 2
      (by decide) (by decide)).1 (by decide)).1.trans (by decide),
    ((CloseBlock_spec ((Formatter.new IndentStyle.SPACES_2 false).SetIndentLevel 1) "end".toList 1
      (by decide) (by decide)).2.1 (by decide)).2.trans (by decide)⟩

/-- C19 as stated fails: with 4-space indent and braces at indent level `2^30 + 1` at the
start of a line, `CloseBlock(";")` lowers the level to `2^30`, where the `int` count of spaces
is 0, and writes the closing line without the indent prefix of the lowered level, which has
`2^32` spaces. -/
theorem CloseBlock_at_overflow :
    (Formatter.deep true).Indent.indent_level_ = 1073741825 ∧
      (Formatter.deep true).Indent.at_start_of_line_ = true ∧
      ((Formatter.deep true).Indent.CloseBlock ";".toList).indent_level_ = 1073741824 ∧
      ((Formatter.deep true).Indent.CloseBlock ";".toList).output_ = "\x7d;\n".toList ∧
      (indentPrefix IndentStyle.SPACES_4 1073741824).length = 4294967296 :=
  ⟨by decide, by decide, by decide, by decide, deep_prefix_length⟩

/-- C20 as stated fails: at indent level 0 `Public()` writes its label at level 0, not one
level shallower, and leaves the indent level at 1. And with 4-space indent at indent level
`2^30 + 1` at the start of a line, `Public()` writes its label without the indent prefix of the
level one shallower, whose `int` count of spaces is 0. -/
theorem access_label_at_level_zero :
    (Formatter.new IndentStyle.SPACES_2 true).indent_level_ = 0 ∧
      (Formatter.new IndentStyle.SPACES_2 true).Public.indent_level_ = 1 ∧
      (Formatter.new IndentStyle.SPACES_2 true).Public.output_ = "public:\n".toList ∧
      (Formatter.deep true).Indent.indent_level_ = 1073741825 ∧
      (Formatter.deep true).Indent.at_start_of_line_ = true ∧
      (Formatter.deep true).Indent.Public.output_ = "public:\n".toList := by
  decide

/-- C20, as amended: for every formatter state at an indent level of at least 1 whose indent
prefix has at most `INT_MAX` characters, each of `Public()`, `Private()` and `Protected()`
writes its access-label line one level shallower than the current indent (with the indent
prefix when the call is made at the start of a line) and changes nothing else: the indent level
after the call is the one before it and the block stack is unchanged. -/
theorem access_labels_dedent (f : Formatter) (L : Nat) (hL : f.indent_level_ = (L : Int) + 1)
    (hfit : indentFits f.indent_style_ (L + 1) = true) :
    f.Public = { f with
        output_ := f.output_ ++
          ((if f.at_start_of_line_ then indentPrefix f.indent_style_ L else []) ++
            "public:\n".toList)
        at_start_of_line_ := true } ∧
      f.Private = { f with
        output_ := f.output_ ++
          ((if f.at_start_of_line_ then indentPrefix f.indent_style_ L else []) ++
            "private:\n".toList)
        at_start_of_line_ := true } ∧
      f.Protected = { f with
        output_ := f.output_ ++
          ((if f.at_start_of_line_ then indentPrefix f.indent_style_ L else []) ++
            "protected:\n".toList)
        at_start_of_line_ := true } := by
  obtain ⟨out, style, braces, lvl, atStart, stack⟩ := f
  simp only at hL hfit
  subst hL
  have hfit0 : indentFits style L = true := indentFits_mono style L (L + 1) (by omega) hfit
  have hlt : (L : Int) < INT_MAX := by
    have := indentFits_le style (L + 1) hfit
    push_cast at this
    omega
  refine ⟨?_, ?_, ?_⟩ <;>
    simp [Formatter.Public, Formatter.Private, Formatter.Protected, Formatter.Outdent_mk_succ,
      Formatter.AddLine_mk, Formatter.Indent_mk, hfit0, hlt]

/-- The three access labels inside a class at level 2 with 2-space indent. -/
theorem access_labels_dedent_witness :
    ((Formatter.new IndentStyle.SPACES_2 true).SetIndentLevel 2).Public.output_
        = "  public:\n".toList ∧
      ((Formatter.new IndentStyle.SPACES_2 true).SetIndentLevel 2).Private.indent_level_ = 2 ∧
      ((Formatter.new IndentStyle.SPACES_2 true).SetIndentLevel 2).Protected.output_
        = "  protected:\n".toList :=
  ⟨(congrArg Formatter.output_ (access_labels_dedent
      ((Formatter.new IndentStyle.SPACES_2 true).SetIndentLevel 2) 1 (by decide)
      (by decide)).1).trans
      (by decide),
    (congrArg Formatter.indent_level_ (access_labels_dedent
      ((Formatter.new IndentStyle.SPACES_2 true).SetIndentLevel 2) 1 (by decide)
      (by decide)).2.1).trans
      (by decide),
    (congrArg Formatter.output_ (access_labels_dedent
      ((Formatter.new IndentStyle.SPACES_2 true).SetIndentLevel 2) 1 (by decide)
      (by decide)).2.2).trans
      (by decide)⟩

end code_generator

/-! ## Block-opening and block-closing operations -/

namespace code_generator

theorem opener_eq (f : Formatter) (header : List Char) (b : BlockState) (L : Nat)
    (hL : f.indent_level_ = (L : Int)) (hfit : indentFits f.indent_style_ L = true)
    (hmax : (L : Int) < INT_MAX) (hne : header ≠ []) :
    ((f.AddLine header).push b).OpenBlockInternal [] =
      { f with
        output_ := f.output_ ++ openLines f L header
        indent_level_ := if f.use_braces_ then (L : Int) + 1 else (L : Int)
        at_start_of_line_ := true
        block_stack_ := b :: f.block_stack_ } := by
  obtain ⟨out, style, braces, lvl, atStart, stack⟩ := f
  simp only at hL hfit
  subst hL
  rw [Formatter.AddLine_mk _ _ _ _ _ _ _ hne hfit]
  cases braces
  · simp [Formatter.push, Formatter.OpenBlockInternal, openLines]
  · simp [Formatter.push, Formatter.OpenBlockInternal, openLines, Formatter.Indent_mk,
      Formatter.AddLine_mk, hfit, hmax]

theorem typeHeader_ne_nil (keyword name inheritance : List Char) (hk : keyword ≠ []) :
    Formatter.typeHeader keyword name inheritance ≠ [] := by
  unfold Formatter.typeHeader
  split_ifs <;> simp [hk]

/-- C22 (amended): at every indent level `L < INT_MAX` whose indent prefix has at most
`INT_MAX` characters, each block-opening operation writes its header line at the current
indent level `L`
(after the pending text when the formatter is not at the start of a line), pushes one record of
its kind with its label on top of the unchanged stack, and opens a block: in brace style the
opening delimiter on a line of its own at level `L` and the level raised to `L + 1`, without
braces nothing more. The header of `Class` / `Struct` is the keyword and the name, followed by
`" : " + inheritance` exactly when `inheritance` is not empty. -/
theorem block_openers_spec (f : Formatter) (L : Nat) (hL : f.indent_level_ = (L : Int))
    (hfit : indentFits f.indent_style_ L = true) (hmax : (L : Int) < INT_MAX)
    (c h n inh : List Char) :
    f.If c =
        { f with
          output_ := f.output_ ++ openLines f L ("if (".toList ++ c ++ ")".toList)
          indent_level_ := if f.use_braces_ then (L : Int) + 1 else (L : Int)
          at_start_of_line_ := true
          block_stack_ := ⟨BlockType.IF, c⟩ :: f.block_stack_ } ∧
      f.For h =
        { f with
          output_ := f.output_ ++ openLines f L ("for (".toList ++ h ++ ")".toList)
          indent_level_ := if f.use_braces_ then (L : Int) + 1 else (L : Int)
          at_start_of_line_ := true
          block_stack_ := ⟨BlockType.FOR, h⟩ :: f.block_stack_ } ∧
      f.While c =
        { f with
          output_ := f.output_ ++ openLines f L ("while (".toList ++ c ++ ")".toList)
          indent_level_ := if f.use_braces_ then (L : Int) + 1 else (L : Int)
          at_start_of_line_ := true
          block_stack_ := ⟨BlockType.WHILE, c⟩ :: f.block_stack_ } ∧
      f.Class n inh =
        { f with
          output_ := f.output_ ++ openLines f L
            ("class ".toList ++ n ++ (if inh = [] then [] else " : ".toList ++ inh))
          indent_level_ := if f.use_braces_ then (L : Int) + 1 else (L : Int)
          at_start_of_line_ := true
          block_stack_ := ⟨BlockType.CLASS, n⟩ :: f.block_stack_ } ∧
      f.Struct n inh =
        { f with
          output_ := f.output_ ++ openLines f L
            ("struct ".toList ++ n ++ (if inh = [] then [] else " : ".toList ++ inh))
          indent_level_ := if f.use_braces_ then (L : Int) + 1 else (L : Int)
          at_start_of_line_ := true
          block_stack_ := ⟨BlockType.STRUCT, n⟩ :: f.block_stack_ } := by
  have hty : ∀ k : List Char, Formatter.typeHeader k n inh =
      k ++ n ++ (if inh = [] then [] else " : ".toList ++ inh) := by
    intro k
    unfold Formatter.typeHeader
    by_cases hi : inh = []
    · simp [hi]
    · simp [hi]
  refine ⟨?_, ?_, ?_, ?_, ?_⟩
  · exact opener_eq f _ _ L hL hfit hmax (by simp)
  · exact opener_eq f _ _ L hL hfit hmax (by simp)
  · exact opener_eq f _ _ L hL hfit hmax (by simp)
  · rw [← hty]
    exact opener_eq f _ _ L hL hfit hmax (typeHeader_ne_nil _ _ _ (by decide))
  · rw [← hty]
    exact opener_eq f _ _ L hL hfit hmax (typeHeader_ne_nil _ _ _ (by decide))

/-- C22 as stated fails: with 4-space indent and braces at indent level `2^30` at the start of
a line, where the `int` count of spaces is 0, `If("x")` writes its header line and the opening
delimiter without the indent prefix of the current level, which has `2^32` spaces. -/
theorem block_openers_at_overflow :
    (Formatter.deep true).indent_level_ = 1073741824 ∧
      (Formatter.deep true).at_start_of_line_ = true ∧
      ((Formatter.deep true).If "x".toList).output_ = "if (x)\n\x7b\n".toList ∧
      (indentPrefix IndentStyle.SPACES_4 1073741824).length = 4294967296 :=
  ⟨by decide, by decide, by decide, deep_prefix_length⟩

/-- A class with a base class opened at level 1 with 2-space indent and braces. -/
theorem block_openers_spec_witness :
    ((Formatter.new IndentStyle.SPACES_2 true).Indent.Class "Foo".toList "public Bar".toList
        ).output_ = "  class Foo : public Bar\n  \x7b\n".toList ∧
      ((Formatter.new IndentStyle.SPACES_2 true).Indent.Class "Foo".toList "public Bar".toList
        ).indent_level_ = 2 ∧
      ((Formatter.new IndentStyle.SPACES_2 true).Indent.Class "Foo".toList "public Bar".toList
        ).block_stack_ = [⟨BlockType.CLASS, "Foo".toList⟩] :=
  have h := (block_openers_spec (Formatter.new IndentStyle.SPACES_2 true).Indent 1 (by decide)
    (by decide) (by decide) [] [] "Foo".toList "public Bar".toList).2.2.2.1
  ⟨(congrArg Formatter.output_ h).trans (by decide),
    (congrArg Formatter.indent_level_ h).trans (by decide),
    (congrArg Formatter.block_stack_ h).trans (by decide)⟩

end code_generator

/-! ## Namespaces -/

namespace code_generator

theorem Namespace_eq (f : Formatter) (name : List Char) (L : Nat)
    (hL : f.indent_level_ = (L : Int)) (hfit : indentFits f.indent_style_ L = true)
    (hmax : (L : Int) < INT_MAX) :
    f.Namespace name =
      { f with
        output_ := f.output_ ++
          ((if f.at_start_of_line_ then indentPrefix f.indent_style_ L else []) ++
            "namespace ".toList ++ name ++ " \x7b\n".toList)
        indent_level_ := (L : Int) + 1
        at_start_of_line_ := true
        block_stack_ := ⟨BlockType.NAMESPACE, name⟩ :: f.block_stack_ } := by
  obtain ⟨out, style, braces, lvl, atStart, stack⟩ := f
  simp only at hL hfit
  subst hL
  unfold Formatter.Namespace
  rw [Formatter.AddLine_mk _ _ _ _ _ _ _ (by simp) hfit]
  simp [Formatter.push, Formatter.Indent_mk, hmax]

theorem EndNamespace_eq (f : Formatter) (name : List Char) (rest : List BlockState) (L : Nat)
    (hst : f.block_stack_ = ⟨BlockType.NAMESPACE, name⟩ :: rest)
    (hL : f.indent_level_ = (L : Int)) (hfit : indentFits f.indent_style_ (L - 1) = true) :
    f.EndNamespace =
      { f with
        output_ := f.output_ ++
          ((if f.at_start_of_line_ then indentPrefix f.indent_style_ (L - 1) else []) ++
            "\x7d // namespace ".toList ++ name ++ ['\n'])
        indent_level_ := ((L - 1 : Nat) : Int)
        at_start_of_line_ := true
        block_stack_ := rest } := by
  obtain ⟨out, style, braces, lvl, atStart, stack⟩ := f
  simp only at hst hL hfit
  subst hst hL
  simp only [Formatter.EndNamespace, if_true]
  rw [Formatter.Outdent_mk, Formatter.AddLine_mk _ _ _ _ _ _ _ (by simp) hfit]
  simp [Formatter.pop]

theorem applyAll_append (f : Formatter) (xs ys : List Op) :
    f.applyAll (xs ++ ys) = (f.applyAll xs).applyAll ys := by
  simp [Formatter.applyAll, List.foldl_append]

theorem nested_namespaces_eq (names : List (List Char)) :
    ∀ (L : Nat) (f : Formatter), f.indent_level_ = (L : Int) → f.at_start_of_line_ = true →
      indentFits f.indent_style_ (L + names.length) = true →
      f.applyAll (names.map Op.Namespace ++ List.replicate names.length Op.EndNamespace) =
        { f with
          output_ := f.output_ ++
            (namespaceHeaders f.indent_style_ L names ++
              namespaceClosers f.indent_style_ L names) } := by
  induction names with
  | nil =>
    intro L f _ _ _
    simp [Formatter.applyAll, namespaceHeaders, namespaceClosers]
  | cons n ns ih =>
    intro L f hL hs hfit
    have hfit0 : indentFits f.indent_style_ L = true :=
      indentFits_mono _ L _ (by omega) hfit
    have hfit1 : indentFits f.indent_style_ (L + 1 + ns.length) = true := by
      rw [show L + 1 + ns.length = L + (n :: ns).length from by simp; omega]
      exact hfit
    have hlt : (L : Int) < INT_MAX := by
      have := indentFits_le _ _ hfit1
      push_cast at this
      omega
    have hops : (n :: ns).map Op.Namespace ++
        List.replicate (n :: ns).length Op.EndNamespace =
        [Op.Namespace n] ++ (ns.map Op.Namespace ++
          List.replicate ns.length Op.EndNamespace) ++ [Op.EndNamespace] := by
      simp [List.replicate_succ']
    rw [hops, applyAll_append, applyAll_append]
    have h1 : f.applyAll [Op.Namespace n] = f.Namespace n := rfl
    rw [h1, Namespace_eq f n L hL hfit0 hlt]
    rw [ih (L + 1) _ (by simp) rfl (by simpa using hfit1)]
    have h2 : ∀ g : Formatter, g.applyAll [Op.EndNamespace] = g.EndNamespace := fun _ => rfl
    rw [h2, EndNamespace_eq _ n f.block_stack_ (L + 1) rfl (by simp) (by simpa using hfit0)]
    simp [namespaceHeaders, namespaceClosers, List.enumFrom_cons, hs, hL]

/-- C24 as stated fails: at indent level 0 with a `NAMESPACE` record on top of the block stack
(the state after `Namespace`, `Outdent`), `EndNamespace()` pops the record and writes its
closing line, but the indent level is not lowered by one: it stays 0. And with 4-space indent
at indent level `2^30` at the start of a line, where the `int` count of spaces is 0,
`Namespace("a")` writes its header line without the indent prefix of the current level. -/
theorem EndNamespace_at_level_zero_keeps_level :
    Formatter.inNamespaceAtZero.block_stack_ = [⟨BlockType.NAMESPACE, "a".toList⟩] ∧
      Formatter.inNamespaceAtZero.indent_level_ = 0 ∧
      Formatter.inNamespaceAtZero.EndNamespace.indent_level_ = 0 ∧
      Formatter.inNamespaceAtZero.EndNamespace.block_stack_ = [] ∧
      (Formatter.deep true).indent_level_ = 1073741824 ∧
      (Formatter.deep true).at_start_of_line_ = true ∧
      ((Formatter.deep true).Namespace "a".toList).output_ = "namespace a \x7b\n".toList := by
  decide

/-- C24, as amended: at an indent level `L < INT_MAX` whose indent prefix has at most
`INT_MAX` characters, `Namespace(name)` writes the single line `namespace name {` at the
current indent level `L` (after the pending text when the formatter is not at the start of a
line), pushes `{NAMESPACE, name}` and raises the level to `L + 1`. With a `NAMESPACE` record on
top, at an indent level `L` of at least 1 (the indent prefix of level `L - 1` having at most
`INT_MAX` characters), `EndNamespace` lowers the level by one, writes `} // namespace `
followed by the name stored in that record as a line at the lowered level, and pops the
record. So a list of nested `Namespace` calls followed by as many `EndNamespace` calls, made at
the start of a line (the indent prefix of the innermost level having at most `INT_MAX`
characters), writes the headers at levels `L`, `L + 1`, ... and then the closing lines
innermost first, each at the level of its own header, and restores the state. -/
theorem namespace_spec (f : Formatter) (L : Nat) (hL : f.indent_level_ = (L : Int)) :
    (∀ name : List Char, indentFits f.indent_style_ L = true → (L : Int) < INT_MAX →
        f.Namespace name =
          { f with
            output_ := f.output_ ++
              ((if f.at_start_of_line_ then indentPrefix f.indent_style_ L else []) ++
                "namespace ".toList ++ name ++ " \x7b\n".toList)
            indent_level_ := (L : Int) + 1
            at_start_of_line_ := true
            block_stack_ := ⟨BlockType.NAMESPACE, name⟩ :: f.block_stack_ }) ∧
      (∀ (name : List Char) (rest : List BlockState),
        f.block_stack_ = ⟨BlockType.NAMESPACE, name⟩ :: rest → 1 ≤ L →
        indentFits f.indent_style_ (L - 1) = true →
        f.EndNamespace =
          { f with
            output_ := f.output_ ++
              ((if f.at_start_of_line_ then indentPrefix f.indent_style_ (L - 1) else []) ++
                "\x7d // namespace ".toList ++ name ++ ['\n'])
            indent_level_ := (L : Int) - 1
            at_start_of_line_ := true
            block_stack_ := rest }) ∧
      (∀ names : List (List Char), f.at_start_of_line_ = true →
        indentFits f.indent_style_ (L + names.length) = true →
        f.applyAll (names.map Op.Namespace ++ List.replicate names.length Op.EndNamespace) =
          { f with
            output_ := f.output_ ++
              (namespaceHeaders f.indent_style_ L names ++
                namespaceClosers f.indent_style_ L names) }) := by
  refine ⟨fun name hfit hmax => Namespace_eq f name L hL hfit hmax,
    fun name rest hst hpos hfit => ?_,
    fun names hs hfit => nested_namespaces_eq names L f hL hs hfit⟩
  rw [EndNamespace_eq f name rest L hst hL hfit]
  have hc : ((L - 1 : Nat) : Int) = (L : Int) - 1 := by omega
  rw [hc]

/-- Three nested namespaces on a fresh formatter with 2-space indent, and one namespace
opened and closed. -/
theorem namespace_spec_witness :
    ((Formatter.new IndentStyle.SPACES_2 true).applyAll
        [Op.Namespace "a".toList, Op.Namespace "b".toList, Op.Namespace "c".toList,
          Op.EndNamespace, Op.EndNamespace, Op.EndNamespace]).output_ =
        ("namespace a \x7b\n  namespace b \x7b\n    namespace c \x7b\n" ++
          "    \x7d // namespace c\n  \x7d // namespace b\n\x7d // namespace a\n").toList ∧
      ((Formatter.new IndentStyle.SPACES_2 true).Namespace "a".toList).EndNamespace =
        { Formatter.new IndentStyle.SPACES_2 true with
          output_ := "namespace a \x7b\n\x7d // namespace a\n".toList } :=
  ⟨(congrArg Formatter.output_
      ((namespace_spec (Formatter.new IndentStyle.SPACES_2 true) 0 rfl).2.2
        ["a".toList, "b".toList, "c".toList] rfl (by decide))).trans (by decide),
    ((namespace_spec ((Formatter.new IndentStyle.SPACES_2 true).Namespace "a".toList) 1
      (by decide)).2.1 "a".toList [] (by decide) (by decide) (by decide)).trans (by decide)⟩

end code_generator

/-! ## `Enum` -/

namespace code_generator

theorem enumHeader_ne_nil (name : List Char) : enumHeader name ≠ [] := by
  unfold enumHeader
  split_ifs <;> simp

theorem enumHeader_eq (name : List Char) :
    enumHeader name =
      if "class".toList <:+: name then "enum ".toList ++ name
      else "enum class ".toList ++ name := by
  unfold enumHeader
  by_cases h : "class".toList <:+: name
  · rw [if_neg (not_not.mpr h), if_pos h]; rfl
  · rw [if_pos h, if_neg h]; rfl

theorem enumLines_eq (values : List (List Char)) :
    Formatter.enumLines values =
      values.dropLast.map (fun v => v ++ ",".toList) ++ values.getLast?.toList := by
  induction values with
  | nil => rfl
  | cons v vs ih =>
    cases vs with
    | nil => rfl
    | cons w ws =>
      rw [Formatter.enumLines, ih]
      simp [List.dropLast, List.getLast?_cons_cons]

theorem Enum_eq (f : Formatter) (L : Nat) (hL : f.indent_level_ = (L : Int))
    (hfit : indentFits f.indent_style_ (L + 1) = true)
    (name : List Char) (values : List (List Char)) :
    f.Enum name values =
      { f with
        output_ := f.output_ ++
          (openLines f L (enumHeader name) ++
            linesAt f.indent_style_ (if f.use_braces_ then L + 1 else L)
              (Formatter.enumLines values) ++
            (indentPrefix f.indent_style_ L ++
              (if f.use_braces_ then "\x7d;\n".toList else ";\n".toList)))
        at_start_of_line_ := true } := by
  obtain ⟨out, style, braces, lvl, atStart, stack⟩ := f
  simp only at hL hfit
  subst hL
  have hfit0 : indentFits style L = true := indentFits_mono style L (L + 1) (by omega) hfit
  have hlt : (L : Int) < INT_MAX := by
    have := indentFits_le style (L + 1) hfit
    push_cast at this
    omega
  have hE : ∀ g : Formatter, g.Enum name values =
      ((g.OpenBlockInternal (enumHeader name)).addLines (Formatter.enumLines values)).CloseBlock
        ";".toList := fun _ => rfl
  rw [hE]
  cases braces
  · rw [Formatter.OpenBlockInternal_plain_eq _ _ L rfl rfl hfit0, if_neg (enumHeader_ne_nil name)]
    rw [Formatter.addLines_eq _ L _ rfl hfit0 rfl]
    rw [Formatter.CloseBlock_plain_eq _ _ rfl,
      Formatter.AddLine_mk _ _ _ _ _ _ _ (by simp) hfit0]
    simp [openLines]
  · rw [Formatter.OpenBlockInternal_braces_eq _ _ L rfl rfl hfit0 hlt]
    rw [Formatter.addLines_eq _ (L + 1) _ (by simp) hfit rfl]
    rw [Formatter.CloseBlock_braces_eq _ _ (L + 1) rfl (by simp) (by simpa using hfit0)]
    simp [openLines, enumHeader_ne_nil]

/-- C25 does not hold of the code: `Enum` tests whether the text `class` occurs anywhere in
the name (`name.find("class") == npos`), not whether the name begins with it. On a fresh
formatter the header line is `enum ` + name whenever `class` occurs in the name and
`enum class ` + name otherwise; the name `Subclass` does not begin with `class` and is headed
`enum Subclass`. -/
theorem Enum_header_tests_substring :
    (∀ (style : IndentStyle) (braces : Bool) (name : List Char) (values : List (List Char)),
        ∃ rest : List Char,
          ((Formatter.new style braces).Enum name values).output_ =
            (if "class".toList <:+: name then "enum ".toList ++ name
              else "enum class ".toList ++ name) ++ '\n' :: rest) ∧
      ¬ ("class".toList <+: "Subclass".toList) ∧
      ((Formatter.new IndentStyle.SPACES_2 true).Enum "Subclass".toList ["A".toList]).output_ =
        "enum Subclass\n\x7b\n  A\n\x7d;\n".toList := by
  refine ⟨?_, by decide, by decide⟩
  intro style braces name values
  rw [Enum_eq (Formatter.new style braces) 0 rfl (by cases style <;> rfl) name values,
    ← enumHeader_eq]
  have h0 : indentPrefix style 0 = [] := by cases style <;> rfl
  refine ⟨(if braces then "\x7b\n".toList else []) ++
    (linesAt style (if braces then 0 + 1 else 0) (Formatter.enumLines values) ++
      (if braces then "\x7d;\n".toList else ";\n".toList)), ?_⟩
  simp [Formatter.new, openLines, h0]

/-- C26 as stated fails: an empty last value gives a line that carries no indentation. On a
fresh formatter (two spaces, braces on) `Enum("E", ["A", ""])` writes `A,` at level 1 and then
the empty line as its terminator alone. And with 4-space indent at indent level `2^30`, where
the `int` count of spaces wraps around, the value is indented by four spaces, one level deeper
than a header at level 0, and the header and the closing line are not indented. -/
theorem Enum_empty_value_unindented :
    ((Formatter.new IndentStyle.SPACES_2 true).Enum "E".toList ["A".toList, []]).output_ =
      "enum class E\n\x7b\n  A,\n\n\x7d;\n".toList ∧
    (Formatter.deep true).indent_level_ = 1073741824 ∧
    ((Formatter.deep true).Enum "E".toList ["A".toList]).output_ =
      "enum class E\n\x7b\n    A\n\x7d;\n".toList := by
  decide

/-- C26, amended: for every name and every list of values (the empty list too), `Enum` at an
indent level `L` such that the indent prefix of level `L + 1` has at most `INT_MAX` characters
writes its header line, in brace style the opening delimiter on a line of its
own at level `L`, then each value on a line of its own in list order, every value but the last
followed by `,` and the last one as it is; each of these lines that is not empty is indented at
level `L + 1` in brace style (at level `L` without braces) and an empty one is its terminator
alone; then the terminator line at level `L` (`};` in brace style, `;` without braces).
Afterwards the indent level and the block stack are what they were. -/
theorem Enum_spec (f : Formatter) (L : Nat) (hL : f.indent_level_ = (L : Int))
    (hfit : indentFits f.indent_style_ (L + 1) = true)
    (name : List Char) (values : List (List Char)) :
    f.Enum name values =
      { f with
        output_ := f.output_ ++
          (openLines f L (enumHeader name) ++
            linesAt f.indent_style_ (if f.use_braces_ then L + 1 else L)
              (values.dropLast.map (fun v => v ++ ",".toList) ++ values.getLast?.toList) ++
            (indentPrefix f.indent_style_ L ++
              (if f.use_braces_ then "\x7d;\n".toList else ";\n".toList)))
        at_start_of_line_ := true } := by
  rw [← enumLines_eq]
  exact Enum_eq f L hL hfit name values

theorem Enum_spec_witness :
    (((Formatter.new IndentStyle.SPACES_4 true).Namespace "app".toList).Enum "Color".toList
        ["Red".toList, "Green".toList, "Blue".toList]).output_ =
        ("namespace app \x7b\n    enum class Color\n    \x7b\n        Red,\n" ++
          "        Green,\n        Blue\n    \x7d;\n").toList ∧
      (((Formatter.new IndentStyle.SPACES_4 true).Namespace "app".toList).Enum "Color".toList
        ["Red".toList, "Green".toList, "Blue".toList]).indent_level_ = 1 ∧
      (((Formatter.new IndentStyle.SPACES_4 true).Namespace "app".toList).Enum "Color".toList
        ["Red".toList, "Green".toList, "Blue".toList]).block_stack_ =
        [⟨BlockType.NAMESPACE, "app".toList⟩] :=
  have h := Enum_spec ((Formatter.new IndentStyle.SPACES_4 true).Namespace "app".toList) 1
    (by decide) (by decide) "Color".toList ["Red".toList, "Green".toList, "Blue".toList]
  ⟨(congrArg Formatter.output_ h).trans (by decide),
    (congrArg Formatter.indent_level_ h).trans (by decide),
    (congrArg Formatter.block_stack_ h).trans (by decide)⟩

end code_generator

/-! ## Without braces no delimiter is written, except by the namespace operations -/

namespace code_generator

theorem delimiterFree_iff (t : List Char) :
    delimiterFree t = true ↔ '\x7b' ∉ t ∧ '\x7d' ∉ t := by
  simp [delimiterFree]

theorem delimiterFree_append (a b : List Char) :
    delimiterFree (a ++ b) = true ↔ delimiterFree a = true ∧ delimiterFree b = true := by
  simp only [delimiterFree_iff, List.mem_append, not_or]
  tauto

theorem delimiterFree_replicate (n : Nat) (c : Char) (h1 : c ≠ '\x7b') (h2 : c ≠ '\x7d') :
    delimiterFree (List.replicate n c) = true := by
  rw [delimiterFree_iff]
  constructor
  · intro h
    exact h1 (List.eq_of_mem_replicate h).symm
  · intro h
    exact h2 (List.eq_of_mem_replicate h).symm

theorem Plain_WriteIndent (f : Formatter) (h : f.Plain) : f.WriteIndent.Plain := by
  obtain ⟨hb, ho⟩ := h
  unfold Formatter.WriteIndent Formatter.WriteString
  split_ifs
  · exact ⟨hb, ho⟩
  · exact ⟨hb, (delimiterFree_append _ _).2
      ⟨ho, delimiterFree_replicate _ _ (by decide) (by decide)⟩⟩
  · exact ⟨hb, (delimiterFree_append _ _).2
      ⟨ho, delimiterFree_replicate _ _ (by decide) (by decide)⟩⟩

theorem Plain_Print (f : Formatter) (t : List Char) (h : f.Plain)
    (ht : delimiterFree t = true) : (f.Print t).Plain := by
  unfold Formatter.Print
  by_cases he : t = []
  · rw [if_pos he]; exact h
  · rw [if_neg he]
    by_cases hs : f.at_start_of_line_ = true
    · simp only [hs, if_true, Formatter.WriteString]
      have hw := Plain_WriteIndent f h
      exact ⟨hw.1, (delimiterFree_append _ _).2 ⟨hw.2, ht⟩⟩
    · simp only [hs, Formatter.WriteString]
      exact ⟨h.1, (delimiterFree_append _ _).2 ⟨h.2, ht⟩⟩

theorem Plain_AddLine (f : Formatter) (t : List Char) (h : f.Plain)
    (ht : delimiterFree t = true) : (f.AddLine t).Plain := by
  have hp : (if t ≠ [] then f.Print t else f).Plain := by
    split_ifs
    · exact Plain_Print f t h ht
    · exact h
  unfold Formatter.AddLine Formatter.EndLine
  exact ⟨hp.1, (delimiterFree_append _ _).2 ⟨hp.2, by decide⟩⟩

theorem Plain_addLines (ls : List (List Char)) :
    ∀ f : Formatter, f.Plain → (∀ l ∈ ls, delimiterFree l = true) → (f.addLines ls).Plain := by
  induction ls with
  | nil => intro f h _; exact h
  | cons l ls ih =>
    intro f h hl
    rw [Formatter.addLines_cons]
    exact ih _ (Plain_AddLine f l h (hl l (List.mem_cons_self _ _)))
      (fun x hx => hl x (List.mem_cons_of_mem _ hx))

theorem Plain_push (f : Formatter) (b : BlockState) (h : f.Plain) : (f.push b).Plain := h

theorem Plain_pop (f : Formatter) (h : f.Plain) : f.pop.Plain := h

theorem Plain_Indent (f : Formatter) (h : f.Plain) : f.Indent.Plain := h

theorem Plain_Outdent (f : Formatter) (h : f.Plain) : f.Outdent.Plain := by
  unfold Formatter.Outdent
  split_ifs
  · exact h
  · exact h

theorem Plain_updateTop (f : Formatter) (g : BlockState → BlockState) (h : f.Plain) :
    (f.updateTop g).Plain := by
  unfold Formatter.updateTop
  split
  · exact h
  · exact h

theorem Plain_OpenBlockInternal (f : Formatter) (pre : List Char) (h : f.Plain)
    (hp : delimiterFree pre = true) : (f.OpenBlockInternal pre).Plain := by
  have h1 : (if pre ≠ [] then f.AddLine pre else f).Plain := by
    split_ifs
    · exact Plain_AddLine f pre h hp
    · exact h
  unfold Formatter.OpenBlockInternal
  simp only [h1.1]
  exact h1

theorem Plain_CloseBlock (f : Formatter) (suffix : List Char) (h : f.Plain)
    (hp : delimiterFree suffix = true) : (f.CloseBlock suffix).Plain := by
  rw [Formatter.CloseBlock_plain_eq f suffix h.1]
  exact Plain_AddLine f suffix h hp

theorem Plain_opener (f : Formatter) (header : List Char) (b : BlockState) (h : f.Plain)
    (hh : delimiterFree header = true) :
    (((f.AddLine header).push b).OpenBlockInternal []).Plain :=
  Plain_OpenBlockInternal _ _ (Plain_push _ _ (Plain_AddLine f header h hh)) (by decide)

theorem Plain_chain (f : Formatter) (suffix : List Char) (g : BlockState → BlockState)
    (h : f.Plain) (hs : delimiterFree suffix = true) :
    (((f.CloseBlock suffix).updateTop g).OpenBlockInternal []).Plain :=
  Plain_OpenBlockInternal _ _ (Plain_updateTop _ _ (Plain_CloseBlock f suffix h hs))
    (by decide)

theorem delimiterFree_typeHeader (keyword name inheritance : List Char)
    (hk : delimiterFree keyword = true) (hn : delimiterFree name = true)
    (hi : delimiterFree inheritance = true) :
    delimiterFree (Formatter.typeHeader keyword name inheritance) = true := by
  unfold Formatter.typeHeader
  split_ifs
  · exact (delimiterFree_append _ _).2 ⟨(delimiterFree_append _ _).2 ⟨hk, hn⟩,
      (delimiterFree_append _ _).2 ⟨by decide, hi⟩⟩
  · exact (delimiterFree_append _ _).2 ⟨hk, hn⟩

theorem delimiterFree_enumHeader (name : List Char) (hn : delimiterFree name = true) :
    delimiterFree (enumHeader name) = true := by
  unfold enumHeader
  split_ifs
  · exact (delimiterFree_append _ _).2 ⟨by decide, (delimiterFree_append _ _).2 ⟨by decide, hn⟩⟩
  · exact (delimiterFree_append _ _).2 ⟨by decide, (delimiterFree_append _ _).2 ⟨by decide, hn⟩⟩

theorem delimiterFree_enumLines (values : List (List Char))
    (hv : ∀ v ∈ values, delimiterFree v = true) :
    ∀ l ∈ Formatter.enumLines values, delimiterFree l = true := by
  induction values with
  | nil => intro l hl; simp [Formatter.enumLines] at hl
  | cons v vs ih =>
    cases vs with
    | nil =>
      intro l hl
      simp only [Formatter.enumLines, List.mem_singleton] at hl
      subst hl
      exact hv _ (List.mem_cons_self _ _)
    | cons w ws =>
      intro l hl
      rw [Formatter.enumLines, List.mem_cons] at hl
      rcases hl with rfl | hl
      · exact (delimiterFree_append _ _).2 ⟨hv _ (List.mem_cons_self _ _), by decide⟩
      · exact ih (fun x hx => hv x (List.mem_cons_of_mem _ hx)) l hl

theorem Plain_apply (f : Formatter) (op : Op) (h : f.Plain) (hp : op.plainStructural = true) :
    (f.apply op).Plain := by
  cases op <;> simp only [Op.plainStructural, Bool.and_eq_true, List.all_eq_true] at hp <;>
    try exact absurd hp (by decide)
  case If c =>
    exact Plain_opener f _ _ h
      ((delimiterFree_append _ _).2 ⟨(delimiterFree_append _ _).2 ⟨by decide, hp⟩, by decide⟩)
  case For c =>
    exact Plain_opener f _ _ h
      ((delimiterFree_append _ _).2 ⟨(delimiterFree_append _ _).2 ⟨by decide, hp⟩, by decide⟩)
  case While c =>
    exact Plain_opener f _ _ h
      ((delimiterFree_append _ _).2 ⟨(delimiterFree_append _ _).2 ⟨by decide, hp⟩, by decide⟩)
  case Class n i =>
    exact Plain_opener f _ _ h (delimiterFree_typeHeader _ _ _ (by decide) hp.1 hp.2)
  case Struct n i =>
    exact Plain_opener f _ _ h (delimiterFree_typeHeader _ _ _ (by decide) hp.1 hp.2)
  case Else =>
    show f.Else.Plain
    unfold Formatter.Else
    split_ifs
    · exact Plain_chain f _ _ h (by decide)
    · exact h
  case ElseIf c =>
    show (f.ElseIf c).Plain
    unfold Formatter.ElseIf
    split_ifs
    · exact Plain_chain f _ _ h
        ((delimiterFree_append _ _).2 ⟨(delimiterFree_append _ _).2 ⟨by decide, hp⟩,
          by decide⟩)
    · exact h
  case EndIf =>
    show f.EndIf.Plain
    unfold Formatter.EndIf
    split_ifs
    · exact Plain_pop _ (Plain_CloseBlock f _ h (by decide))
    · exact h
  case EndLoop =>
    show f.EndLoop.Plain
    unfold Formatter.EndLoop
    split_ifs
    · exact Plain_pop _ (Plain_CloseBlock f _ h (by decide))
    · exact h
  case EndClass =>
    show f.EndClass.Plain
    unfold Formatter.EndClass
    split_ifs
    · exact Plain_pop _ (Plain_CloseBlock f _ h (by decide))
    · exact h
  case Enum name values =>
    exact Plain_CloseBlock _ _
      (Plain_addLines _ _ (Plain_OpenBlockInternal f _ h (delimiterFree_enumHeader name hp.1))
        (delimiterFree_enumLines values hp.2)) (by decide)
  case OpenBlockInternal pre => exact Plain_OpenBlockInternal f pre h hp
  case CloseBlock suffix => exact Plain_CloseBlock f suffix h hp
  case OpenBlock pre =>
    show (f.OpenBlock pre).Plain
    rw [Formatter.OpenBlock_eq]
    exact Plain_Indent _ (Plain_OpenBlockInternal f pre h hp)
  case ScopeRelease =>
    exact Plain_CloseBlock _ _ (Plain_Outdent f h) (by decide)

theorem Plain_applyAll (ops : List Op) :
    ∀ f : Formatter, f.Plain → (∀ op ∈ ops, op.plainStructural = true) →
      (f.applyAll ops).Plain := by
  induction ops with
  | nil => intro f h _; exact h
  | cons op ops ih =>
    intro f h hp
    exact ih (f.apply op) (Plain_apply f op h (hp op (List.mem_cons_self _ _)))
      (fun x hx => hp x (List.mem_cons_of_mem _ hx))

/-- C21 as stated fails: `Namespace` and `EndNamespace` write their delimiters in the style
without braces too. On a fresh formatter without braces `Namespace("app")`, `EndNamespace()`
write `namespace app {` and `} // namespace app`. -/
theorem namespace_writes_delimiters_without_braces :
    ((Formatter.new IndentStyle.SPACES_2 false).applyAll
        [Op.Namespace "app".toList, Op.EndNamespace]).output_ =
        "namespace app \x7b\n\x7d // namespace app\n".toList ∧
      delimiterFree "app".toList = true ∧
      '\x7b' ∈ ((Formatter.new IndentStyle.SPACES_2 false).applyAll
        [Op.Namespace "app".toList, Op.EndNamespace]).output_ ∧
      '\x7d' ∈ ((Formatter.new IndentStyle.SPACES_2 false).applyAll
        [Op.Namespace "app".toList, Op.EndNamespace]).output_ := by
  decide

/-- C21, amended: without braces, every sequence of calls of `If` / `ElseIf` / `Else` /
`EndIf`, `For` / `While` / `EndLoop`, `Class` / `Struct` / `EndClass`, `Enum`,
`OpenBlockInternal` / `CloseBlock`, `OpenBlock` and the release of its guard (no `Namespace`,
no `EndNamespace`) whose text arguments hold neither delimiter leaves the output without any
delimiter character, from every state whose output holds none so far. -/
theorem no_delimiter_without_braces (f : Formatter) (ops : List Op)
    (hb : f.use_braces_ = false) (ho : '\x7b' ∉ f.output_ ∧ '\x7d' ∉ f.output_)
    (hp : ∀ op ∈ ops, op.plainStructural = true) :
    '\x7b' ∉ (f.applyAll ops).output_ ∧ '\x7d' ∉ (f.applyAll ops).output_ :=
  (delimiterFree_iff _).1
    (Plain_applyAll ops f ⟨hb, (delimiterFree_iff _).2 ho⟩ hp).2

theorem no_delimiter_without_braces_witness :
    '\x7b' ∉ ((Formatter.new IndentStyle.SPACES_2 false).applyAll
        [Op.Class "Foo".toList [], Op.If "a".toList, Op.Else, Op.EndIf,
          Op.Enum "E".toList ["A".toList, "B".toList], Op.OpenBlock "void f()".toList,
          Op.ScopeRelease, Op.EndClass]).output_ ∧
      '\x7d' ∉ ((Formatter.new IndentStyle.SPACES_2 false).applyAll
        [Op.Class "Foo".toList [], Op.If "a".toList, Op.Else, Op.EndIf,
          Op.Enum "E".toList ["A".toList, "B".toList], Op.OpenBlock "void f()".toList,
          Op.ScopeRelease, Op.EndClass]).output_ :=
  no_delimiter_without_braces (Formatter.new IndentStyle.SPACES_2 false)
    [Op.Class "Foo".toList [], Op.If "a".toList, Op.Else, Op.EndIf,
      Op.Enum "E".toList ["A".toList, "B".toList], Op.OpenBlock "void f()".toList,
      Op.ScopeRelease, Op.EndClass] rfl (by decide) (by decide)

end code_generator

/-! ## Cursors of the buffered channels under every sequence of calls -/

namespace code_generator

theorem FileOutputStream_cursor_call (B : Nat) (s : FileOutputStream) (c : StreamCall)
    (h : s.buffer_.length = B ∧ 0 ≤ s.buffer_offset_ ∧ s.buffer_offset_ ≤ (B : Int)) :
    (s.call c).buffer_.length = B ∧ 0 ≤ (s.call c).buffer_offset_ ∧
      (s.call c).buffer_offset_ ≤ (B : Int) := by
  obtain ⟨hB, h0, h1⟩ := h
  have hF : s.FlushBuffer.1.buffer_.length = B ∧ 0 ≤ s.FlushBuffer.1.buffer_offset_ ∧
      s.FlushBuffer.1.buffer_offset_ ≤ (B : Int) := by
    unfold FileOutputStream.FlushBuffer
    dsimp only
    split_ifs
    · exact ⟨hB, h0, h1⟩
    · exact ⟨hB, le_refl _, by simp⟩
    · exact ⟨hB, h0, h1⟩
  cases c with
  | Next =>
    show s.Next.1.buffer_.length = B ∧ 0 ≤ s.Next.1.buffer_offset_ ∧
      s.Next.1.buffer_offset_ ≤ (B : Int)
    unfold FileOutputStream.Next
    by_cases hfull : s.buffer_offset_ = (s.buffer_.length : Int)
    · simp only [hfull, if_true]
      split_ifs
      · exact hF
      · exact ⟨hF.1, by simp, by simp [hF.1]⟩
    · simp only [hfull, if_false]
      exact ⟨hB, by simp, by simp [hB]⟩
  | BackUp count =>
    show (s.BackUp count).buffer_.length = B ∧ 0 ≤ (s.BackUp count).buffer_offset_ ∧
      (s.BackUp count).buffer_offset_ ≤ (B : Int)
    unfold FileOutputStream.BackUp
    split_ifs with hc
    · exact ⟨hB, by simp only; omega, by simp only; omega⟩
    · exact ⟨hB, h0, h1⟩
  | Flush => exact hF

theorem FileOutputStream_cursor_calls (B : Nat) (cs : List StreamCall) :
    ∀ s : FileOutputStream,
      s.buffer_.length = B ∧ 0 ≤ s.buffer_offset_ ∧ s.buffer_offset_ ≤ (B : Int) →
      (s.calls cs).buffer_.length = B ∧ 0 ≤ (s.calls cs).buffer_offset_ ∧
        (s.calls cs).buffer_offset_ ≤ (B : Int) := by
  induction cs with
  | nil => intro s h; exact h
  | cons c cs ih => intro s h; exact ih (s.call c) (FileOutputStream_cursor_call B s c h)

theorem FileInputStream_cursor_call (B : Nat) (s : FileInputStream) (c : ReadCall)
    (h : s.buffer_.length = B ∧ 0 ≤ s.last_returned_size_ ∧
      s.last_returned_size_ ≤ s.buffer_offset_ ∧ s.buffer_offset_ ≤ s.buffer_available_ ∧
      s.buffer_available_ ≤ (B : Int) ∧ s.total_bytes_ = 0) :
    (s.call c).buffer_.length = B ∧ 0 ≤ (s.call c).last_returned_size_ ∧
      (s.call c).last_returned_size_ ≤ (s.call c).buffer_offset_ ∧
      (s.call c).buffer_offset_ ≤ (s.call c).buffer_available_ ∧
      (s.call c).buffer_available_ ≤ (B : Int) ∧ (s.call c).total_bytes_ = 0 := by
  obtain ⟨hB, h0, h1, h2, h3, h4⟩ := h
  cases c with
  | Next =>
    show s.Next.1.buffer_.length = B ∧ 0 ≤ s.Next.1.last_returned_size_ ∧
      s.Next.1.last_returned_size_ ≤ s.Next.1.buffer_offset_ ∧
      s.Next.1.buffer_offset_ ≤ s.Next.1.buffer_available_ ∧
      s.Next.1.buffer_available_ ≤ (B : Int) ∧ s.Next.1.total_bytes_ = 0
    unfold FileInputStream.Next
    by_cases hge : s.buffer_offset_ ≥ s.buffer_available_
    · simp only [hge, if_true]
      have hlt : ¬ s.buffer_offset_ < s.buffer_available_ := by omega
      unfold FileInputStream.Refill
      simp only [hlt, if_false, InFile.fread]
      by_cases hz : (s.file_.unread.take s.buffer_.length).length = 0
      · simp only [hz, if_true]
        exact ⟨hB, h0, h1, h2, h3, h4⟩
      · simp only [hz, if_false]
        have hlen : (s.file_.unread.take s.buffer_.length).length ≤ B := by
          rw [List.length_take]; omega
        refine ⟨?_, ?_, ?_, ?_, ?_, h4⟩
        · simp only [Bool.true_eq_false, if_false, List.length_append, List.length_drop]
          omega
        · simp
        · simp
        · simp
        · simp only [Bool.true_eq_false, if_false]
          exact_mod_cast hlen
    · simp only [hge, if_false]
      refine ⟨hB, ?_, ?_, ?_, ?_, h4⟩
      · simp only [Bool.true_eq_false, if_false]; omega
      · simp only [Bool.true_eq_false, if_false]; omega
      · simp
      · simp only [Bool.true_eq_false, if_false]; exact h3
  | BackUp count =>
    show (s.BackUp count).buffer_.length = B ∧ 0 ≤ (s.BackUp count).last_returned_size_ ∧
      (s.BackUp count).last_returned_size_ ≤ (s.BackUp count).buffer_offset_ ∧
      (s.BackUp count).buffer_offset_ ≤ (s.BackUp count).buffer_available_ ∧
      (s.BackUp count).buffer_available_ ≤ (B : Int) ∧ (s.BackUp count).total_bytes_ = 0
    unfold FileInputStream.BackUp
    split_ifs with hc
    · exact ⟨hB, le_refl _, by simp only; omega, by simp only; omega, h3, h4⟩
    · exact ⟨hB, h0, h1, h2, h3, h4⟩

theorem FileInputStream_cursor_calls (B : Nat) (cs : List ReadCall) :
    ∀ s : FileInputStream,
      (s.buffer_.length = B ∧ 0 ≤ s.last_returned_size_ ∧
        s.last_returned_size_ ≤ s.buffer_offset_ ∧ s.buffer_offset_ ≤ s.buffer_available_ ∧
        s.buffer_available_ ≤ (B : Int) ∧ s.total_bytes_ = 0) →
      (s.calls cs).buffer_.length = B ∧ 0 ≤ (s.calls cs).last_returned_size_ ∧
        (s.calls cs).last_returned_size_ ≤ (s.calls cs).buffer_offset_ ∧
        (s.calls cs).buffer_offset_ ≤ (s.calls cs).buffer_available_ ∧
        (s.calls cs).buffer_available_ ≤ (B : Int) ∧ (s.calls cs).total_bytes_ = 0 := by
  induction cs with
  | nil => intro s h; exact h
  | cons c cs ih => intro s h; exact ih (s.call c) (FileInputStream_cursor_call B s c h)

/-- C27: for every buffer size, every file behind the channel and every sequence of `Next`,
`BackUp(count)` with any integer `count`, and `Flush` calls, a `FileOutputStream` has
`0 ≤ buffer_offset_ ≤ buffer_.size()`; and for every file content and every sequence of
`Next` and `BackUp(count)` calls a `FileInputStream` has
`0 ≤ buffer_offset_ ≤ buffer_available_ ≤ buffer_.size()`. The buffers keep the size they were
created with. -/
theorem file_cursor_invariant (buffer_size : Nat) (file : OutFile) (cs : List StreamCall)
    (input : InFile) (rs : List ReadCall) :
    (0 ≤ ((FileOutputStream.new file buffer_size).calls cs).buffer_offset_ ∧
      ((FileOutputStream.new file buffer_size).calls cs).buffer_offset_ ≤
        (((FileOutputStream.new file buffer_size).calls cs).buffer_.length : Int) ∧
      ((FileOutputStream.new file buffer_size).calls cs).buffer_.length = buffer_size) ∧
    (0 ≤ ((FileInputStream.new input buffer_size).calls rs).buffer_offset_ ∧
      ((FileInputStream.new input buffer_size).calls rs).buffer_offset_ ≤
        ((FileInputStream.new input buffer_size).calls rs).buffer_available_ ∧
      ((FileInputStream.new input buffer_size).calls rs).buffer_available_ ≤
        (((FileInputStream.new input buffer_size).calls rs).buffer_.length : Int) ∧
      ((FileInputStream.new input buffer_size).calls rs).buffer_.length = buffer_size) := by
  have ho := FileOutputStream_cursor_calls buffer_size cs (FileOutputStream.new file buffer_size)
    ⟨by simp [FileOutputStream.new], by simp [FileOutputStream.new],
      by simp [FileOutputStream.new]⟩
  have hi := FileInputStream_cursor_calls buffer_size rs (FileInputStream.new input buffer_size)
    ⟨by simp [FileInputStream.new], by simp [FileInputStream.new],
      by simp [FileInputStream.new], by simp [FileInputStream.new],
      by simp [FileInputStream.new], by simp [FileInputStream.new]⟩
  refine ⟨⟨ho.2.1, ?_, ho.1⟩, ⟨?_, hi.2.2.2.1, ?_, hi.1⟩⟩
  · rw [ho.1]; exact ho.2.2
  · exact le_trans hi.2.1 hi.2.2.1
  · rw [hi.1]; exact hi.2.2.2.2.1

/-- C28 does not hold of the code: `OStreamOutputStream::BackUp` has no `count > 0` test (the
one of `FileOutputStream::BackUp`), so a negative count raises the cursor. With a buffer of 4
bytes, `Next()` then `BackUp(-3)` leave `buffer_offset_` at 7, above the capacity 4, and the
following `Next()` lends the span at position 7 of size -3; the same calls leave the cursor of
a `FileOutputStream` at 4. -/
theorem ostream_negative_count_breaks_cursor :
    ((OStreamOutputStream.new OStream.fresh 4).calls
        [StreamCall.Next, StreamCall.BackUp (-3)]).buffer_offset_ = 7 ∧
      ((OStreamOutputStream.new OStream.fresh 4).calls
        [StreamCall.Next, StreamCall.BackUp (-3)]).buffer_size_ = 4 ∧
      ((OStreamOutputStream.new OStream.fresh 4).calls
        [StreamCall.Next, StreamCall.BackUp (-3)]).Next.2 = some (7, -3) ∧
      ((FileOutputStream.new OutFile.fresh 4).calls
        [StreamCall.Next, StreamCall.BackUp (-3)]).buffer_offset_ = 4 := by
  decide

/-- C29 does not hold of the code: `FileOutputStream::BackUp` compares `count` with the whole
of `buffer_offset_`, not with the size of the span lent last. With a buffer of 8 bytes, after
`Next()`, `BackUp(3)` the byte count is 5; the next `Next()` lends 3 bytes (position 5), and
`BackUp(6)` then leaves the byte count at 2, below 5. So does `BackUp(1)` followed, with no
`Next()` in between, by `BackUp(5)`. -/
theorem file_output_backup_uncommits :
    ((FileOutputStream.new OutFile.fresh 8).calls
        [StreamCall.Next, StreamCall.BackUp 3]).ByteCount = 5 ∧
      ((FileOutputStream.new OutFile.fresh 8).calls
        [StreamCall.Next, StreamCall.BackUp 3]).Next.2 = some (5, 3) ∧
      ((FileOutputStream.new OutFile.fresh 8).calls
        [StreamCall.Next, StreamCall.BackUp 3, StreamCall.Next,
          StreamCall.BackUp 6]).ByteCount = 2 ∧
      ((FileOutputStream.new OutFile.fresh 8).calls
        [StreamCall.Next, StreamCall.BackUp 3, StreamCall.Next, StreamCall.BackUp 1,
          StreamCall.BackUp 5]).ByteCount = 2 := by
  decide

/-- C30 does not hold of the code: `FileInputStream::Refill` sets `buffer_offset_` back to 0
and nothing ever adds to `total_bytes_`, so `ByteCount()` is the read cursor within the current
buffer. Under every sequence of calls `total_bytes_` is 0 and `ByteCount()` is at most the
buffer size; over the 8 bytes `abcdefgh` with a buffer of 4, two `Next()` calls lend `abcd` and
`efgh`, 8 bytes in all, and `ByteCount()` is 4 after each. -/
theorem file_input_byte_count_restarts :
    (∀ (input : InFile) (buffer_size : Nat) (rs : List ReadCall),
        ((FileInputStream.new input buffer_size).calls rs).total_bytes_ = 0 ∧
          ((FileInputStream.new input buffer_size).calls rs).ByteCount ≤ (buffer_size : Int)) ∧
      (FileInputStream.new ⟨"abcdefgh".toList⟩ 4).Next.2 = some "abcd".toList ∧
      ((FileInputStream.new ⟨"abcdefgh".toList⟩ 4).calls [ReadCall.Next]).ByteCount = 4 ∧
      ((FileInputStream.new ⟨"abcdefgh".toList⟩ 4).calls [ReadCall.Next]).Next.2 =
        some "efgh".toList ∧
      ((FileInputStream.new ⟨"abcdefgh".toList⟩ 4).calls
        [ReadCall.Next, ReadCall.Next]).ByteCount = 4 := by
  refine ⟨?_, by decide, by decide, by decide, by decide⟩
  intro input buffer_size rs
  have hi := FileInputStream_cursor_calls buffer_size rs (FileInputStream.new input buffer_size)
    ⟨by simp [FileInputStream.new], by simp [FileInputStream.new],
      by simp [FileInputStream.new], by simp [FileInputStream.new],
      by simp [FileInputStream.new], by simp [FileInputStream.new]⟩
  refine ⟨hi.2.2.2.2.2, ?_⟩
  unfold FileInputStream.ByteCount
  rw [hi.2.2.2.2.2]
  have := hi.2.2.2.1
  have := hi.2.2.2.2.1
  omega

end code_generator

/-! ## The file-backed input channel: pushed-back bytes and `Skip` -/

namespace code_generator

theorem FileInputStream_Inv_calls (B : Nat) (input : InFile) (rs : List ReadCall) :
    FileInputStream.Inv B ((FileInputStream.new input B).calls rs) := by
  have hi := FileInputStream_cursor_calls B rs (FileInputStream.new input B)
    ⟨by simp [FileInputStream.new], by simp [FileInputStream.new],
      by simp [FileInputStream.new], by simp [FileInputStream.new],
      by simp [FileInputStream.new], by simp [FileInputStream.new]⟩
  exact ⟨hi.1, hi.2.1, hi.2.2.1, hi.2.2.2.1, hi.2.2.2.2.1⟩

theorem FileInputStream_Next_some (B : Nat) (s s1 : FileInputStream) (span : List Char)
    (h : FileInputStream.Inv B s) (hnext : s.Next = (s1, some span)) :
    FileInputStream.Inv B s1 ∧ s1.buffer_offset_ = s1.buffer_available_ ∧
      s1.last_returned_size_ = (span.length : Int) ∧ span ≠ [] ∧
      span = (s1.buffer_.drop (s1.buffer_available_ - (span.length : Int)).toNat).take
        span.length ∧
      s.pending = span ++ s1.file_.unread := by
  obtain ⟨hB, h0, h1, h2, h3⟩ := h
  unfold FileInputStream.Next at hnext
  by_cases hge : s.buffer_offset_ ≥ s.buffer_available_
  · have hlt : ¬ s.buffer_offset_ < s.buffer_available_ := by omega
    have heq : s.buffer_offset_ = s.buffer_available_ := by omega
    simp only [hge, if_true, FileInputStream.Refill, hlt, if_false, InFile.fread] at hnext
    by_cases hz : (s.file_.unread.take s.buffer_.length).length = 0
    · simp [hz] at hnext
    · simp only [hz, if_false, Bool.true_eq_false, Prod.mk.injEq, Option.some.injEq] at hnext
      obtain ⟨hs1, hspan⟩ := hnext
      obtain ⟨bytes, hb⟩ : ∃ b, s.file_.unread.take s.buffer_.length = b := ⟨_, rfl⟩
      rw [hb] at hs1 hspan hz
      have hlen : bytes.length ≤ B := by rw [← hb, List.length_take]; omega
      have hsp : span = bytes := by
        rw [← hspan]
        simp
      subst hsp
      subst hs1
      refine ⟨⟨?_, ?_, ?_, ?_, ?_⟩, rfl, ?_, ?_, ?_, ?_⟩
      · simp only [List.length_append, List.length_drop]; omega
      · simp
      · simp
      · simp
      · simp only; exact_mod_cast hlen
      · simp
      · intro hnil; rw [hnil] at hz; simp at hz
      · simp
      · simp only [FileInputStream.pending, heq, sub_self, Int.toNat_zero, List.take_zero,
          List.nil_append]
        rw [← hb]
        exact (List.take_append_drop _ _).symm
  · simp only [hge, if_false, Bool.true_eq_false, Prod.mk.injEq, Option.some.injEq] at hnext
    obtain ⟨hs1, hspan⟩ := hnext
    have hlen : span.length = (s.buffer_available_ - s.buffer_offset_).toNat := by
      rw [← hspan, List.length_take, List.length_drop]; omega
    subst hs1
    refine ⟨⟨hB, ?_, ?_, ?_, h3⟩, rfl, ?_, ?_, ?_, ?_⟩
    · simp only; omega
    · simp only; omega
    · simp
    · simp only; omega
    · intro hnil; rw [hnil] at hlen; simp at hlen; omega
    · simp only
      rw [hlen]
      have : (s.buffer_available_ -
          (((s.buffer_available_ - s.buffer_offset_).toNat : Nat) : Int)).toNat
          = s.buffer_offset_.toNat := by omega
      rw [this, ← hspan]
    · simp only [FileInputStream.pending]
      rw [hspan]

theorem FileInputStream_Next_none (B : Nat) (hB : 1 ≤ B) (s s1 : FileInputStream)
    (h : FileInputStream.Inv B s) (hnext : s.Next = (s1, none)) :
    FileInputStream.Inv B s1 ∧ s.pending = [] := by
  obtain ⟨hlen, h0, h1, h2, h3⟩ := h
  unfold FileInputStream.Next at hnext
  by_cases hge : s.buffer_offset_ ≥ s.buffer_available_
  · have hlt : ¬ s.buffer_offset_ < s.buffer_available_ := by omega
    have heq : s.buffer_offset_ = s.buffer_available_ := by omega
    simp only [hge, if_true, FileInputStream.Refill, hlt, if_false, InFile.fread] at hnext
    by_cases hz : (s.file_.unread.take s.buffer_.length).length = 0
    · simp only [hz, if_true, Prod.mk.injEq, and_true] at hnext
      subst hnext
      refine ⟨⟨hlen, h0, h1, h2, h3⟩, ?_⟩
      have hu : s.file_.unread = [] := by
        rw [List.length_take] at hz
        apply List.eq_nil_of_length_eq_zero
        omega
      simp [FileInputStream.pending, heq, hu]
    · simp only [hz, if_false, Bool.true_eq_false, Prod.mk.injEq] at hnext
      exact absurd hnext.2 (by simp)
  · simp only [hge, if_false, Bool.true_eq_false, Prod.mk.injEq] at hnext
    exact absurd hnext.2 (by simp)

theorem FileInputStream_BackUp_spec (B : Nat) (s1 : FileInputStream) (span : List Char)
    (k : Int) (h : FileInputStream.Inv B s1)
    (hoff : s1.buffer_offset_ = s1.buffer_available_)
    (hlast : s1.last_returned_size_ = (span.length : Int))
    (hspan : span = (s1.buffer_.drop (s1.buffer_available_ - (span.length : Int)).toNat).take
      span.length)
    (hk0 : 0 < k) (hk : k ≤ (span.length : Int)) :
    FileInputStream.Inv B (s1.BackUp k) ∧
      (s1.BackUp k).Next =
        ({ s1 with last_returned_size_ := k }, some (span.drop (span.length - k.toNat))) ∧
      (s1.BackUp k).pending = span.drop (span.length - k.toNat) ++ s1.file_.unread ∧
      (∀ j : Int, (s1.BackUp k).BackUp j = s1.BackUp k) := by
  obtain ⟨hB, h0, h1, h2, h3⟩ := h
  have hb : s1.BackUp k =
      { s1 with buffer_offset_ := s1.buffer_available_ - k, last_returned_size_ := 0 } := by
    unfold FileInputStream.BackUp
    rw [if_pos ⟨hk0, by rw [hlast]; exact hk⟩, hoff]
  have hslice : (s1.buffer_.drop (s1.buffer_available_ - k).toNat).take k.toNat
      = span.drop (span.length - k.toNat) := by
    have hd := congrArg (List.drop (span.length - k.toNat)) hspan
    rw [hd, List.drop_take, List.drop_drop]
    have e1 : span.length - (span.length - k.toNat) = k.toNat := by omega
    have e2 : (s1.buffer_available_ - (span.length : Int)).toNat + (span.length - k.toNat)
        = (s1.buffer_available_ - k).toNat := by omega
    rw [e1, e2]
  rw [hb]
  refine ⟨⟨hB, le_refl _, by simp only; omega, by simp only; omega, h3⟩, ?_, ?_, ?_⟩
  · unfold FileInputStream.Next
    have hnge : ¬ (s1.buffer_available_ - k ≥ s1.buffer_available_) := by omega
    simp only [hnge, if_false, Bool.true_eq_false]
    have : (s1.buffer_available_ - (s1.buffer_available_ - k)) = k := by ring
    rw [this, hslice]
    obtain ⟨file, buffer, offset, avail, total, last⟩ := s1
    simp only at hoff
    subst hoff
    rfl
  · simp only [FileInputStream.pending]
    have : (s1.buffer_available_ - (s1.buffer_available_ - k)) = k := by ring
    rw [this, hslice]
  · intro j
    unfold FileInputStream.BackUp
    rw [if_neg (by simp only; omega)]

/-- C31: on a `FileInputStream` in any state reached from its constructor, after a `Next` that
lent the span `span`, `BackUp(k)` with `0 < k ≤` the size of the span makes the next `Next`
succeed and lend exactly the last `k` bytes of `span`, the file behind the channel is not read
(it is as it was), and a further `BackUp` before that `Next`, with any count, changes
nothing. -/
theorem pushed_back_bytes_seen_again (input : InFile) (B : Nat) (rs : List ReadCall)
    (s1 : FileInputStream) (span : List Char) (k : Int)
    (hnext : ((FileInputStream.new input B).calls rs).Next = (s1, some span))
    (hk0 : 0 < k) (hk : k ≤ (span.length : Int)) :
    (s1.BackUp k).Next.2 = some (span.drop (span.length - k.toNat)) ∧
      (s1.BackUp k).Next.1.file_ = s1.file_ ∧
      (∀ j : Int, (s1.BackUp k).BackUp j = s1.BackUp k) := by
  obtain ⟨hinv, hoff, hlast, _, hspan, _⟩ :=
    FileInputStream_Next_some B _ s1 span (FileInputStream_Inv_calls B input rs) hnext
  obtain ⟨_, hn, _, hj⟩ := FileInputStream_BackUp_spec B s1 span k hinv hoff hlast hspan hk0 hk
  rw [hn]
  exact ⟨rfl, rfl, hj⟩

theorem pushed_back_bytes_seen_again_witness :
    ((FileInputStream.new ⟨"abcdefgh".toList⟩ 4).calls [ReadCall.Next]).Next.2 =
        some "efgh".toList ∧
      ((((FileInputStream.new ⟨"abcdefgh".toList⟩ 4).calls [ReadCall.Next]).Next.1.BackUp
        3).Next.2 = some "fgh".toList) :=
  ⟨by decide,
    (pushed_back_bytes_seen_again ⟨"abcdefgh".toList⟩ 4 [ReadCall.Next]
      ((FileInputStream.new ⟨"abcdefgh".toList⟩ 4).calls [ReadCall.Next]).Next.1
      "efgh".toList 3 (by decide) (by decide) (by decide)).1.trans (by decide)⟩

end code_generator

namespace code_generator

theorem FileInputStream_readAll_pending (B : Nat) (hB : 1 ≤ B) (fuel : Nat)
    (s : FileInputStream) (str : List Char) (h : FileInputStream.Inv B s)
    (hfuel : s.pending.length + 1 < fuel) :
    ∃ s1, FileInputStream.stream.readAll fuel s str = some (s1, str ++ s.pending) := by
  obtain ⟨fuel, rfl⟩ : ∃ f, fuel = f + 1 := ⟨fuel - 1, by omega⟩
  rcases hn : s.Next with ⟨s1, _ | span⟩
  · obtain ⟨_, hp⟩ := FileInputStream_Next_none B hB s s1 h hn
    refine ⟨s1, ?_⟩
    rw [ZeroCopyInputStream.readAll]
    rw [show FileInputStream.stream.Next s = s.Next from rfl, hn, hp]
    simp
  · obtain ⟨hinv, hoff, _, _, _, hp⟩ := FileInputStream_Next_some B s s1 span h hn
    obtain ⟨s2, h2⟩ := FileInputStream_readAll_spec B hB fuel s1 (str ++ span) hinv.1
      (by rw [hoff]) (by rw [hp, List.length_append] at hfuel; omega)
    refine ⟨s2, ?_⟩
    rw [ZeroCopyInputStream.readAll]
    rw [show FileInputStream.stream.Next s = s.Next from rfl, hn]
    simp only
    rw [h2, hp, List.append_assoc]

theorem FileInputStream_Skip_spec (B : Nat) (hB : 1 ≤ B) (fuel : Nat) :
    ∀ (s : FileInputStream) (n : Int), FileInputStream.Inv B s → 0 ≤ n →
      s.pending.length < fuel →
      (n ≤ (s.pending.length : Int) →
        ∃ s1, FileInputStream.stream.Skip fuel s n = some (s1, true) ∧
          FileInputStream.Inv B s1 ∧ s1.pending = s.pending.drop n.toNat) ∧
      ((s.pending.length : Int) < n →
        ∃ s1, FileInputStream.stream.Skip fuel s n = some (s1, false)) := by
  induction fuel with
  | zero => intro s n _ _ hf; omega
  | succ fuel ih =>
    intro s n h hn hf
    by_cases hz : n = 0
    · subst hz
      refine ⟨fun _ => ⟨s, ?_, h, by simp⟩, fun hlt => by omega⟩
      simp [ZeroCopyInputStream.Skip]
    · have hpos : n > 0 := by omega
      rcases hnx : s.Next with ⟨s1, _ | span⟩
      · obtain ⟨_, hp⟩ := FileInputStream_Next_none B hB s s1 h hnx
        have hstep : FileInputStream.stream.Skip (fuel + 1) s n = some (s1, false) := by
          rw [ZeroCopyInputStream.Skip, if_pos hpos]
          rw [show FileInputStream.stream.Next s = s.Next from rfl, hnx]
        refine ⟨fun hle => ?_, fun _ => ⟨s1, hstep⟩⟩
        rw [hp] at hle
        simp at hle
        omega
      · obtain ⟨hinv, hoff, hlast, hne, hspan, hp⟩ :=
          FileInputStream_Next_some B s s1 span h hnx
        have hlen1 : 1 ≤ span.length := List.length_pos.mpr hne
        have hp1 : s1.pending = s1.file_.unread := by
          simp [FileInputStream.pending, hoff]
        by_cases hge : (span.length : Int) ≥ n
        · have hstep : FileInputStream.stream.Skip (fuel + 1) s n
              = some (s1.BackUp ((span.length : Int) - n), true) := by
            rw [ZeroCopyInputStream.Skip, if_pos hpos]
            rw [show FileInputStream.stream.Next s = s.Next from rfl, hnx]
            simp only
            rw [if_pos hge]
            rfl
          refine ⟨fun _ => ⟨_, hstep, ?_, ?_⟩, fun hlt => ?_⟩
          · by_cases hk : (span.length : Int) - n = 0
            · rw [hk]
              have : s1.BackUp 0 = s1 := by simp [FileInputStream.BackUp]
              rw [this]; exact hinv
            · exact (FileInputStream_BackUp_spec B s1 span _ hinv hoff hlast hspan
                (by omega) (by omega)).1
          · by_cases hk : (span.length : Int) - n = 0
            · rw [hk]
              have : s1.BackUp 0 = s1 := by simp [FileInputStream.BackUp]
              rw [this, hp1, hp]
              have : n.toNat = span.length := by omega
              rw [this, List.drop_left]
            · rw [(FileInputStream_BackUp_spec B s1 span _ hinv hoff hlast hspan
                (by omega) (by omega)).2.2.1, hp]
              have e : span.length - ((span.length : Int) - n).toNat = n.toNat := by omega
              rw [e, List.drop_append_of_le_length (by omega)]
          · rw [hp, List.length_append] at hlt
            push_cast at hlt
            omega
        · have hlt : (span.length : Int) < n := by omega
          have hstep : FileInputStream.stream.Skip (fuel + 1) s n
              = FileInputStream.stream.Skip fuel s1 (n - (span.length : Int)) := by
            rw [ZeroCopyInputStream.Skip, if_pos hpos]
            rw [show FileInputStream.stream.Next s = s.Next from rfl, hnx]
            simp only
            rw [if_neg hge]
          have hplen : s.pending.length = span.length + s1.pending.length := by
            rw [hp, hp1, List.length_append]
          obtain ⟨ih1, ih2⟩ := ih s1 (n - (span.length : Int)) hinv (by omega) (by omega)
          rw [hstep]
          refine ⟨fun hle => ?_, fun hgt => ?_⟩
          · obtain ⟨s2, h2, hi2, hp2⟩ := ih1 (by omega)
            refine ⟨s2, h2, hi2, ?_⟩
            rw [hp2, hp1, hp]
            have e : n.toNat = span.length + (n - (span.length : Int)).toNat := by omega
            rw [e, ← List.drop_drop, List.drop_left]
          · exact ih2 (by omega)

end code_generator

namespace code_generator

/-- C32 as stated fails: with a buffer of 0 bytes `fread` is asked for 0 bytes, `Refill`
returns `false` and no `Next` succeeds, so `Skip(1)` returns `false` although 3 bytes are
unread. -/
theorem Skip_fails_with_empty_buffer :
    (FileInputStream.new ⟨"abc".toList⟩ 0).pending = "abc".toList ∧
      ∀ fuel : Nat,
        (FileInputStream.stream.Skip (fuel + 1) (FileInputStream.new ⟨"abc".toList⟩ 0) 1).map
          Prod.snd = some false := by
  refine ⟨by decide, fun fuel => ?_⟩
  rw [ZeroCopyInputStream.Skip, if_pos (by decide)]
  rfl

/-- C32, amended: for every `n ≥ 0` and every `FileInputStream` with a buffer of at least one
byte, in any state reached from its constructor, with `r` bytes still to deliver (buffered and
unread in the file), `Skip(n)` returns `true` when `n ≤ r` and `false` when `n > r` (given fuel
for `r + 1` iterations). When it returns `true` the bytes still to deliver are those before
the call with the first `n` dropped, and they are what the unbounded `ReadToString` then
appends. -/
theorem Skip_passes_over (B : Nat) (hB : 1 ≤ B) (input : InFile) (rs : List ReadCall)
    (s : FileInputStream) (hs : s = (FileInputStream.new input B).calls rs)
    (n : Int) (hn : 0 ≤ n) (fuel : Nat) (hfuel : s.pending.length < fuel) :
    (n ≤ (s.pending.length : Int) →
        ∃ s1, FileInputStream.stream.Skip fuel s n = some (s1, true) ∧
          s1.pending = s.pending.drop n.toNat ∧
          ∀ str : List Char, ∃ s2,
            FileInputStream.stream.ReadToString (s1.pending.length + 2) s1 str (-1) =
              some (s2, str ++ s.pending.drop n.toNat, true)) ∧
      ((s.pending.length : Int) < n →
        ∃ s1, FileInputStream.stream.Skip fuel s n = some (s1, false)) := by
  have hinv : FileInputStream.Inv B s := by
    rw [hs]; exact FileInputStream_Inv_calls B input rs
  obtain ⟨h1, h2⟩ := FileInputStream_Skip_spec B hB fuel s n hinv hn hfuel
  refine ⟨fun hle => ?_, h2⟩
  obtain ⟨s1, hk, hi1, hp1⟩ := h1 hle
  refine ⟨s1, hk, hp1, fun str => ?_⟩
  obtain ⟨s2, hr⟩ := FileInputStream_readAll_pending B hB (s1.pending.length + 2) s1 str hi1
    (by omega)
  refine ⟨s2, ?_⟩
  unfold ZeroCopyInputStream.ReadToString
  rw [if_pos (by decide), hr, hp1]

theorem Skip_passes_over_witness :
    (∃ s1, FileInputStream.stream.Skip 9 (FileInputStream.new ⟨"abcdefgh".toList⟩ 3) 5 =
        some (s1, true) ∧ s1.pending = "fgh".toList ∧
        ∀ str : List Char, ∃ s2,
          FileInputStream.stream.ReadToString (s1.pending.length + 2) s1 str (-1) =
            some (s2, str ++ "fgh".toList, true)) ∧
      ∃ s1, FileInputStream.stream.Skip 9 (FileInputStream.new ⟨"abcdefgh".toList⟩ 3) 9 =
        some (s1, false) :=
  ⟨(Skip_passes_over 3 (by decide) ⟨"abcdefgh".toList⟩ [] _ rfl 5 (by decide) 9
      (by decide)).1 (by decide),
    (Skip_passes_over 3 (by decide) ⟨"abcdefgh".toList⟩ [] _ rfl 9 (by decide) 9
      (by decide)).2 (by decide)⟩

end code_generator

/-! ## Output adapters: the size of a lent span, and a short write -/

namespace code_generator

theorem FileOutputStream_Next_size (B : Nat) (hB : 1 ≤ B) (s : FileOutputStream)
    (h : s.buffer_.length = B ∧ 0 ≤ s.buffer_offset_ ∧ s.buffer_offset_ ≤ (B : Int))
    (pos : Nat) (size : Int) (hnext : s.Next.2 = some (pos, size)) :
    1 ≤ size ∧ size ≤ (B : Int) ∧ (pos : Int) + size = (B : Int) := by
  obtain ⟨hlen, h0, h1⟩ := h
  unfold FileOutputStream.Next at hnext
  by_cases hfull : s.buffer_offset_ = (s.buffer_.length : Int)
  · simp only [hfull, if_true] at hnext
    have hpos : s.buffer_offset_ > 0 := by omega
    unfold FileOutputStream.FlushBuffer at hnext
    simp only [hpos, if_true] at hnext
    split_ifs at hnext with h2 h3 <;>
      first
        | exact absurd rfl h3
        | (obtain ⟨hp, hsz⟩ := hnext; omega)
        | (simp only [Option.some.injEq, Prod.mk.injEq] at hnext
           obtain ⟨hp, hsz⟩ := hnext; omega)
  · simp only [hfull, if_false, Bool.true_eq_false, Option.some.injEq, Prod.mk.injEq] at hnext
    obtain ⟨hp, hsz⟩ := hnext
    subst hp hsz
    rw [hlen] at hfull ⊢
    omega

/-- C34 as stated fails: when the `FILE` takes the bytes of the full buffer into its own buffer
and the failure of the device shows in `fflush` only (a `FILE` whose `fwrite` accepts every
byte and whose `fflush` fails), `Next` still returns `false` and lends no span and
`ByteCount()` is what it was, but the buffered bytes are not left as they were: the cursor has
been reset from 4 to 0, and the next `Next` lends the whole buffer again. -/
theorem flush_failure_empties_buffer :
    FileOutputStream.fullOverFailingFlush.buffer_offset_ = 4 ∧
      FileOutputStream.fullOverFailingFlush.buffer_.length = 4 ∧
      FileOutputStream.fullOverFailingFlush.Next.2 = none ∧
      FileOutputStream.fullOverFailingFlush.Next.1.buffer_offset_ = 0 ∧
      FileOutputStream.fullOverFailingFlush.Next.1.ByteCount
        = FileOutputStream.fullOverFailingFlush.ByteCount ∧
      FileOutputStream.fullOverFailingFlush.Next.1.Next.2 = some (0, 4) := by
  decide

/-- C34, as amended: a short write is a hard failure. When `Next` of a `FileOutputStream` is
called with the buffer full (of at least one byte) and `fwrite` reports fewer bytes than are
buffered, `Next` returns `false` and lends no span, `ByteCount()`, the buffer and the cursor
are what they were, and a `WriteRaw` that has bytes left to write in this state returns
`false`. When `fwrite` reports all the bytes and `fflush` fails, `Next` returns `false` and
lends no span, `ByteCount()` and the buffer are what they were and `WriteRaw` returns `false`
as well, but the cursor is 0 afterwards and the next `Next` lends the whole buffer. -/
theorem short_write_fails_lend (s : FileOutputStream)
    (hfull : s.buffer_offset_ = (s.buffer_.length : Int)) (hpos : 0 < s.buffer_.length) :
    (∀ r : Nat, s.file_.room = some r → r < s.buffer_.length →
      s.Next.2 = none ∧ s.Next.1.ByteCount = s.ByteCount ∧ s.Next.1.buffer_ = s.buffer_ ∧
        s.Next.1.buffer_offset_ = s.buffer_offset_ ∧
        (∀ (fuel : Nat) (data : List Char), data ≠ [] →
          FileOutputStream.stream.WriteRaw (fuel + 1) s data = some (s.Next.1, false))) ∧
      ((∀ r : Nat, s.file_.room = some r → s.buffer_.length ≤ r) → s.file_.fflush_ok = false →
        s.Next.2 = none ∧ s.Next.1.ByteCount = s.ByteCount ∧ s.Next.1.buffer_ = s.buffer_ ∧
          s.Next.1.buffer_offset_ = 0 ∧
          s.Next.1.Next.2 = some (0, (s.buffer_.length : Int)) ∧
          (∀ (fuel : Nat) (data : List Char), data ≠ [] →
            FileOutputStream.stream.WriteRaw (fuel + 1) s data = some (s.Next.1, false))) := by
  have hpos1 : s.buffer_offset_ > 0 := by omega
  refine ⟨fun r hroom hshort => ?_, fun hroom hflush => ?_⟩
  · have hfl : s.FlushBuffer =
        ({ s with file_ := (s.file_.fwrite (s.buffer_.take s.buffer_offset_.toNat)).1 },
          false) := by
      unfold FileOutputStream.FlushBuffer
      rw [if_pos hpos1]
      have hne : (((s.file_.fwrite (s.buffer_.take s.buffer_offset_.toNat)).2 : Nat) : Int)
          ≠ s.buffer_offset_ := by
        simp only [OutFile.fwrite, hroom, List.length_take]
        omega
      simp only [hne, ne_eq, not_false_eq_true, if_true]
    have hn : s.Next =
        ({ s with file_ := (s.file_.fwrite (s.buffer_.take s.buffer_offset_.toNat)).1 },
          none) := by
      unfold FileOutputStream.Next
      rw [if_pos hfull, hfl]
      rfl
    refine ⟨by rw [hn], by rw [hn]; rfl, by rw [hn], by rw [hn], ?_⟩
    intro fuel data hd
    rcases data with _ | ⟨c, cs⟩
    · exact absurd rfl hd
    · rw [ZeroCopyOutputStream.WriteRaw]
      rw [show FileOutputStream.stream.Next s = s.Next from rfl, hn]
  · have hw : (((s.file_.fwrite (s.buffer_.take s.buffer_offset_.toNat)).2 : Nat) : Int)
        = s.buffer_offset_ ∧
        (s.file_.fwrite (s.buffer_.take s.buffer_offset_.toNat)).1.fflush_ok = false := by
      rcases hr : s.file_.room with _ | r
      · simp only [OutFile.fwrite, hr, List.length_take]
        exact ⟨by omega, hflush⟩
      · have := hroom r hr
        simp only [OutFile.fwrite, hr, List.length_take]
        exact ⟨by omega, hflush⟩
    have hfl : s.FlushBuffer =
        ({ s with file_ := (s.file_.fwrite (s.buffer_.take s.buffer_offset_.toNat)).1,
                  total_bytes_ := s.total_bytes_ + s.buffer_offset_,
                  buffer_offset_ := 0 }, false) := by
      unfold FileOutputStream.FlushBuffer
      rw [if_pos hpos1]
      simp only [hw.1, ne_eq, not_true_eq_false, if_false, hw.2]
    have hn : s.Next =
        ({ s with file_ := (s.file_.fwrite (s.buffer_.take s.buffer_offset_.toNat)).1,
                  total_bytes_ := s.total_bytes_ + s.buffer_offset_,
                  buffer_offset_ := 0 }, none) := by
      unfold FileOutputStream.Next
      rw [if_pos hfull, hfl]
      rfl
    refine ⟨by rw [hn], by rw [hn]; simp [FileOutputStream.ByteCount], by rw [hn], by rw [hn],
      ?_, ?_⟩
    · rw [hn]
      simp only
      unfold FileOutputStream.Next
      have hne : ¬ ((0 : Int) = (s.buffer_.length : Int)) := by omega
      simp [hne]
    · intro fuel data hd
      rcases data with _ | ⟨c, cs⟩
      · exact absurd rfl hd
      · rw [ZeroCopyOutputStream.WriteRaw]
        rw [show FileOutputStream.stream.Next s = s.Next from rfl, hn]

/-- A `WriteRaw` on a full 4-byte buffer over a file whose `fwrite` accepts 2 more bytes, and
the cursor after a failed `fflush`. -/
theorem short_write_fails_lend_witness :
    FileOutputStream.stream.WriteRaw 1
        ((FileOutputStream.new { written := [], room := some 2, fflush_ok := true } 4).calls
          [StreamCall.Next]) "e".toList =
      some ({ file_ := { written := "\x00\x00".toList, room := some 0, fflush_ok := true },
              buffer_ := List.replicate 4 '\x00', buffer_offset_ := 4, total_bytes_ := 0 },
        false) ∧
      FileOutputStream.fullOverFailingFlush.Next.1.buffer_offset_ = 0 :=
  ⟨(((short_write_fails_lend
      ((FileOutputStream.new { written := [], room := some 2, fflush_ok := true } 4).calls
        [StreamCall.Next]) (by decide) (by decide)).1 2 (by decide) (by decide)).2.2.2.2 0
      "e".toList (by decide)).trans (by decide),
    ((short_write_fails_lend FileOutputStream.fullOverFailingFlush (by decide) (by decide)).2
      (fun r h => absurd (show (none : Option Nat) = some r from h) (by simp))
      (by decide)).2.2.2.1⟩

end code_generator

/-! ## Write operations over an adapter that lends at least one byte -/

namespace code_generator

end code_generator

namespace code_generator

end code_generator

/-! ## `WriteRaw`, call by call -/

namespace code_generator

theorem WriteRaw_logged_fst {σ : Type} (S : ZeroCopyOutputStream σ) (fuel : Nat) :
    ∀ (st : σ) (log0 : List Event) (data : List Char),
      ((logged S).WriteRaw fuel (st, log0) data).map (fun r => (r.1.1, r.2)) =
        S.WriteRaw fuel st data := by
  induction fuel with
  | zero =>
    intro st log0 data
    cases data <;> simp [ZeroCopyOutputStream.WriteRaw]
  | succ fuel ih =>
    intro st log0 data
    rcases data with _ | ⟨c, cs⟩
    · simp [ZeroCopyOutputStream.WriteRaw]
    · rw [ZeroCopyOutputStream.WriteRaw, ZeroCopyOutputStream.WriteRaw]
      rcases hn : S.Next st with ⟨st1, _ | ⟨pos, size⟩⟩
      · simp [logged, hn]
      · have hl : (logged S).Next (st, log0) =
            ((st1, log0 ++ [Event.lent size]), some (pos, size)) := by
          simp [logged, hn]
        rw [hl]
        simp only
        by_cases hneg : size < 0
        · simp [hneg]
        · rw [if_neg hneg, if_neg hneg]
          by_cases hlt : min size ((c :: cs).length : Int) < size
          · rw [if_pos hlt, if_pos hlt]
            exact ih _ _ _
          · rw [if_neg hlt, if_neg hlt]
            exact ih _ _ _

theorem refused_not_mem_filledSpans (chunks : List (List Char)) :
    Event.refused ∉ filledSpans chunks := by
  induction chunks with
  | nil => simp [filledSpans]
  | cons c cs ih =>
    simp only [filledSpans, List.map_cons, List.flatten_cons] at ih ⊢
    simp [ih]

theorem lendCount_append (a b : List Event) : lendCount (a ++ b) = lendCount a + lendCount b := by
  induction a with
  | nil => simp [lendCount]
  | cons e es ih =>
    cases e <;> simp [lendCount, ih] <;> omega

theorem lendCount_filledSpans (chunks : List (List Char)) :
    lendCount (filledSpans chunks) = chunks.length := by
  induction chunks with
  | nil => rfl
  | cons c cs ih =>
    simp only [filledSpans, List.map_cons, List.flatten_cons] at ih ⊢
    simp [lendCount, ih]

theorem length_le_flatten_length (chunks : List (List Char)) (h : ∀ c ∈ chunks, c ≠ []) :
    chunks.length ≤ chunks.flatten.length := by
  induction chunks with
  | nil => simp
  | cons c cs ih =>
    have hc : 1 ≤ c.length := List.length_pos.mpr (h c (List.mem_cons_self _ _))
    have := ih (fun x hx => h x (List.mem_cons_of_mem _ hx))
    simp only [List.length_cons, List.flatten_cons, List.length_append]
    omega

theorem WriteRaw_logged_trace {σ : Type} (S : ZeroCopyOutputStream σ) (Inv : σ → Prop)
    (hstep : ∀ st st1 pos size, Inv st → S.Next st = (st1, some (pos, size)) → 1 ≤ size ∧
      ∀ bytes : List Char, bytes ≠ [] → (bytes.length : Int) ≤ size →
        Inv (if (bytes.length : Int) < size
              then S.BackUp (S.store st1 pos bytes) (size - (bytes.length : Int))
              else S.store st1 pos bytes))
    (fuel : Nat) :
    ∀ (st : σ) (log0 : List Event) (data : List Char) (st' : σ) (log : List Event) (ok : Bool),
      Inv st → (logged S).WriteRaw fuel (st, log0) data = some ((st', log), ok) →
      ∃ (chunks : List (List Char)) (tail : List Event),
        log = log0 ++ filledSpans chunks ++ tail ∧
        (∀ c ∈ chunks, c ≠ []) ∧
        ((ok = true ∧ tail = [] ∧ chunks.flatten = data) ∨
          (ok = true ∧ ∃ (c : List Char) (size : Int), c ≠ [] ∧ (c.length : Int) < size ∧
            tail = [Event.lent size, Event.copied c,
              Event.gaveBack (size - (c.length : Int))] ∧
            chunks.flatten ++ c = data) ∨
          (ok = false ∧ tail = [Event.refused] ∧
            ∃ rest : List Char, rest ≠ [] ∧ chunks.flatten ++ rest = data)) := by
  induction fuel with
  | zero =>
    intro st log0 data st' log ok _ h
    rcases data with _ | ⟨c, cs⟩
    · simp only [ZeroCopyOutputStream.WriteRaw, Option.some.injEq, Prod.mk.injEq] at h
      obtain ⟨⟨_, hl⟩, hok⟩ := h
      exact ⟨[], [], by simp [filledSpans, hl], by simp, Or.inl ⟨hok.symm, rfl, rfl⟩⟩
    · simp [ZeroCopyOutputStream.WriteRaw] at h
  | succ fuel ih =>
    intro st log0 data st' log ok hinv h
    rcases data with _ | ⟨c, cs⟩
    · simp only [ZeroCopyOutputStream.WriteRaw, Option.some.injEq, Prod.mk.injEq] at h
      obtain ⟨⟨_, hl⟩, hok⟩ := h
      exact ⟨[], [], by simp [filledSpans, hl], by simp, Or.inl ⟨hok.symm, rfl, rfl⟩⟩
    · rw [ZeroCopyOutputStream.WriteRaw] at h
      rcases hn : S.Next st with ⟨st1, _ | ⟨pos, size⟩⟩
      · have hl : (logged S).Next (st, log0) = ((st1, log0 ++ [Event.refused]), none) := by
          simp [logged, hn]
        rw [hl] at h
        simp only [Option.some.injEq, Prod.mk.injEq] at h
        obtain ⟨⟨_, hlog⟩, hok⟩ := h
        exact ⟨[], [Event.refused], by simp [filledSpans, hlog], by simp,
          Or.inr (Or.inr ⟨hok.symm, rfl, c :: cs, by simp, by simp⟩)⟩
      · have hl : (logged S).Next (st, log0) =
            ((st1, log0 ++ [Event.lent size]), some (pos, size)) := by
          simp [logged, hn]
        rw [hl] at h
        simp only at h
        by_cases hneg : size < 0
        · simp [hneg] at h
        · rw [if_neg hneg] at h
          by_cases hlt : min size ((c :: cs).length : Int) < size
          · -- the payload ends within the span: the rest of the span is given back
            rw [if_pos hlt] at h
            have hmin : min size ((c :: cs).length : Int) = ((c :: cs).length : Int) := by
              rcases min_choice size ((c :: cs).length : Int) with hm | hm
              · rw [hm] at hlt; omega
              · exact hm
            rw [hmin] at h hlt
            simp only [Int.toNat_ofNat, List.take_length, List.drop_length] at h
            simp only [ZeroCopyOutputStream.WriteRaw, logged, Option.some.injEq,
              Prod.mk.injEq] at h
            obtain ⟨⟨_, hlog⟩, hok⟩ := h
            refine ⟨[], _, ?_, by simp, Or.inr (Or.inl ⟨hok.symm, c :: cs, size, by simp, hlt,
              rfl, by simp⟩)⟩
            rw [← hlog]
            simp [filledSpans]
          · -- the span is filled to its end
            rw [if_neg hlt] at h
            have hmin : min size ((c :: cs).length : Int) = size := by
              rcases min_choice size ((c :: cs).length : Int) with hm | hm
              · exact hm
              · have := min_le_left size ((c :: cs).length : Int); omega
            have hle : size ≤ ((c :: cs).length : Int) := by
              rw [← hmin]; exact min_le_right _ _
            rw [hmin] at h
            have hstore : (logged S).store (st1, log0 ++ [Event.lent size]) pos
                ((c :: cs).take size.toNat) =
                (S.store st1 pos ((c :: cs).take size.toNat),
                  log0 ++ [Event.lent size] ++ [Event.copied ((c :: cs).take size.toNat)]) :=
              rfl
            rw [hstore] at h
            obtain ⟨hs1, hkeep⟩ := hstep st st1 pos size hinv hn
            have hcl : (((c :: cs).take size.toNat).length : Int) = size := by
              rw [List.length_take]; omega
            have hcne : (c :: cs).take size.toNat ≠ [] := by
              intro h0; rw [h0] at hcl; simp at hcl; omega
            have hk := hkeep _ hcne (by rw [hcl])
            rw [hcl, if_neg (lt_irrefl _)] at hk
            obtain ⟨chunks, tail, hlog, hsizes, hcases⟩ := ih _ _ _ _ _ _ hk h
            have hsplit : (c :: cs).take size.toNat ++ (c :: cs).drop size.toNat = c :: cs :=
              List.take_append_drop _ _
            refine ⟨(c :: cs).take size.toNat :: chunks, tail, ?_, ?_, ?_⟩
            · rw [hlog]
              simp only [filledSpans, List.map_cons, List.flatten_cons, hcl]
              simp
            · intro x hx
              rcases List.mem_cons.mp hx with rfl | hx
              · exact hcne
              · exact hsizes x hx
            · rcases hcases with ⟨h1, h2, h3⟩ | ⟨h1, x, sz, h2, h3, h4, h5⟩ |
                ⟨h1, h2, rest, h3, h4⟩
              · exact Or.inl ⟨h1, h2, by rw [List.flatten_cons, h3, hsplit]⟩
              · exact Or.inr (Or.inl ⟨h1, x, sz, h2, h3, h4,
                  by rw [List.flatten_cons, List.append_assoc, h5, hsplit]⟩)
              · exact Or.inr (Or.inr ⟨h1, h2, rest, h3,
                  by rw [List.flatten_cons, List.append_assoc, h4, hsplit]⟩)

theorem WriteRaw_logged_returns {σ : Type} (S : ZeroCopyOutputStream σ) (Inv : σ → Prop)
    (hstep : ∀ st st1 pos size, Inv st → S.Next st = (st1, some (pos, size)) → 1 ≤ size ∧
      ∀ bytes : List Char, bytes ≠ [] → (bytes.length : Int) ≤ size →
        Inv (if (bytes.length : Int) < size
              then S.BackUp (S.store st1 pos bytes) (size - (bytes.length : Int))
              else S.store st1 pos bytes))
    (fuel : Nat) :
    ∀ (st : σ) (log0 : List Event) (data : List Char), Inv st → data.length ≤ fuel →
      ∃ r, (logged S).WriteRaw fuel (st, log0) data = some r := by
  induction fuel with
  | zero =>
    intro st log0 data _ hlen
    have : data = [] := List.eq_nil_of_length_eq_zero (by omega)
    subst this
    exact ⟨_, rfl⟩
  | succ fuel ih =>
    intro st log0 data hinv hlen
    rcases data with _ | ⟨c, cs⟩
    · exact ⟨_, rfl⟩
    · rw [ZeroCopyOutputStream.WriteRaw]
      rcases hn : S.Next st with ⟨st1, _ | ⟨pos, size⟩⟩
      · have hl : (logged S).Next (st, log0) = ((st1, log0 ++ [Event.refused]), none) := by
          simp [logged, hn]
        rw [hl]
        exact ⟨_, rfl⟩
      · have hl : (logged S).Next (st, log0) =
            ((st1, log0 ++ [Event.lent size]), some (pos, size)) := by
          simp [logged, hn]
        obtain ⟨hs, hkeep⟩ := hstep st st1 pos size hinv hn
        rw [hl]
        simp only
        rw [if_neg (by omega)]
        have hlen1 : (1 : Int) ≤ ((c :: cs).length : Int) := by
          simp only [List.length_cons]; omega
        have hc1 : 1 ≤ min size ((c :: cs).length : Int) := le_min hs hlen1
        have hc2 : min size ((c :: cs).length : Int) ≤ size := min_le_left _ _
        have hc3 : min size ((c :: cs).length : Int) ≤ ((c :: cs).length : Int) :=
          min_le_right _ _
        have htl : (((c :: cs).take (min size ((c :: cs).length : Int)).toNat).length : Int)
            = min size ((c :: cs).length : Int) := by
          rw [List.length_take]; omega
        have hne : (c :: cs).take (min size ((c :: cs).length : Int)).toNat ≠ [] := by
          intro h; rw [h] at htl; simp at htl; omega
        have hk := hkeep _ hne (by rw [htl]; exact hc2)
        rw [htl] at hk
        have hdl : ((c :: cs).drop (min size ((c :: cs).length : Int)).toNat).length ≤ fuel := by
          rw [List.length_drop]
          simp only [List.length_cons] at hlen hc3 ⊢
          omega
        by_cases hlt : min size ((c :: cs).length : Int) < size
        · rw [if_pos hlt] at hk ⊢
          exact ih _ _ _ hk hdl
        · rw [if_neg hlt] at hk ⊢
          exact ih _ _ _ hk hdl

theorem FileOutputStream_keeps_cursor (B : Nat) (hB : 1 ≤ B) (st st1 : FileOutputStream)
    (pos : Nat) (size : Int)
    (h : st.buffer_.length = B ∧ 0 ≤ st.buffer_offset_ ∧ st.buffer_offset_ ≤ (B : Int))
    (hn : FileOutputStream.stream.Next st = (st1, some (pos, size))) :
    1 ≤ size ∧
      ∀ bytes : List Char, bytes ≠ [] → (bytes.length : Int) ≤ size →
        (fun s : FileOutputStream =>
            s.buffer_.length = B ∧ 0 ≤ s.buffer_offset_ ∧ s.buffer_offset_ ≤ (B : Int))
          (if (bytes.length : Int) < size
            then FileOutputStream.stream.BackUp (FileOutputStream.stream.store st1 pos bytes)
              (size - (bytes.length : Int))
            else FileOutputStream.stream.store st1 pos bytes) := by
  have hn2 : st.Next.2 = some (pos, size) := by
    rw [show st.Next = FileOutputStream.stream.Next st from rfl, hn]
  obtain ⟨hs1, hs2, hs3⟩ := FileOutputStream_Next_size B hB st h pos size hn2
  have h1 := FileOutputStream_cursor_call B st StreamCall.Next h
  have hst1 : st.call StreamCall.Next = st1 := by
    show st.Next.1 = st1
    rw [show st.Next = FileOutputStream.stream.Next st from rfl, hn]
  rw [hst1] at h1
  obtain ⟨hl1, ho1, hB1⟩ := h1
  have hoff : st1.buffer_offset_ = (B : Int) := by
    have hgen : st.Next.2 ≠ none → st.Next.1.buffer_offset_ = (st.Next.1.buffer_.length : Int) := by
      unfold FileOutputStream.Next
      dsimp only
      split_ifs <;> first | (intro hr; exact absurd rfl hr) | (intro _; rfl)
    have h2 := hgen (by rw [hn2]; simp)
    have : st.Next.1 = st1 := hst1
    rw [this, hl1] at h2
    exact h2
  refine ⟨hs1, fun bytes hne hbl => ?_⟩
  have hlen : (FileOutputStream.stream.store st1 pos bytes).buffer_.length = B := by
    simp only [FileOutputStream.stream, FileOutputStream.store, List.length_append,
      List.length_take, List.length_drop, hl1]
    omega
  split_ifs with hlt
  · simp only [FileOutputStream.stream, FileOutputStream.BackUp] at hlen ⊢
    rw [show (FileOutputStream.store st1 pos bytes).buffer_offset_ = st1.buffer_offset_
      from rfl, hoff]
    rw [if_pos ⟨by omega, by omega⟩]
    exact ⟨hlen, by simp only; omega, by simp only; omega⟩
  · exact ⟨hlen, by
      rw [show (FileOutputStream.stream.store st1 pos bytes).buffer_offset_ =
        st1.buffer_offset_ from rfl]; exact ho1, by
      rw [show (FileOutputStream.stream.store st1 pos bytes).buffer_offset_ =
        st1.buffer_offset_ from rfl]; exact hB1⟩

end code_generator

namespace code_generator

/-- C36 as stated fails: a channel whose `Next` succeeds with a span of 0 bytes never lets
`WriteRaw` return. A `FileOutputStream` with a buffer of 0 bytes lends the span of size 0 at
every `Next` and stays as it is, no `Next` fails, and `WriteRaw` of one byte has no result
whatever the number of iterations. -/
theorem WriteRaw_never_returns_on_empty_spans :
    (FileOutputStream.new OutFile.fresh 0).Next =
        (FileOutputStream.new OutFile.fresh 0, some (0, 0)) ∧
      ∀ fuel : Nat,
        FileOutputStream.stream.WriteRaw fuel (FileOutputStream.new OutFile.fresh 0)
          "a".toList = none := by
  refine ⟨by decide, fun fuel => ?_⟩
  induction fuel with
  | zero => rfl
  | succ fuel ih =>
    have hstep : FileOutputStream.stream.WriteRaw (fuel + 1)
        (FileOutputStream.new OutFile.fresh 0) "a".toList =
        FileOutputStream.stream.WriteRaw fuel (FileOutputStream.new OutFile.fresh 0)
          "a".toList := rfl
    rw [hstep, ih]

/-- C36, amended: `WriteRaw` returns `false` as soon as a `Next` fails. For every channel
whose `Next`, when it succeeds, lends at least one byte (in every state the channel gets
into), every payload and enough fuel, `WriteRaw` returns; it returns `false` exactly when one
of its `Next` calls failed, and then the calls it made are: `Next` calls that succeeded, each
span filled to its end with the next bytes of the payload, no `BackUp` at all, and last the
`Next` that failed, with a non-empty rest of the payload left unwritten. -/
theorem WriteRaw_stops_at_refused_lend {σ : Type} (S : ZeroCopyOutputStream σ)
    (Inv : σ → Prop)
    (hstep : ∀ st st1 pos size, Inv st → S.Next st = (st1, some (pos, size)) → 1 ≤ size ∧
      ∀ bytes : List Char, bytes ≠ [] → (bytes.length : Int) ≤ size →
        Inv (if (bytes.length : Int) < size
              then S.BackUp (S.store st1 pos bytes) (size - (bytes.length : Int))
              else S.store st1 pos bytes))
    (st : σ) (hinv : Inv st) (data : List Char) (fuel : Nat) (hfuel : data.length ≤ fuel) :
    ∃ (st' : σ) (log : List Event) (ok : Bool),
      (logged S).WriteRaw fuel (st, []) data = some ((st', log), ok) ∧
      S.WriteRaw fuel st data = some (st', ok) ∧
      (ok = false ↔ Event.refused ∈ log) ∧
      (ok = false → ∃ (chunks : List (List Char)) (rest : List Char),
        log = filledSpans chunks ++ [Event.refused] ∧ rest ≠ [] ∧
          chunks.flatten ++ rest = data) := by
  obtain ⟨⟨⟨st', log⟩, ok⟩, hr⟩ := WriteRaw_logged_returns S Inv hstep fuel st [] data hinv hfuel
  obtain ⟨chunks, tail, hlog, _, hcases⟩ :=
    WriteRaw_logged_trace S Inv hstep fuel st [] data st' log ok hinv hr
  have hplain := WriteRaw_logged_fst S fuel st [] data
  rw [hr] at hplain
  simp only [Option.map_some', List.nil_append] at hplain hlog
  refine ⟨st', log, ok, hr, hplain.symm, ?_, ?_⟩
  · rcases hcases with ⟨h1, h2, _⟩ | ⟨h1, c, size, _, _, h2, _⟩ | ⟨h1, h2, _⟩
    · subst h2
      simp [h1, hlog, refused_not_mem_filledSpans]
    · subst h2
      simp [h1, hlog, refused_not_mem_filledSpans]
    · subst h2
      simp [h1, hlog]
  · intro hok
    rcases hcases with ⟨h1, _⟩ | ⟨h1, _⟩ | ⟨_, h2, rest, h3, h4⟩
    · rw [h1] at hok; exact absurd hok (by decide)
    · rw [h1] at hok; exact absurd hok (by decide)
    · exact ⟨chunks, rest, by rw [hlog, h2], h3, h4⟩

theorem WriteRaw_stops_at_refused_lend_witness :
    (logged FileOutputStream.stream).WriteRaw 8
        (FileOutputStream.new { written := [], room := some 2, fflush_ok := true } 4, [])
        "abcdefgh".toList =
        some (({ file_ := { written := "ab".toList, room := some 0, fflush_ok := true },
                 buffer_ := "abcd".toList, buffer_offset_ := 4, total_bytes_ := 0 },
                [Event.lent 4, Event.copied "abcd".toList, Event.refused]), false) ∧
      ∃ (st' : FileOutputStream) (log : List Event) (ok : Bool),
        (logged FileOutputStream.stream).WriteRaw 8
          (FileOutputStream.new { written := [], room := some 2, fflush_ok := true } 4, [])
          "abcdefgh".toList = some ((st', log), ok) ∧
        FileOutputStream.stream.WriteRaw 8
          (FileOutputStream.new { written := [], room := some 2, fflush_ok := true } 4)
          "abcdefgh".toList = some (st', ok) ∧
        (ok = false ↔ Event.refused ∈ log) ∧
        (ok = false → ∃ (chunks : List (List Char)) (rest : List Char),
          log = filledSpans chunks ++ [Event.refused] ∧ rest ≠ [] ∧
            chunks.flatten ++ rest = "abcdefgh".toList) :=
  ⟨by decide,
    WriteRaw_stops_at_refused_lend FileOutputStream.stream
      (fun s => s.buffer_.length = 4 ∧ 0 ≤ s.buffer_offset_ ∧ s.buffer_offset_ ≤ ((4 : Nat) : Int))
      (fun st st1 pos size h hn => FileOutputStream_keeps_cursor 4 (by decide) st st1 pos size h hn)
      (FileOutputStream.new { written := [], room := some 2, fflush_ok := true } 4)
      (by decide) "abcdefgh".toList 8 (by decide)⟩

/-- C37: `WriteRaw` terminates. For every channel whose `Next`, when it succeeds, lends at
least one byte, and every payload of `n` bytes, `WriteRaw` returns within `n` iterations
(fuel `n`) after at most `n` calls of `Next`, none (and no other call) when `n = 0`. The calls
it made are `Next` calls whose spans were filled to their end, each with at least one further
byte of the payload, followed, when it returns `true`, either by nothing more (the payload
ended with a span) or by one last `Next`, the copy of the non-empty rest of the payload, and a
`BackUp` of exactly the part of that span that was not filled. -/
theorem WriteRaw_terminates {σ : Type} (S : ZeroCopyOutputStream σ) (Inv : σ → Prop)
    (hstep : ∀ st st1 pos size, Inv st → S.Next st = (st1, some (pos, size)) → 1 ≤ size ∧
      ∀ bytes : List Char, bytes ≠ [] → (bytes.length : Int) ≤ size →
        Inv (if (bytes.length : Int) < size
              then S.BackUp (S.store st1 pos bytes) (size - (bytes.length : Int))
              else S.store st1 pos bytes))
    (st : σ) (hinv : Inv st) (data : List Char) :
    ∃ (st' : σ) (log : List Event) (ok : Bool),
      (logged S).WriteRaw data.length (st, []) data = some ((st', log), ok) ∧
      S.WriteRaw data.length st data = some (st', ok) ∧
      lendCount log ≤ data.length ∧ (data = [] → log = []) ∧
      ∃ (chunks : List (List Char)) (tail : List Event),
        log = filledSpans chunks ++ tail ∧ (∀ c ∈ chunks, c ≠ []) ∧
        (ok = true →
          (tail = [] ∧ chunks.flatten = data) ∨
          ∃ (c : List Char) (size : Int), c ≠ [] ∧ (c.length : Int) < size ∧
            tail = [Event.lent size, Event.copied c,
              Event.gaveBack (size - (c.length : Int))] ∧
            chunks.flatten ++ c = data) := by
  obtain ⟨⟨⟨st', log⟩, ok⟩, hr⟩ :=
    WriteRaw_logged_returns S Inv hstep data.length st [] data hinv (le_refl _)
  obtain ⟨chunks, tail, hlog, hne, hcases⟩ :=
    WriteRaw_logged_trace S Inv hstep data.length st [] data st' log ok hinv hr
  have hplain := WriteRaw_logged_fst S data.length st [] data
  rw [hr] at hplain
  simp only [Option.map_some', List.nil_append] at hplain hlog
  have hcl := length_le_flatten_length chunks hne
  refine ⟨st', log, ok, hr, hplain.symm, ?_, ?_, chunks, tail, hlog, hne, ?_⟩
  · rw [hlog, lendCount_append, lendCount_filledSpans]
    rcases hcases with ⟨_, h2, h3⟩ | ⟨_, c, size, h2, _, h3, h4⟩ | ⟨_, h2, rest, h3, h4⟩
    · rw [h2, ← h3]; simpa [lendCount] using hcl
    · have hc : 1 ≤ c.length := List.length_pos.mpr h2
      rw [h3, ← h4, List.length_append]
      simp only [lendCount]
      omega
    · have hc : 1 ≤ rest.length := List.length_pos.mpr h3
      rw [h2, ← h4, List.length_append]
      simp only [lendCount]
      omega
  · intro hd
    subst hd
    simp only [ZeroCopyOutputStream.WriteRaw, Option.some.injEq, Prod.mk.injEq] at hr
    exact hr.1.2.symm
  · intro hok
    rcases hcases with ⟨_, h2, h3⟩ | ⟨_, c, size, h2, h3, h4, h5⟩ | ⟨h1, _⟩
    · exact Or.inl ⟨h2, h3⟩
    · exact Or.inr ⟨c, size, h2, h3, h4, h5⟩
    · rw [h1] at hok; exact absurd hok (by decide)

theorem WriteRaw_terminates_witness :
    (logged FileOutputStream.stream).WriteRaw 6 (FileOutputStream.new OutFile.fresh 4, [])
        "abcdef".toList =
        some (({ file_ := { written := "abcd".toList, room := none, fflush_ok := true },
                 buffer_ := "efcd".toList, buffer_offset_ := 2, total_bytes_ := 4 },
                [Event.lent 4, Event.copied "abcd".toList, Event.lent 4,
                  Event.copied "ef".toList, Event.gaveBack 2]), true) ∧
      ∃ (st' : FileOutputStream) (log : List Event) (ok : Bool),
        (logged FileOutputStream.stream).WriteRaw "abcdef".toList.length
          (FileOutputStream.new OutFile.fresh 4, []) "abcdef".toList = some ((st', log), ok) ∧
        FileOutputStream.stream.WriteRaw "abcdef".toList.length
          (FileOutputStream.new OutFile.fresh 4) "abcdef".toList = some (st', ok) ∧
        lendCount log ≤ "abcdef".toList.length ∧ ("abcdef".toList = [] → log = []) ∧
        ∃ (chunks : List (List Char)) (tail : List Event),
          log = filledSpans chunks ++ tail ∧ (∀ c ∈ chunks, c ≠ []) ∧
          (ok = true →
            (tail = [] ∧ chunks.flatten = "abcdef".toList) ∨
            ∃ (c : List Char) (size : Int), c ≠ [] ∧ (c.length : Int) < size ∧
              tail = [Event.lent size, Event.copied c,
                Event.gaveBack (size - (c.length : Int))] ∧
              chunks.flatten ++ c = "abcdef".toList) :=
  ⟨by decide,
    WriteRaw_terminates FileOutputStream.stream
      (fun s => s.buffer_.length = 4 ∧ 0 ≤ s.buffer_offset_ ∧ s.buffer_offset_ ≤ ((4 : Nat) : Int))
      (fun st st1 pos size h hn => FileOutputStream_keeps_cursor 4 (by decide) st st1 pos size h hn)
      (FileOutputStream.new OutFile.fresh 4) (by decide) "abcdef".toList⟩

end code_generator

namespace code_generator

theorem digitChar_ne_newline (n : Nat) : Nat.digitChar (n % 10) ≠ '\n' := by
  have h : n % 10 < 10 := Nat.mod_lt _ (by decide)
  generalize n % 10 = k at h
  interval_cases k <;> decide

theorem toDigitsCore_getLast (b : Nat) (fuel : Nat) :
    ∀ (n : Nat) (ds : List Char), ds ≠ [] →
      (Nat.toDigitsCore b fuel n ds).getLast? = ds.getLast? := by
  induction fuel with
  | zero => intro n ds _; rfl
  | succ fuel ih =>
    intro n ds hds
    unfold Nat.toDigitsCore
    dsimp only
    cases ds with
    | nil => exact absurd rfl hds
    | cons d ds =>
      split_ifs
      · rw [List.getLast?_cons_cons]
      · rw [ih _ _ (by simp), List.getLast?_cons_cons]

theorem toDigits_getLast (n : Nat) :
    (Nat.toDigits 10 n).getLast? = some (Nat.digitChar (n % 10)) := by
  unfold Nat.toDigits Nat.toDigitsCore
  dsimp only
  split_ifs
  · rfl
  · rw [toDigitsCore_getLast _ _ _ _ (by simp)]
    rfl

theorem toString_int_getLast (v : Int) :
    ∃ c, (toString v).toList.getLast? = some c ∧ c ≠ '\n' := by
  cases v with
  | ofNat m =>
    refine ⟨Nat.digitChar (m % 10), ?_, digitChar_ne_newline _⟩
    show (Nat.repr m).toList.getLast? = _
    exact toDigits_getLast m
  | negSucc m =>
    refine ⟨Nat.digitChar ((m + 1) % 10), ?_, digitChar_ne_newline _⟩
    show ("-" ++ Nat.repr (m + 1)).toList.getLast? = _
    have : ("-" ++ Nat.repr (m + 1)).toList = '-' :: Nat.toDigits 10 (m + 1) := rfl
    rw [this]
    have h := toDigits_getLast (m + 1)
    cases hd : Nat.toDigits 10 (m + 1) with
    | nil => rw [hd] at h; simp at h
    | cons d ds => rw [hd] at h; rw [List.getLast?_cons_cons]; exact h

end code_generator

/-! ## The start-of-line flag -/

namespace code_generator

theorem FlagExact_of_EndsLine (f : Formatter) (h : f.EndsLine) : f.FlagExact :=
  ⟨fun _ => Or.inr h.2, fun _ => h.1⟩

theorem FlagExact_of_SameLine (f g : Formatter) (h : f.SameLine g) (hf : f.FlagExact) :
    g.FlagExact := by
  unfold Formatter.FlagExact at hf ⊢
  rw [h.1, h.2]; exact hf

theorem EndsLine_of_SameLine (f g : Formatter) (h : f.SameLine g) (hf : f.EndsLine) :
    g.EndsLine := by
  unfold Formatter.EndsLine at hf ⊢
  rw [h.1, h.2]; exact hf

theorem SameLine_refl (f : Formatter) : f.SameLine f := ⟨rfl, rfl⟩

theorem SameLine_trans (f g k : Formatter) (h1 : f.SameLine g) (h2 : g.SameLine k) :
    f.SameLine k := ⟨h2.1.trans h1.1, h2.2.trans h1.2⟩

theorem SameLine_Indent (f : Formatter) : f.SameLine f.Indent := ⟨rfl, rfl⟩

theorem SameLine_push (f : Formatter) (b : BlockState) : f.SameLine (f.push b) := ⟨rfl, rfl⟩

theorem SameLine_pop (f : Formatter) : f.SameLine f.pop := ⟨rfl, rfl⟩

theorem SameLine_SetIndentLevel (f : Formatter) (l : Int) : f.SameLine (f.SetIndentLevel l) :=
  ⟨rfl, rfl⟩

theorem SameLine_Outdent (f : Formatter) : f.SameLine f.Outdent := by
  unfold Formatter.Outdent
  split_ifs
  · exact ⟨rfl, rfl⟩
  · exact ⟨rfl, rfl⟩

theorem SameLine_updateTop (f : Formatter) (g : BlockState → BlockState) :
    f.SameLine (f.updateTop g) := by
  unfold Formatter.updateTop
  split
  · exact ⟨rfl, rfl⟩
  · exact ⟨rfl, rfl⟩

theorem EndsLine_EndLine (f : Formatter) : f.EndLine.EndsLine := by
  simp [Formatter.EndsLine, Formatter.EndLine]

theorem EndsLine_AddLine (f : Formatter) (t : List Char) : (f.AddLine t).EndsLine := by
  unfold Formatter.AddLine
  exact EndsLine_EndLine _

theorem WriteIndent_flag (f : Formatter) :
    f.WriteIndent.at_start_of_line_ = f.at_start_of_line_ := by
  unfold Formatter.WriteIndent Formatter.WriteString
  split_ifs <;> rfl

theorem Print_output (f : Formatter) (t : List Char) (ht : t ≠ []) :
    (f.Print t).output_ =
        (if f.at_start_of_line_ then f.WriteIndent.output_ else f.output_) ++ t ∧
      (f.Print t).at_start_of_line_ = false := by
  unfold Formatter.Print
  rw [if_neg ht]
  cases hs : f.at_start_of_line_
  · simp [Formatter.WriteString, hs]
  · simp [Formatter.WriteString]

theorem FlagExact_Print (f : Formatter) (t : List Char)
    (hlast : ∀ c, t.getLast? = some c → c ≠ '\n') (hf : f.FlagExact) :
    (f.Print t).FlagExact := by
  by_cases ht : t = []
  · subst ht
    simpa [Formatter.Print] using hf
  · obtain ⟨ho, hfl⟩ := Print_output f t ht
    unfold Formatter.FlagExact
    rw [ho, hfl]
    constructor
    · intro h; exact absurd h (by decide)
    · rintro (h | h)
      · exact absurd (List.append_eq_nil.mp h).2 ht
      · rw [List.getLast?_append_of_ne_nil _ ht] at h
        exact absurd rfl (hlast _ h)

theorem getLast_ne_newline_of_newlineFree (t : List Char) (h : newlineFree t = true) :
    ∀ c, t.getLast? = some c → c ≠ '\n' := by
  intro c hc hn
  subst hn
  have hmem : '\n' ∈ t := List.mem_of_getLast?_eq_some hc
  simp [newlineFree] at h
  exact h hmem

theorem addLines_EndsLine_or_same (ls : List (List Char)) :
    ∀ f : Formatter, (f.addLines ls).EndsLine ∨ f.SameLine (f.addLines ls) := by
  induction ls with
  | nil => intro f; exact Or.inr (SameLine_refl f)
  | cons l ls ih =>
    intro f
    rw [Formatter.addLines_cons]
    rcases ih (f.AddLine l) with h | h
    · exact Or.inl h
    · exact Or.inl (EndsLine_of_SameLine _ _ h (EndsLine_AddLine f l))

theorem OpenBlockInternal_EndsLine_or_same (f : Formatter) (pre : List Char) :
    (f.OpenBlockInternal pre).EndsLine ∨ f.SameLine (f.OpenBlockInternal pre) := by
  unfold Formatter.OpenBlockInternal
  dsimp only
  split_ifs
  · exact Or.inl (EndsLine_of_SameLine _ _ (SameLine_Indent _) (EndsLine_AddLine _ _))
  · exact Or.inl (EndsLine_AddLine _ _)
  · exact Or.inl (EndsLine_of_SameLine _ _ (SameLine_Indent _) (EndsLine_AddLine _ _))
  · exact Or.inr (SameLine_refl f)

theorem CloseBlock_EndsLine (f : Formatter) (suffix : List Char) :
    (f.CloseBlock suffix).EndsLine := by
  unfold Formatter.CloseBlock
  split_ifs
  · exact EndsLine_AddLine _ _
  · exact EndsLine_AddLine _ _

theorem opener_EndsLine (f : Formatter) (header : List Char) (b : BlockState) :
    (((f.AddLine header).push b).OpenBlockInternal []).EndsLine := by
  have h0 : ((f.AddLine header).push b).EndsLine :=
    EndsLine_of_SameLine _ _ (SameLine_push _ _) (EndsLine_AddLine _ _)
  rcases OpenBlockInternal_EndsLine_or_same ((f.AddLine header).push b) [] with h | h
  · exact h
  · exact EndsLine_of_SameLine _ _ h h0

theorem chain_EndsLine (f : Formatter) (suffix : List Char) (g : BlockState → BlockState) :
    (((f.CloseBlock suffix).updateTop g).OpenBlockInternal []).EndsLine := by
  have h0 : ((f.CloseBlock suffix).updateTop g).EndsLine :=
    EndsLine_of_SameLine _ _ (SameLine_updateTop _ _) (CloseBlock_EndsLine _ _)
  rcases OpenBlockInternal_EndsLine_or_same ((f.CloseBlock suffix).updateTop g) [] with h | h
  · exact h
  · exact EndsLine_of_SameLine _ _ h h0

theorem access_EndsLine (f : Formatter) (t : List Char) :
    ((f.Outdent.AddLine t).Indent).EndsLine :=
  EndsLine_of_SameLine _ _ (SameLine_Indent _) (EndsLine_AddLine _ _)

theorem apply_EndsLine_or_same (f : Formatter) (op : Op)
    (hp : ∀ text, op ≠ Op.Print text) (hi : ∀ value, op ≠ Op.PrintInt value) :
    (f.apply op).EndsLine ∨ f.SameLine (f.apply op) := by
  cases op with
  | Print text => exact absurd rfl (hp text)
  | PrintInt value => exact absurd rfl (hi value)
  | PrintLines lines => exact addLines_EndsLine_or_same lines f
  | Indent => exact Or.inr (SameLine_Indent f)
  | Outdent => exact Or.inr (SameLine_Outdent f)
  | SetIndentLevel level => exact Or.inr (SameLine_SetIndentLevel f level)
  | OpenBlock pre =>
    show (f.OpenBlock pre).EndsLine ∨ f.SameLine (f.OpenBlock pre)
    rw [Formatter.OpenBlock_eq]
    rcases OpenBlockInternal_EndsLine_or_same f pre with h | h
    · exact Or.inl (EndsLine_of_SameLine _ _ (SameLine_Indent _) h)
    · exact Or.inr (SameLine_trans _ _ _ h (SameLine_Indent _))
  | ScopeNew pre =>
    show (f.ScopeNew pre).EndsLine ∨ f.SameLine (f.ScopeNew pre)
    unfold Formatter.ScopeNew
    split_ifs
    · exact Or.inl (EndsLine_of_SameLine _ _ (SameLine_Indent _) (EndsLine_AddLine _ _))
    · exact Or.inr (SameLine_Indent f)
  | ScopeRelease => exact Or.inl (CloseBlock_EndsLine _ _)
  | CloseBlock suffix => exact Or.inl (CloseBlock_EndsLine _ _)
  | OpenBlockInternal pre => exact OpenBlockInternal_EndsLine_or_same f pre
  | EndLine => exact Or.inl (EndsLine_EndLine f)
  | AddLine line => exact Or.inl (EndsLine_AddLine f line)
  | AddComment comment =>
    show (f.AddComment comment).EndsLine ∨ f.SameLine (f.AddComment comment)
    unfold Formatter.AddComment
    split_ifs
    · exact Or.inl (EndsLine_AddLine _ _)
    · exact Or.inl (EndsLine_EndLine _)
  | If condition => exact Or.inl (opener_EndsLine f _ _)
  | Else =>
    show f.Else.EndsLine ∨ f.SameLine f.Else
    unfold Formatter.Else
    split_ifs
    · exact Or.inl (chain_EndsLine f _ _)
    · exact Or.inr (SameLine_refl f)
  | ElseIf condition =>
    show (f.ElseIf condition).EndsLine ∨ f.SameLine (f.ElseIf condition)
    unfold Formatter.ElseIf
    split_ifs
    · exact Or.inl (chain_EndsLine f _ _)
    · exact Or.inr (SameLine_refl f)
  | EndIf =>
    show f.EndIf.EndsLine ∨ f.SameLine f.EndIf
    unfold Formatter.EndIf
    split_ifs
    · exact Or.inl (EndsLine_of_SameLine _ _ (SameLine_pop _) (CloseBlock_EndsLine _ _))
    · exact Or.inr (SameLine_refl f)
  | For loop_header => exact Or.inl (opener_EndsLine f _ _)
  | While condition => exact Or.inl (opener_EndsLine f _ _)
  | EndLoop =>
    show f.EndLoop.EndsLine ∨ f.SameLine f.EndLoop
    unfold Formatter.EndLoop
    split_ifs
    · exact Or.inl (EndsLine_of_SameLine _ _ (SameLine_pop _) (CloseBlock_EndsLine _ _))
    · exact Or.inr (SameLine_refl f)
  | Class name inheritance => exact Or.inl (opener_EndsLine f _ _)
  | Struct name inheritance => exact Or.inl (opener_EndsLine f _ _)
  | EndClass =>
    show f.EndClass.EndsLine ∨ f.SameLine f.EndClass
    unfold Formatter.EndClass
    split_ifs
    · exact Or.inl (EndsLine_of_SameLine _ _ (SameLine_pop _) (CloseBlock_EndsLine _ _))
    · exact Or.inr (SameLine_refl f)
  | Namespace name =>
    exact Or.inl (EndsLine_of_SameLine _ _ (SameLine_Indent _)
      (EndsLine_of_SameLine _ _ (SameLine_push _ _) (EndsLine_AddLine _ _)))
  | EndNamespace =>
    show f.EndNamespace.EndsLine ∨ f.SameLine f.EndNamespace
    unfold Formatter.EndNamespace
    split
    · exact Or.inr (SameLine_refl f)
    · split_ifs
      · exact Or.inl (EndsLine_of_SameLine _ _ (SameLine_pop _) (EndsLine_AddLine _ _))
      · exact Or.inr (SameLine_refl f)
  | Enum name values => exact Or.inl (CloseBlock_EndsLine _ _)
  | Public => exact Or.inl (access_EndsLine f _)
  | Private => exact Or.inl (access_EndsLine f _)
  | Protected => exact Or.inl (access_EndsLine f _)
  | Include header => exact Or.inl (EndsLine_AddLine f _)
  | Define m => exact Or.inl (EndsLine_AddLine f _)
  | IfDef m => exact Or.inl (EndsLine_AddLine f _)
  | IfNDef m => exact Or.inl (EndsLine_AddLine f _)
  | EndIfDef => exact Or.inl (EndsLine_AddLine f _)
  | Flush => exact Or.inr (SameLine_refl f)

theorem FlagExact_apply (f : Formatter) (op : Op) (hop : op.newlineFree = true)
    (hf : f.FlagExact) : (f.apply op).FlagExact := by
  by_cases hp : ∃ text, op = Op.Print text
  · obtain ⟨text, rfl⟩ := hp
    exact FlagExact_Print f text (getLast_ne_newline_of_newlineFree text hop) hf
  · by_cases hi : ∃ value, op = Op.PrintInt value
    · obtain ⟨value, rfl⟩ := hi
      obtain ⟨c, hc, hne⟩ := toString_int_getLast value
      exact FlagExact_Print f _ (fun d hd => by rw [hc] at hd; cases hd; exact hne) hf
    · rcases apply_EndsLine_or_same f op (fun t ht => hp ⟨t, ht⟩) (fun v hv => hi ⟨v, hv⟩)
        with h | h
      · exact FlagExact_of_EndsLine _ h
      · exact FlagExact_of_SameLine _ _ h hf

theorem FlagExact_applyAll (ops : List Op) :
    ∀ f : Formatter, f.FlagExact → (∀ op ∈ ops, op.newlineFree = true) →
      (f.applyAll ops).FlagExact := by
  induction ops with
  | nil => intro f hf _; exact hf
  | cons op ops ih =>
    intro f hf hops
    exact ih (f.apply op) (FlagExact_apply f op (hops op (List.mem_cons_self _ _)) hf)
      (fun x hx => hops x (List.mem_cons_of_mem _ hx))

/-- C39: the start-of-line flag is exact. After every sequence of operations on a fresh
formatter whose text arguments hold no newline, the flag is set exactly when no byte has been
written or the last byte written is a newline. So a `Print` of a non-empty text writes the
indent prefix (what `WriteIndent` writes) before the text exactly when the output is at the
beginning of a line, and nowhere else. -/
theorem start_of_line_flag_exact (style : IndentStyle) (braces : Bool) (ops : List Op)
    (hops : ∀ op ∈ ops, op.newlineFree = true) :
    (((Formatter.new style braces).applyAll ops).at_start_of_line_ = true ↔
        (((Formatter.new style braces).applyAll ops).output_ = [] ∨
          ((Formatter.new style braces).applyAll ops).output_.getLast? = some '\n')) ∧
      ∀ text : List Char, text ≠ [] →
        (((Formatter.new style braces).applyAll ops).Print text).output_ =
          (if ((Formatter.new style braces).applyAll ops).output_ = [] ∨
              ((Formatter.new style braces).applyAll ops).output_.getLast? = some '\n'
            then ((Formatter.new style braces).applyAll ops).WriteIndent.output_
            else ((Formatter.new style braces).applyAll ops).output_) ++ text := by
  have hf : ((Formatter.new style braces).applyAll ops).FlagExact :=
    FlagExact_applyAll ops _ (by simp [Formatter.FlagExact, Formatter.new]) hops
  refine ⟨hf, fun text ht => ?_⟩
  rw [(Print_output _ text ht).1]
  unfold Formatter.FlagExact at hf
  by_cases hs : ((Formatter.new style braces).applyAll ops).at_start_of_line_ = true
  · rw [if_pos hs, if_pos (hf.mp hs)]
  · rw [if_neg hs, if_neg (fun h => hs (hf.mpr h))]

theorem start_of_line_flag_exact_witness :
    ((Formatter.new IndentStyle.SPACES_2 true).applyAll
        [Op.If "a".toList, Op.Print "x".toList, Op.PrintInt 7]).at_start_of_line_ = false ∧
      (((Formatter.new IndentStyle.SPACES_2 true).applyAll
        [Op.If "a".toList, Op.Print "x".toList, Op.PrintInt 7]).Print ";".toList).output_ =
        "if (a)\n\x7b\n  x7;".toList :=
  ⟨by decide,
    ((start_of_line_flag_exact IndentStyle.SPACES_2 true
      [Op.If "a".toList, Op.Print "x".toList, Op.PrintInt 7] (by decide)).2 ";".toList
      (by decide)).trans (by decide)⟩

end code_generator

/-! ## The bounded `ReadToString`, and the header of a function implementation -/

namespace code_generator

/-- C38 does not hold of the code: the bounded `ReadToString` calls `reserve`, which does not
change the length of `str`, and passes `&(*str)[0]` to `ReadRaw`, so the bytes read overwrite
`str` from its first byte on instead of being appended. Whatever the channel, `str` has the
length it had. Over the bytes `abcdef` (buffer of 4), `ReadToString(str, 2)` with `str` equal
to `xyz` returns `true` and leaves `abz` in `str`, not `xyzab`; the unbounded form appends. -/
theorem bounded_ReadToString_overwrites :
    (∀ (σ : Type) (S : ZeroCopyInputStream σ) (fuel : Nat) (st : σ) (str : List Char) (n : Nat),
        ((S.ReadToString fuel st str (n : Int)).map (fun r => r.2.1.length)).getD str.length =
          str.length) ∧
      (FileInputStream.stream.ReadToString 3 (FileInputStream.new ⟨"abcdef".toList⟩ 4)
          "xyz".toList 2).map (fun r => r.2) = some ("abz".toList, true) ∧
      (FileInputStream.stream.ReadToString 3 (FileInputStream.new ⟨"abcdef".toList⟩ 4)
          "xyz".toList (-1)).map (fun r => r.2) = some ("xyzabcdef".toList, true) := by
  refine ⟨?_, by decide, by decide⟩
  intro σ S fuel st str n
  unfold ZeroCopyInputStream.ReadToString
  rw [if_neg (by omega)]
  rcases S.ReadRaw fuel st (n : Int) [] with _ | ⟨st1, bytes, ok⟩
  · rfl
  · simp only [Option.map_some', Option.getD_some, List.length_append, List.length_take,
      List.length_drop]
    omega

/-- C40 does not hold of the code: `GenerateFunctionImplementation` inserts `ClassName::` at
the first place where the name of the function occurs in the signature
(`signature.find(func.name)`), which lies inside the return type or a qualifier when the name
occurs there. For the function `get` returning `Widget` and the class `Foo` the header line is
`WidFoo::get get()` instead of `Widget Foo::get()`; for the function `size` returning `int` it
is `int Foo::size()`. -/
theorem implementation_header_first_occurrence :
    CppFunction.GetSignature
        { return_type := "Widget".toList, name := "get".toList, parameters := [],
          is_virtual := false, is_pure_virtual := false, is_const := false,
          is_static := false, body := "return w;".toList,
          access_specifier := "public".toList } = "Widget get()".toList ∧
      find "Widget get()".toList "get".toList = some 3 ∧
      (CppGenerator.GenerateFunctionImplementation
        (Formatter.new IndentStyle.SPACES_2 true)
        { return_type := "Widget".toList, name := "get".toList, parameters := [],
          is_virtual := false, is_pure_virtual := false, is_const := false,
          is_static := false, body := "return w;".toList,
          access_specifier := "public".toList } "Foo".toList).output_ =
        "WidFoo::get get()\n\x7b\n  return w;\n\x7d\n".toList ∧
      (CppGenerator.GenerateFunctionImplementation
        (Formatter.new IndentStyle.SPACES_2 true)
        { return_type := "int".toList, name := "size".toList, parameters := [],
          is_virtual := false, is_pure_virtual := false, is_const := true,
          is_static := false, body := "return n;".toList,
          access_specifier := "public".toList } "Foo".toList).output_ =
        "int Foo::size() const\n\x7b\n  return n;\n\x7d\n".toList := by
  decide

end code_generator
